import Mathlib

/-!
# Band processing of the CELT codec (`libcelt/bands.c`)

A shallow embedding of `bands.c`.  Buffers reached through C pointers are maps
from indices to samples (`Nat → F`), and a store `X[i] = v` is
`Function.update X i v`.  The sample type `F` is any linearly ordered field;
the theorems are stated over the real numbers, with `Real.sqrt`, `Real.cos`
and `Real.sin` for the `math.h` functions, so `float` arithmetic is idealised
as exact arithmetic.
-/

namespace Celt

/-! ## Data model -/

/-- The fields of `CELTMode` read by `bands.c`. -/
structure CELTMode where
  nbMdctBlocks : Nat
  nbChannels : Nat
  nbEBands : Nat
  eBands : Nat → Nat
  pitchEnd : Nat
  nbPBands : Nat
  pBands : Nat → Nat

/-- The loop `for (j = lo; j < hi; j++) st = body j st`. -/
def forLoop {σ : Type} (lo hi : Nat) (body : Nat → σ → σ) (st : σ) : σ :=
  (List.range' lo (hi - lo)).foldl (fun acc j => body j acc) st

/-- The loop `for (i = n - 1; i >= 0; i--) st = body i st`. -/
def forDown {σ : Type} (n : Nat) (body : Nat → σ → σ) (st : σ) : σ :=
  (List.range n).reverse.foldl (fun acc i => body i acc) st

/-- The memory seen through the pointer `X + off`. -/
def shift {F : Type} (X : Nat → F) (off : Nat) : Nat → F :=
  fun k => X (off + k)

/-- Run `f` on the pointer `X + off`: the memory from `off` on is what `f` leaves there. -/
def atOffset {F : Type} (X : Nat → F) (off : Nat) (f : (Nat → F) → (Nat → F)) : Nat → F :=
  fun j => if off ≤ j then f (shift X off) (j - off) else X j

/-- Store the `n` samples `v[0 .. n)` at `X + off`. -/
def blit {F : Type} (X : Nat → F) (off n : Nat) (v : Nat → F) : Nat → F :=
  fun j => if off ≤ j ∧ j < off + n then v (j - off) else X j

section Scalings

variable {F : Type} [LinearOrderedField F]

/-- Modelled from the spec: the macro `ENER_SCALING` is not in `bands.c`; in the
floating-point build the scaling constants collapse to unity. -/
def ENER_SCALING : F := 1

/-- Modelled from the spec: the macro `ENER_SCALING_1` (inverse of `ENER_SCALING`), unity in
the floating-point build. -/
def ENER_SCALING_1 : F := 1

/-- Modelled from the spec: the macro `NORM_SCALING`, unity in the floating-point build. -/
def NORM_SCALING : F := 1

/-- Modelled from the spec: the macro `NORM_SCALING_1`, unity in the floating-point build. -/
def NORM_SCALING_1 : F := 1

/-- Modelled from the spec: the macro `SIG_SCALING`, unity in the floating-point build. -/
def SIG_SCALING : F := 1

/-- Modelled from the spec: the macro `SIG_SCALING_1`, unity in the floating-point build. -/
def SIG_SCALING_1 : F := 1

end Scalings

/-! ## The functions of `bands.c` -/

section Code

variable {F : Type} [LinearOrderedField F]

/-- One elementary rotation of `exp_rotation`, the body of both inner loops:
`x1 = X[i]; x2 = X[i+stride]; X[i] = c*x1 - s*x2; X[i+stride] = c*x2 + s*x1`. -/
def rotate_pair (c s : F) (stride i : Nat) (X : Nat → F) : Nat → F :=
  let x1 := X i
  let x2 := X (i + stride)
  let X := Function.update X i (c * x1 - s * x2)
  Function.update X (i + stride) (c * x2 + s * x1)

/-- `exp_rotation(X, len, theta, dir, stride, iter)`; `cos` and `sin` are the `math.h`
functions. -/
def exp_rotation (cos sin : F → F) (X : Nat → F) (len : Nat) (theta : F) (dir : Int)
    (stride iter : Nat) : Nat → F :=
  let c := cos theta
  let s := (dir : F) * sin theta
  forLoop 0 iter (fun _ X =>
    let X := forLoop 0 (len - stride) (fun i X => rotate_pair c s stride i X) X
    forDown (len - 2 * stride) (fun i X => rotate_pair c s stride i X) X) X

/-- `compute_band_energies(m, X, bank)`: the bank after the call. -/
def compute_band_energies (sqrt : F → F) (m : CELTMode) (X : Nat → F) (bank : Nat → F) :
    Nat → F :=
  let eBands := m.eBands
  let B := m.nbMdctBlocks
  let C := m.nbChannels
  forLoop 0 C (fun c bank =>
    forLoop 0 m.nbEBands (fun i bank =>
      let sum := forLoop (B * eBands i) (B * eBands (i + 1))
        (fun j sum => sum + SIG_SCALING_1 * SIG_SCALING_1 * X (j * C + c) * X (j * C + c))
        (1e-10 : F)
      Function.update bank (i * C + c) (ENER_SCALING * sqrt sum)) bank) bank

/-- `normalise_bands(m, freq, X, bank)`: the array `X` after the call. -/
def normalise_bands (sqrt : F → F) (m : CELTMode) (freq : Nat → F) (X : Nat → F)
    (bank : Nat → F) : Nat → F :=
  let eBands := m.eBands
  let B := m.nbMdctBlocks
  let C := m.nbChannels
  let X := forLoop 0 C (fun c X =>
    forLoop 0 m.nbEBands (fun i X =>
      let g := 1 / (1e-10 + ENER_SCALING_1 * bank (i * C + c) * sqrt (C : F))
      forLoop (B * eBands i) (B * eBands (i + 1))
        (fun j X => Function.update X (j * C + c)
          (NORM_SCALING * SIG_SCALING_1 * freq (j * C + c) * g)) X) X) X
  forLoop (B * C * eBands m.nbEBands) (B * C * eBands (m.nbEBands + 1))
    (fun i X => Function.update X i 0) X

/-- `renormalise_bands(m, X)`; `tmpE` is the content of the scratch array when it is
allocated. -/
def renormalise_bands (sqrt : F → F) (m : CELTMode) (X : Nat → F) (tmpE : Nat → F) :
    Nat → F :=
  let tmpE := compute_band_energies sqrt m X tmpE
  normalise_bands sqrt m X X tmpE

/-- `denormalise_bands(m, X, freq, bank)`: the array `freq` after the call. -/
def denormalise_bands (sqrt : F → F) (m : CELTMode) (X : Nat → F) (freq : Nat → F)
    (bank : Nat → F) : Nat → F :=
  let eBands := m.eBands
  let B := m.nbMdctBlocks
  let C := m.nbChannels
  let freq := forLoop 0 C (fun c freq =>
    forLoop 0 m.nbEBands (fun i freq =>
      let g := ENER_SCALING_1 * sqrt (C : F) * bank (i * C + c)
      forLoop (B * eBands i) (B * eBands (i + 1))
        (fun j freq => Function.update freq (j * C + c)
          (NORM_SCALING_1 * SIG_SCALING * X (j * C + c) * g)) freq) freq) freq
  forLoop (B * C * eBands m.nbEBands) (B * C * eBands (m.nbEBands + 1))
    (fun i freq => Function.update freq i 0) freq

/-- `compute_pitch_gain(m, X, P, gains, bank)`: the arrays `gains` and `P` after the call;
`w` is the content of the scratch array when it is allocated. -/
def compute_pitch_gain (m : CELTMode) (X P : Nat → F) (gains : Nat → F) (bank : Nat → F)
    (w : Nat → F) : (Nat → F) × (Nat → F) :=
  let eBands := m.eBands
  let pBands := m.pBands
  let B := m.nbMdctBlocks * m.nbChannels
  let w := forLoop 0 m.nbEBands (fun i w =>
    forLoop (B * eBands i) (B * eBands (i + 1))
      (fun j w => Function.update w j (bank i * ENER_SCALING_1)) w) w
  let gains := forLoop 0 m.nbPBands (fun i gains =>
    let S := forLoop (B * pBands i) (B * pBands (i + 1))
      (fun j (S : F × F) => (S.1 + 1 * X j * P j * w j, S.2 + 1 * X j * X j * w j)) (0, 0)
    let Sxy := S.1
    let Sxx := S.2
    let gain := Sxy / (1e-10 * NORM_SCALING * NORM_SCALING + Sxx)
    let gain := if gain > 1 then 1 else gain
    let gain := if gain < 0 then 0 else gain
    let gain := gain * 0.9
    Function.update gains i gain) gains
  let P := forLoop (B * pBands m.nbPBands) (B * pBands (m.nbPBands + 1))
    (fun i P => Function.update P i 0) P
  (gains, P)

/-- `pitch_quant_bands(m, X, P, gains)`: the array `P` after the call. -/
def pitch_quant_bands (m : CELTMode) (_X : Nat → F) (P : Nat → F) (gains : Nat → F) :
    Nat → F :=
  let pBands := m.pBands
  let B := m.nbMdctBlocks * m.nbChannels
  let P := forLoop 0 m.nbPBands (fun i P =>
    forLoop (B * pBands i) (B * pBands (i + 1))
      (fun j P => Function.update P j (P j * gains i)) P) P
  forLoop (B * pBands m.nbPBands) (B * pBands (m.nbPBands + 1))
    (fun i P => Function.update P i 0) P

/-- `stereo_mix(m, X, bank, dir)`: the array `X` after the call. -/
def stereo_mix (sqrt : F → F) (m : CELTMode) (X : Nat → F) (bank : Nat → F) (dir : Int) :
    Nat → F :=
  let eBands := m.eBands
  let B := m.nbMdctBlocks
  let C := m.nbChannels
  let X := forLoop 0 m.nbEBands (fun i X =>
    let left := bank (i * C)
    let right := bank (i * C + 1)
    let a1 := left / sqrt (0.01 + left * left + right * right)
    let a2 := (dir : F) * right / sqrt (0.01 + left * left + right * right)
    forLoop (B * eBands i) (B * eBands (i + 1)) (fun j X =>
      let l := X (j * C)
      let r := X (j * C + 1)
      let X := Function.update X (j * C) (a1 * l + a2 * r)
      Function.update X (j * C + 1) (a1 * r - a2 * l)) X) X
  forLoop (B * C * eBands m.nbEBands) (B * C * eBands (m.nbEBands + 1))
    (fun i X => Function.update X i 0) X

end Code

/-! ## Residual quantisation and its external collaborators -/

/-- The external collaborators of `quant_bands` and `unquant_bands` (the entropy coder, the bit
allocator, the intra predictors and the pulse codebook); their code is not in `bands.c`, so
they are parameters.  A band pointer `X + B*eBands[i]` reaches a collaborator as the view
`shift X (B*eBands[i])`; what the collaborator returns for an array it may write is stored
back over the `N` samples of the band. -/
structure Collab (F Enc Dec : Type) where
  /-- The call `ec_enc_tell(enc, b)`. -/
  ec_enc_tell : Enc → Int → Int
  /-- The call `ec_dec_tell(dec, b)`. -/
  ec_dec_tell : Dec → Int → Int
  /-- The call `compute_allocation(m, offsets, bits, pulses)`: the array `pulses` after it. -/
  compute_allocation : CELTMode → (Nat → Int) → Int → (Nat → Int) → (Nat → Int)
  /-- The call `intra_fold(x, N, Y, P, B, N0, Nmax)`: the band of `x` and of `P` after it. -/
  intra_fold : (Nat → F) → Int → (Nat → F) → (Nat → F) → Nat → Nat → Nat →
    (Nat → F) × (Nat → F)
  /-- The call `intra_prediction(x, W, N, K, Y, P, B, N0, enc)`: the band of `x` and of `P`
  and the encoder after it. -/
  intra_prediction : (Nat → F) → (Nat → F) → Int → Int → (Nat → F) → (Nat → F) → Nat → Nat →
    Enc → (Nat → F) × (Nat → F) × Enc
  /-- The call `intra_unquant(x, N, K, Y, P, B, N0, dec)`: the band of `x` and of `P` and the
  decoder after it. -/
  intra_unquant : (Nat → F) → Int → Int → (Nat → F) → (Nat → F) → Nat → Nat →
    Dec → (Nat → F) × (Nat → F) × Dec
  /-- The call `alg_quant(X, W, N, K, P, alpha, enc)`: the band of `X` and the encoder after
  it. -/
  alg_quant : (Nat → F) → (Nat → F) → Int → Int → (Nat → F) → F → Enc → (Nat → F) × Enc
  /-- The call `alg_unquant(X, N, K, P, alpha, dec)`: the band of `X` and the decoder after
  it. -/
  alg_unquant : (Nat → F) → Int → Int → (Nat → F) → F → Dec → (Nat → F) × Dec

/-- The variables that live across the band loop of `quant_bands` and `unquant_bands`. -/
structure QuantState (F E : Type) where
  X : Nat → F
  P : Nat → F
  norm : Nat → F
  alpha : F
  coder : E

section Quant

variable {F Enc Dec : Type} [LinearOrderedField F]

/-- The loop `for (j = B*eBands[i]; j < B*eBands[i+1]; j++) norm[j] = X[j] * n` that ends
the body of the band loop, in `quant_bands` and, with the same text, in `unquant_bands`;
`n = .0625f*sqrt(B*(eBands[i+1]-eBands[i]))` is set at the top of the body. -/
def store_norm {E : Type} (sqrt : F → F) (m : CELTMode) (i : Nat) (st : QuantState F E) :
    QuantState F E :=
  let eBands := m.eBands
  let B := m.nbMdctBlocks * m.nbChannels
  let N : Int := (B : Int) * ((eBands (i + 1) : Int) - (eBands i : Int))
  let n := 0.0625 * sqrt (N : F)
  let norm := forLoop (B * eBands i) (B * eBands (i + 1))
    (fun j norm => Function.update norm j (st.X j * n)) st.norm
  { st with norm := norm }

/-- First part of the body of the band loop of `quant_bands`: `q = pulses[i]` and the choice
between intra-frame prediction and pitch (`if (eBands[i] >= m->pitchEnd || q<=0) … else …`);
returns `q` and the variables after it. -/
def quant_predict (col : Collab F Enc Dec) (m : CELTMode) (W : Nat → F) (pulses : Nat → Int)
    (i : Nat) (st : QuantState F Enc) : Int × QuantState F Enc :=
  let eBands := m.eBands
  let B := m.nbMdctBlocks * m.nbChannels
  let off := B * eBands i
  let N : Int := (B : Int) * ((eBands (i + 1) : Int) - (eBands i : Int))
  let q := pulses i
  if eBands i ≥ m.pitchEnd ∨ q ≤ 0 then
    let q := q - 1
    let alpha : F := 0
    if q < 0 then
      let xp := col.intra_fold (shift st.X off) N st.norm (shift st.P off) B (eBands i)
        (eBands (m.nbEBands + 1))
      (q, { st with X := blit st.X off N.toNat xp.1, P := blit st.P off N.toNat xp.2,
                    alpha := alpha })
    else
      let xpe := col.intra_prediction (shift st.X off) (shift W off) N q st.norm
        (shift st.P off) B (eBands i) st.coder
      (q, { st with X := blit st.X off N.toNat xpe.1, P := blit st.P off N.toNat xpe.2.1,
                    alpha := alpha, coder := xpe.2.2 })
  else
    (q, { st with alpha := 0.7 })

/-- Second part of the body of the band loop of `quant_bands`: the block `if (q > 0) …` that
rotates `P` and `X`, calls `alg_quant` and rotates `X` back; `theta` is set at the top of the
body from `pulses[i]`, before `q` is decremented. -/
def quant_vq (cos sin : F → F) (col : Collab F Enc Dec) (m : CELTMode) (W : Nat → F)
    (pulses : Nat → Int) (i : Nat) (q : Int) (st : QuantState F Enc) : QuantState F Enc :=
  let eBands := m.eBands
  let B := m.nbMdctBlocks * m.nbChannels
  let off := B * eBands i
  let N : Int := (B : Int) * ((eBands (i + 1) : Int) - (eBands i : Int))
  let theta := 0.007 * (N : F) / (0.1 + (pulses i : F))
  if q > 0 then
    let P := atOffset st.P off (fun P => exp_rotation cos sin P N.toNat theta (-1) B 8)
    let X := atOffset st.X off (fun X => exp_rotation cos sin X N.toNat theta (-1) B 8)
    let xe := col.alg_quant (shift X off) (shift W off) N q (shift P off) st.alpha st.coder
    let X := blit X off N.toNat xe.1
    let X := atOffset X off (fun X => exp_rotation cos sin X N.toNat theta 1 B 8)
    { st with X := X, P := P, coder := xe.2 }
  else st

/-- The body of the band loop of `quant_bands`, for band `i`. -/
def quant_band (cos sin sqrt : F → F) (col : Collab F Enc Dec) (m : CELTMode) (W : Nat → F)
    (pulses : Nat → Int) (i : Nat) (st : QuantState F Enc) : QuantState F Enc :=
  let r := quant_predict col m W pulses i st
  let st := quant_vq cos sin col m W pulses i r.1 r.2
  store_norm sqrt m i st

/-- `quant_bands(m, X, P, W, total_bits, enc)`: the variables after the call (`X`, `P`, the
encoder, and the scratch `norm`); `norm`, `pulses` and `offsets` are the contents of the
scratch arrays when they are allocated. -/
def quant_bands (cos sin sqrt : F → F) (col : Collab F Enc Dec) (m : CELTMode) (X P : Nat → F)
    (W : Nat → F) (total_bits : Int) (enc : Enc) (norm : Nat → F) (pulses offsets : Nat → Int) :
    QuantState F Enc :=
  let eBands := m.eBands
  let B := m.nbMdctBlocks * m.nbChannels
  let offsets := forLoop 0 m.nbEBands (fun i offsets => Function.update offsets i 0) offsets
  let bits := total_bits - col.ec_enc_tell enc 0 - 1
  let pulses := col.compute_allocation m offsets bits pulses
  let st := forLoop 0 m.nbEBands (quant_band cos sin sqrt col m W pulses)
    { X := X, P := P, norm := norm, alpha := 0.7, coder := enc }
  let X := forLoop (B * eBands m.nbEBands) (B * eBands (m.nbEBands + 1))
    (fun i X => Function.update X i 0) st.X
  { st with X := X }

/-- First part of the body of the band loop of `unquant_bands`: `q = pulses[i]` and the choice
between intra-frame prediction and pitch; returns `q` and the variables after it. -/
def unquant_predict (col : Collab F Enc Dec) (m : CELTMode) (pulses : Nat → Int)
    (i : Nat) (st : QuantState F Dec) : Int × QuantState F Dec :=
  let eBands := m.eBands
  let B := m.nbMdctBlocks * m.nbChannels
  let off := B * eBands i
  let N : Int := (B : Int) * ((eBands (i + 1) : Int) - (eBands i : Int))
  let q := pulses i
  if eBands i ≥ m.pitchEnd ∨ q ≤ 0 then
    let q := q - 1
    let alpha : F := 0
    if q < 0 then
      let xp := col.intra_fold (shift st.X off) N st.norm (shift st.P off) B (eBands i)
        (eBands (m.nbEBands + 1))
      (q, { st with X := blit st.X off N.toNat xp.1, P := blit st.P off N.toNat xp.2,
                    alpha := alpha })
    else
      let xpd := col.intra_unquant (shift st.X off) N q st.norm (shift st.P off) B
        (eBands i) st.coder
      (q, { st with X := blit st.X off N.toNat xpd.1, P := blit st.P off N.toNat xpd.2.1,
                    alpha := alpha, coder := xpd.2.2 })
  else
    (q, { st with alpha := 0.7 })

/-- Second part of the body of the band loop of `unquant_bands`: the block `if (q > 0) …` that
rotates `P`, calls `alg_unquant` and rotates `X` back. -/
def unquant_vq (cos sin : F → F) (col : Collab F Enc Dec) (m : CELTMode)
    (pulses : Nat → Int) (i : Nat) (q : Int) (st : QuantState F Dec) : QuantState F Dec :=
  let eBands := m.eBands
  let B := m.nbMdctBlocks * m.nbChannels
  let off := B * eBands i
  let N : Int := (B : Int) * ((eBands (i + 1) : Int) - (eBands i : Int))
  let theta := 0.007 * (N : F) / (0.1 + (pulses i : F))
  if q > 0 then
    let P := atOffset st.P off (fun P => exp_rotation cos sin P N.toNat theta (-1) B 8)
    let xd := col.alg_unquant (shift st.X off) N q (shift P off) st.alpha st.coder
    let X := blit st.X off N.toNat xd.1
    let X := atOffset X off (fun X => exp_rotation cos sin X N.toNat theta 1 B 8)
    { st with X := X, P := P, coder := xd.2 }
  else st

/-- The body of the band loop of `unquant_bands`, for band `i`. -/
def unquant_band (cos sin sqrt : F → F) (col : Collab F Enc Dec) (m : CELTMode)
    (pulses : Nat → Int) (i : Nat) (st : QuantState F Dec) : QuantState F Dec :=
  let r := unquant_predict col m pulses i st
  let st := unquant_vq cos sin col m pulses i r.1 r.2
  store_norm sqrt m i st

/-- `unquant_bands(m, X, P, total_bits, dec)`: the variables after the call; `norm`, `pulses`
and `offsets` are the contents of the scratch arrays when they are allocated. -/
def unquant_bands (cos sin sqrt : F → F) (col : Collab F Enc Dec) (m : CELTMode)
    (X P : Nat → F) (total_bits : Int) (dec : Dec) (norm : Nat → F)
    (pulses offsets : Nat → Int) : QuantState F Dec :=
  let eBands := m.eBands
  let B := m.nbMdctBlocks * m.nbChannels
  let offsets := forLoop 0 m.nbEBands (fun i offsets => Function.update offsets i 0) offsets
  let bits := total_bits - col.ec_dec_tell dec 0 - 1
  let pulses := col.compute_allocation m offsets bits pulses
  let st := forLoop 0 m.nbEBands (unquant_band cos sin sqrt col m pulses)
    { X := X, P := P, norm := norm, alpha := 0.7, coder := dec }
  let X := forLoop (B * eBands m.nbEBands) (B * eBands (m.nbEBands + 1))
    (fun i X => Function.update X i 0) st.X
  { st with X := X }

/-! ## Collaborators that are decode-of-encode pairs -/

/-- The collaborators are deterministic decode-of-encode pairs.  `Pre enc fin` says that the
encoder state `enc` is an earlier state of the stream that ends in `fin`; `Sync fin enc dec`
says that the decoder `dec` reads the stream of `fin` and has consumed what `enc` has written.
Samples are compared on the `N` samples of the band. -/
structure DecodeOfEncode (col : Collab F Enc Dec) (m : CELTMode) (Pre : Enc → Enc → Prop)
    (Sync : Enc → Enc → Dec → Prop) : Prop where
  /-- Every encoder state is an earlier state of itself. -/
  pre_refl : ∀ enc, Pre enc enc
  /-- Earlier states of earlier states are earlier states. -/
  pre_trans : ∀ a b c, Pre a b → Pre b c → Pre a c
  /-- `intra_prediction` only appends to the stream. -/
  intra_ext : ∀ x W N K Y P B N0 enc,
    Pre enc (col.intra_prediction x W N K Y P B N0 enc).2.2
  /-- `alg_quant` only appends to the stream. -/
  alg_ext : ∀ x W N K P alpha enc, Pre enc (col.alg_quant x W N K P alpha enc).2
  /-- The bits-used counters agree on both sides. -/
  tell : ∀ fin enc dec, Sync fin enc dec → col.ec_enc_tell enc 0 = col.ec_dec_tell dec 0
  /-- The allocation for the bands depends only on the mode, the band offsets and the bit
  budget. -/
  alloc : ∀ (offsets offsets' : Nat → Int) (bits : Int) (pulses pulses' : Nat → Int),
    (∀ i, i < m.nbEBands → offsets i = offsets' i) →
    ∀ i, i < m.nbEBands →
      col.compute_allocation m offsets bits pulses i
        = col.compute_allocation m offsets' bits pulses' i
  /-- What `intra_fold` writes to the band of `x` and `P` depends only on the context `Y`
  below the band and on `P`. -/
  fold : ∀ x x' N Y Y' P B N0 Nmax, (∀ j, j < B * N0 → Y j = Y' j) →
    ∀ k, k < N.toNat →
      (col.intra_fold x N Y P B N0 Nmax).1 k = (col.intra_fold x' N Y' P B N0 Nmax).1 k
      ∧ (col.intra_fold x N Y P B N0 Nmax).2 k = (col.intra_fold x' N Y' P B N0 Nmax).2 k
  /-- `intra_unquant` yields the same `P` as `intra_prediction`, and for `K = 0` (no pulse
  follows) the same `x`. -/
  intra : ∀ fin x x' W N K Y Y' P B N0 enc dec, Sync fin enc dec →
    Pre (col.intra_prediction x W N K Y P B N0 enc).2.2 fin →
    (∀ j, j < B * N0 → Y j = Y' j) →
    Sync fin (col.intra_prediction x W N K Y P B N0 enc).2.2
        (col.intra_unquant x' N K Y' P B N0 dec).2.2
    ∧ (∀ k, k < N.toNat →
        (col.intra_prediction x W N K Y P B N0 enc).2.1 k
          = (col.intra_unquant x' N K Y' P B N0 dec).2.1 k)
    ∧ (K = 0 → ∀ k, k < N.toNat →
        (col.intra_prediction x W N K Y P B N0 enc).1 k
          = (col.intra_unquant x' N K Y' P B N0 dec).1 k)
  /-- `alg_unquant` returns the reconstruction that `alg_quant` wrote into `X`. -/
  alg : ∀ fin x x' W N K P alpha enc dec, Sync fin enc dec →
    Pre (col.alg_quant x W N K P alpha enc).2 fin →
    Sync fin (col.alg_quant x W N K P alpha enc).2 (col.alg_unquant x' N K P alpha dec).2
    ∧ (∀ k, k < N.toNat →
        (col.alg_quant x W N K P alpha enc).1 k = (col.alg_unquant x' N K P alpha dec).1 k)

/-- The encoder variables `se` and the decoder variables `sd` agree: `X` below `bX`, `norm`
below `bN`, all of `P`, and the coders are synchronised on the stream of `fin`. -/
structure Agree (Sync : Enc → Enc → Dec → Prop) (fin : Enc) (bX bN : Nat)
    (se : QuantState F Enc) (sd : QuantState F Dec) : Prop where
  X : ∀ j, j < bX → se.X j = sd.X j
  norm : ∀ j, j < bN → se.norm j = sd.norm j
  P : se.P = sd.P
  sync : Sync fin se.coder sd.coder

end Quant

/-! ## Reference rotation of the specification -/

/-- The elementary rotations at the indices of `l`, applied in the order of the list. -/
def apply_rotations {F : Type} [LinearOrderedField F] (c s : F) (stride : Nat) (l : List Nat)
    (X : Nat → F) : Nat → F :=
  l.foldl (fun X i => rotate_pair c s stride i X) X

/-- The reference rotation that the specification describes for undoing `exp_rotation` (it is
not in `bands.c`): per iteration it performs the elementary rotations of `exp_rotation` in
reversed order, first those of the reverse pass with ascending `i`, then those of the forward
pass with descending `i`. -/
def exp_rotation_reversed_reference {F : Type} [LinearOrderedField F] (cos sin : F → F)
    (X : Nat → F) (len : Nat) (theta : F) (dir : Int) (stride iter : Nat) : Nat → F :=
  let c := cos theta
  let s := (dir : F) * sin theta
  forLoop 0 iter (fun _ X =>
    let X := forLoop 0 (len - 2 * stride) (fun i X => rotate_pair c s stride i X) X
    forDown (len - stride) (fun i X => rotate_pair c s stride i X) X) X

/-! ## Mode invariants and sample inputs -/

/-- The band boundaries `eBands[0 .. nbEBands+1]` are in non-decreasing order. -/
def CELTMode.ordered (m : CELTMode) : Prop :=
  ∀ i, i ≤ m.nbEBands → m.eBands i ≤ m.eBands (i + 1)

/-- A mono mode with one block and the single band `[0, 8)`, followed by eight bins of
padding. -/
def monoMode : CELTMode :=
  { nbMdctBlocks := 1, nbChannels := 1, nbEBands := 1, eBands := fun i => 8 * i,
    pitchEnd := 8, nbPBands := 1, pBands := fun i => 8 * i }

/-- A stereo mode with one block and the single band `[0, 4)`, followed by four bins of
padding. -/
def stereoMode : CELTMode :=
  { nbMdctBlocks := 1, nbChannels := 2, nbEBands := 1, eBands := fun i => 4 * i,
    pitchEnd := 4, nbPBands := 1, pBands := fun i => 4 * i }

/-- A quiet signal: three samples of amplitude `1e-5`, zero elsewhere. -/
def quietSignal {F : Type} [LinearOrderedField F] : Nat → F :=
  fun k => if k < 3 then 1e-5 else 0

/-- A buffer holding zero everywhere. -/
def zeroBuf {F : Type} [LinearOrderedField F] : Nat → F :=
  fun _ => 0

/-- The stereo signal with left channel `[1,0,0,0]` and right channel `[0,1,0,0]`,
interleaved. -/
def stereoSignal {F : Type} [LinearOrderedField F] : Nat → F :=
  fun k => if k = 0 ∨ k = 3 then 1 else 0

/-- A bank holding one everywhere. -/
def unitBank {F : Type} [LinearOrderedField F] : Nat → F :=
  fun _ => 1

/-- A toy pulse codec over a stream of samples, used as a sample collaborator: `alg_quant`
writes the first sample of the band to the stream and reconstructs every sample of the band as
that sample plus `alpha` times the prediction; `alg_unquant` reads the sample back.  The
encoder is the list of symbols written, the decoder the number of symbols read with the list
of symbols still to read.  The allocator gives three pulses to every band. -/
def listCodec {F : Type} [LinearOrderedField F] : Collab F (List F) (Nat × List F) where
  ec_enc_tell := fun enc _ => (enc.length : Int)
  ec_dec_tell := fun dec _ => (dec.1 : Int)
  compute_allocation := fun _ _ _ _ _ => 3
  intra_fold := fun _ _ _ _ _ _ _ => (zeroBuf, zeroBuf)
  intra_prediction := fun x _ _ K _ _ _ _ enc => (if K = 0 then zeroBuf else x, zeroBuf, enc)
  intra_unquant := fun x _ K _ _ _ _ dec => (if K = 0 then zeroBuf else x, zeroBuf, dec)
  alg_quant := fun x _ _ _ P alpha enc => (fun k => x 0 + alpha * P k, enc ++ [x 0])
  alg_unquant := fun x _ _ P alpha dec =>
    match dec.2 with
    | c :: rest => (fun k => c + alpha * P k, (dec.1 + 1, rest))
    | [] => (x, dec)

/-- The stream of `enc` is the beginning of the stream of `fin`. -/
def listPre {F : Type} (enc fin : List F) : Prop :=
  enc <+: fin

/-- The decoder has read as many symbols as `enc` holds and still has to read the rest of
`fin`. -/
def listSync {F : Type} (fin enc : List F) (dec : Nat × List F) : Prop :=
  dec.1 = enc.length ∧ fin = enc ++ dec.2

/-- A bank holding 100 everywhere. -/
def loudBank {F : Type} [LinearOrderedField F] : Nat → F :=
  fun _ => 100

/-! ## Pitch bands -/

/-- The pitch bands are in non-decreasing order and lie inside the range of the energy bands:
`eBands[0] ≤ pBands[0]` and `pBands[nbPBands] ≤ eBands[nbEBands]`. -/
def CELTMode.pitch_inside (m : CELTMode) : Prop :=
  (∀ p, p < m.nbPBands → m.pBands p ≤ m.pBands (p + 1))
  ∧ m.eBands 0 ≤ m.pBands 0
  ∧ m.pBands m.nbPBands ≤ m.eBands m.nbEBands

/-- The weight-building loop of `compute_pitch_gain`, its first loop: the array `w` after
it. -/
def pitch_weights {F : Type} [LinearOrderedField F] (m : CELTMode) (bank : Nat → F)
    (w : Nat → F) : Nat → F :=
  let eBands := m.eBands
  let B := m.nbMdctBlocks * m.nbChannels
  forLoop 0 m.nbEBands (fun i w =>
    forLoop (B * eBands i) (B * eBands (i + 1))
      (fun j w => Function.update w j (bank i * ENER_SCALING_1)) w) w

/-- A mono mode with one block, the two energy bands `[0, 1)` and `[1, 2)` and the single
pitch band `[0, 2)`. -/
def twoBandMode : CELTMode :=
  { nbMdctBlocks := 1, nbChannels := 1, nbEBands := 2, eBands := fun i => i,
    pitchEnd := 2, nbPBands := 1, pBands := fun i => 2 * i }

/-- The signal `1, -1, -1, …`. -/
def stepSignal {F : Type} [LinearOrderedField F] : Nat → F :=
  fun k => if k = 0 then 1 else -1

/-- A bank holding 2 for band 0 and 1 for every other band. -/
def tiltedBank {F : Type} [LinearOrderedField F] : Nat → F :=
  fun i => if i = 0 then 2 else 1

/-- The signal holding one everywhere. -/
def onesSignal {F : Type} [LinearOrderedField F] : Nat → F :=
  fun _ => 1

/-- Sample collaborators that mark the band they write: `intra_fold` writes ones,
`intra_prediction` and `intra_unquant` write twos, `alg_quant` and `alg_unquant` write threes;
the coders carry nothing and the allocator returns the array `pulses` as it finds it. -/
def markCodec {F : Type} [LinearOrderedField F] : Collab F Unit Unit where
  ec_enc_tell := fun _ _ => 0
  ec_dec_tell := fun _ _ => 0
  compute_allocation := fun _ _ _ pulses => pulses
  intra_fold := fun _ _ _ _ _ _ _ => (fun _ => 1, fun _ => 1)
  intra_prediction := fun _ _ _ _ _ _ _ _ enc => (fun _ => 2, fun _ => 2, enc)
  intra_unquant := fun _ _ _ _ _ _ _ dec => (fun _ => 2, fun _ => 2, dec)
  alg_quant := fun _ _ _ _ _ _ enc => (fun _ => 3, enc)
  alg_unquant := fun _ _ _ _ _ dec => (fun _ => 3, dec)

/-- The variables after the fold branch of the loop body for band `i`
(`alpha = 0; intra_fold(X+B*eBands[i], N, norm, P+B*eBands[i], B, eBands[i], eBands[nbEBands+1])`),
the same text in `quant_bands` and `unquant_bands`. -/
def fold_branch {F Enc Dec E : Type} [LinearOrderedField F] (col : Collab F Enc Dec)
    (m : CELTMode) (i : Nat) (st : QuantState F E) : QuantState F E :=
  let eBands := m.eBands
  let B := m.nbMdctBlocks * m.nbChannels
  let off := B * eBands i
  let N : Int := (B : Int) * ((eBands (i + 1) : Int) - (eBands i : Int))
  let xp := col.intra_fold (shift st.X off) N st.norm (shift st.P off) B (eBands i)
    (eBands (m.nbEBands + 1))
  { st with X := blit st.X off N.toNat xp.1, P := blit st.P off N.toNat xp.2, alpha := 0 }

/-- The variables after the intra-prediction branch of the loop body of `quant_bands` for
band `i` (`alpha = 0; intra_prediction(X+..., W+..., N, K, norm, P+..., B, eBands[i], enc)`). -/
def intra_branch_enc {F Enc Dec : Type} [LinearOrderedField F] (col : Collab F Enc Dec)
    (m : CELTMode) (W : Nat → F) (i : Nat) (K : Int) (st : QuantState F Enc) :
    QuantState F Enc :=
  let eBands := m.eBands
  let B := m.nbMdctBlocks * m.nbChannels
  let off := B * eBands i
  let N : Int := (B : Int) * ((eBands (i + 1) : Int) - (eBands i : Int))
  let xpe := col.intra_prediction (shift st.X off) (shift W off) N K st.norm
    (shift st.P off) B (eBands i) st.coder
  { st with X := blit st.X off N.toNat xpe.1, P := blit st.P off N.toNat xpe.2.1,
            alpha := 0, coder := xpe.2.2 }

/-- The variables after the intra-prediction branch of the loop body of `unquant_bands` for
band `i` (`alpha = 0; intra_unquant(X+..., N, K, norm, P+..., B, eBands[i], dec)`). -/
def intra_branch_dec {F Enc Dec : Type} [LinearOrderedField F] (col : Collab F Enc Dec)
    (m : CELTMode) (i : Nat) (K : Int) (st : QuantState F Dec) : QuantState F Dec :=
  let eBands := m.eBands
  let B := m.nbMdctBlocks * m.nbChannels
  let off := B * eBands i
  let N : Int := (B : Int) * ((eBands (i + 1) : Int) - (eBands i : Int))
  let xpd := col.intra_unquant (shift st.X off) N K st.norm (shift st.P off) B
    (eBands i) st.coder
  { st with X := blit st.X off N.toNat xpd.1, P := blit st.P off N.toNat xpd.2.1,
            alpha := 0, coder := xpd.2.2 }

/-- A bank whose entries are all `1000`. -/
def strongBank {F : Type} [LinearOrderedField F] : Nat → F :=
  fun _ => 1000

/-! ## The pairing conditions as the specification lists them -/

/-- The conditions on the collaborators that the specification lists for the encoder and
decoder pair, and no more: the stream only grows, the bits-used counters and the allocation
agree on both sides, `intra_unquant` yields the same `P` as `intra_prediction`, and
`alg_unquant` returns the reconstruction that `alg_quant` wrote into `X`.  Nothing is asked of
`intra_fold`, nor of what the intra predictors leave in the band of `X`. -/
structure ListedPairing {F Enc Dec : Type} [LinearOrderedField F] (col : Collab F Enc Dec)
    (m : CELTMode) (Pre : Enc → Enc → Prop) (Sync : Enc → Enc → Dec → Prop) : Prop where
  /-- Every encoder state is an earlier state of itself. -/
  pre_refl : ∀ enc, Pre enc enc
  /-- Earlier states of earlier states are earlier states. -/
  pre_trans : ∀ a b c, Pre a b → Pre b c → Pre a c
  /-- `intra_prediction` only appends to the stream. -/
  intra_ext : ∀ x W N K Y P B N0 enc,
    Pre enc (col.intra_prediction x W N K Y P B N0 enc).2.2
  /-- `alg_quant` only appends to the stream. -/
  alg_ext : ∀ x W N K P alpha enc, Pre enc (col.alg_quant x W N K P alpha enc).2
  /-- The bits-used counters agree on both sides. -/
  tell : ∀ fin enc dec, Sync fin enc dec → col.ec_enc_tell enc 0 = col.ec_dec_tell dec 0
  /-- The allocation for the bands depends only on the mode, the band offsets and the bit
  budget. -/
  alloc : ∀ (offsets offsets' : Nat → Int) (bits : Int) (pulses pulses' : Nat → Int),
    (∀ i, i < m.nbEBands → offsets i = offsets' i) →
    ∀ i, i < m.nbEBands →
      col.compute_allocation m offsets bits pulses i
        = col.compute_allocation m offsets' bits pulses' i
  /-- `intra_unquant` yields the same `P` as `intra_prediction`. -/
  intra : ∀ fin x x' W N K Y Y' P B N0 enc dec, Sync fin enc dec →
    Pre (col.intra_prediction x W N K Y P B N0 enc).2.2 fin →
    (∀ j, j < B * N0 → Y j = Y' j) →
    Sync fin (col.intra_prediction x W N K Y P B N0 enc).2.2
        (col.intra_unquant x' N K Y' P B N0 dec).2.2
    ∧ (∀ k, k < N.toNat →
        (col.intra_prediction x W N K Y P B N0 enc).2.1 k
          = (col.intra_unquant x' N K Y' P B N0 dec).2.1 k)
  /-- `alg_unquant` returns the reconstruction that `alg_quant` wrote into `X`. -/
  alg : ∀ fin x x' W N K P alpha enc dec, Sync fin enc dec →
    Pre (col.alg_quant x W N K P alpha enc).2 fin →
    Sync fin (col.alg_quant x W N K P alpha enc).2 (col.alg_unquant x' N K P alpha dec).2
    ∧ (∀ k, k < N.toNat →
        (col.alg_quant x W N K P alpha enc).1 k = (col.alg_unquant x' N K P alpha dec).1 k)

/-- Sample collaborators whose `intra_fold` and intra predictors leave the band of `X` as
they find it and set the prediction to zero; `alg_quant` and `alg_unquant` both reconstruct
`alpha` times the prediction; the coders carry nothing and the allocator gives no pulse to any
band. -/
def keepCodec {F : Type} [LinearOrderedField F] : Collab F Unit Unit where
  ec_enc_tell := fun _ _ => 0
  ec_dec_tell := fun _ _ => 0
  compute_allocation := fun _ _ _ _ _ => 0
  intra_fold := fun x _ _ _ _ _ _ => (x, zeroBuf)
  intra_prediction := fun x _ _ _ _ _ _ _ enc => (x, zeroBuf, enc)
  intra_unquant := fun x _ _ _ _ _ _ dec => (x, zeroBuf, dec)
  alg_quant := fun _ _ _ _ P alpha enc => (fun k => alpha * P k, enc)
  alg_unquant := fun _ _ _ P alpha dec => (fun k => alpha * P k, dec)

/-! ## The float build, with its roundings -/

/-- The finite numbers of the C type `float` (IEEE 754 binary32): `m * 2^e` with an integer
`|m| < 2^24` and `-149 ≤ e ≤ 104`. -/
def binary32 : Set ℝ :=
  {x | ∃ m e : Int, |m| < 2 ^ 24 ∧ -149 ≤ e ∧ e ≤ 104 ∧ x = (m : ℝ) * (2 : ℝ) ^ e}

/-- The finite numbers of the C type `double` (IEEE 754 binary64): `m * 2^e` with an integer
`|m| < 2^53` and `-1074 ≤ e ≤ 971`. -/
def binary64 : Set ℝ :=
  {x | ∃ m e : Int, |m| < 2 ^ 53 ∧ -1074 ≤ e ∧ e ≤ 971 ∧ x = (m : ℝ) * (2 : ℝ) ^ e}

/-- The function `r` rounds to nearest in the format `S`: `r x` is a number of `S` and no
number of `S` is closer to `x`.  Ties may go either way, so what is proved from this holds for
round-half-even as for any other tie rule; overflow to infinity is not modelled. -/
def IsNearest (S : Set ℝ) (r : ℝ → ℝ) : Prop :=
  ∀ x, r x ∈ S ∧ ∀ y ∈ S, |r x - x| ≤ |y - x|

section FloatBuild

variable {F : Type} [LinearOrderedField F]

/-- `compute_band_energies` (bands.c:73-92) with the roundings of the float build, where every
operation is rounded to the type C gives it: `rf` rounds to `float`, `rd` to `double`.
`float sum = 1e-10` converts the double constant; the products and the sum of `sum += ...` are
float operations; `sqrt` of `math.h` takes a double and returns the correctly rounded double
`rd (sqrt x)`, its product with `ENER_SCALING` is a double, and the store to the bank converts
to float. -/
def compute_band_energies_float (rf rd sqrt : F → F) (m : CELTMode) (X : Nat → F)
    (bank : Nat → F) : Nat → F :=
  let eBands := m.eBands
  let B := m.nbMdctBlocks
  let C := m.nbChannels
  forLoop 0 C (fun c bank =>
    forLoop 0 m.nbEBands (fun i bank =>
      let sum := forLoop (B * eBands i) (B * eBands (i + 1))
        (fun j sum => rf (sum
          + rf (rf (rf (SIG_SCALING_1 * SIG_SCALING_1) * X (j * C + c)) * X (j * C + c))))
        (rf (rd 1e-10))
      Function.update bank (i * C + c) (rf (rd (ENER_SCALING * rd (sqrt sum))))) bank) bank

/-- `normalise_bands` (bands.c:95-113) with the roundings of the float build: in
`float g = 1.f/(1e-10+ENER_SCALING_1*bank[i*C+c]*sqrt(C))` the product `ENER_SCALING_1*bank` is
a float operation, `sqrt(C)`, the product with it, the sum and the quotient are double
operations, and the store to `g` converts to float; the products of
`NORM_SCALING*SIG_SCALING_1*freq[j*C+c]*g` are float operations. -/
def normalise_bands_float (rf rd sqrt : F → F) (m : CELTMode) (freq : Nat → F) (X : Nat → F)
    (bank : Nat → F) : Nat → F :=
  let eBands := m.eBands
  let B := m.nbMdctBlocks
  let C := m.nbChannels
  let X := forLoop 0 C (fun c X =>
    forLoop 0 m.nbEBands (fun i X =>
      let g := rf (rd (1 / rd (rd 1e-10
        + rd (rf (ENER_SCALING_1 * bank (i * C + c)) * rd (sqrt (C : F))))))
      forLoop (B * eBands i) (B * eBands (i + 1))
        (fun j X => Function.update X (j * C + c)
          (rf (rf (rf (NORM_SCALING * SIG_SCALING_1) * freq (j * C + c)) * g))) X) X) X
  forLoop (B * C * eBands m.nbEBands) (B * C * eBands (m.nbEBands + 1))
    (fun i X => Function.update X i 0) X

/-- `stereo_mix` (bands.c:334-361) with the roundings of the float build: in
`a1 = left/sqrt(.01+left*left+right*right)` the products `left*left` and `right*right` are
float operations, the two sums, `sqrt` and the quotient are double operations, and the store
to `a1` converts to float; in `a2` the product `dir*right` is a float operation; the products,
the sum and the difference of the mixed samples are float operations. -/
def stereo_mix_float (rf rd sqrt : F → F) (m : CELTMode) (X : Nat → F) (bank : Nat → F)
    (dir : Int) : Nat → F :=
  let eBands := m.eBands
  let B := m.nbMdctBlocks
  let C := m.nbChannels
  let X := forLoop 0 m.nbEBands (fun i X =>
    let left := bank (i * C)
    let right := bank (i * C + 1)
    let a1 := rf (rd (left
      / rd (sqrt (rd (rd (rd 0.01 + rf (left * left)) + rf (right * right))))))
    let a2 := rf (rd (rf ((dir : F) * right)
      / rd (sqrt (rd (rd (rd 0.01 + rf (left * left)) + rf (right * right))))))
    forLoop (B * eBands i) (B * eBands (i + 1)) (fun j X =>
      let l := X (j * C)
      let r := X (j * C + 1)
      let X := Function.update X (j * C) (rf (rf (a1 * l) + rf (a2 * r)))
      Function.update X (j * C + 1) (rf (rf (a1 * r) - rf (a2 * l)))) X) X
  forLoop (B * C * eBands m.nbEBands) (B * C * eBands (m.nbEBands + 1))
    (fun i X => Function.update X i 0) X

end FloatBuild

/-- A unit impulse in bin 0 (the input `[1, 0, …, 0]`). -/
def impulseSignal {F : Type} [LinearOrderedField F] : Nat → F :=
  fun k => if k = 0 then 1 else 0

/-- A stereo bank with `left = 32768` and `right = 0` in band 0 (and zero elsewhere). -/
def leftBank {F : Type} [LinearOrderedField F] : Nat → F :=
  fun k => if k = 0 then 32768 else 0

/-! ## Loops -/

section Loops

variable {σ : Type}

theorem forLoop_of_le (lo hi : Nat) (body : Nat → σ → σ) (st : σ) (h : hi ≤ lo) :
    forLoop lo hi body st = st := by
  unfold forLoop
  rw [Nat.sub_eq_zero_of_le h]
  rfl

theorem forLoop_succ (lo hi : Nat) (body : Nat → σ → σ) (st : σ) (h : lo ≤ hi) :
    forLoop lo (hi + 1) body st = body hi (forLoop lo hi body st) := by
  unfold forLoop
  have e : hi + 1 - lo = (hi - lo) + 1 := by omega
  rw [e, List.range'_concat, List.foldl_append]
  have e2 : lo + 1 * (hi - lo) = hi := by omega
  rw [e2]
  rfl

/-- Loop invariant rule for `forLoop`. -/
theorem forLoop_induct (Q : Nat → σ → Prop) (lo hi : Nat) (body : Nat → σ → σ) (st : σ)
    (h : lo ≤ hi) (h0 : Q lo st)
    (hstep : ∀ j s, lo ≤ j → j < hi → Q j s → Q (j + 1) (body j s)) :
    Q hi (forLoop lo hi body st) := by
  induction hi with
  | zero =>
    have : lo = 0 := by omega
    subst this
    rw [forLoop_of_le _ _ _ _ (le_refl _)]
    exact h0
  | succ n ih =>
    rcases Nat.lt_or_ge n lo with hlt | hge
    · have : lo = n + 1 := by omega
      subst this
      rw [forLoop_of_le _ _ _ _ (le_refl _)]
      exact h0
    · rw [forLoop_succ _ _ _ _ hge]
      exact hstep n _ hge (Nat.lt_succ_self n)
        (ih hge (fun j s h1 h2 hq => hstep j s h1 (Nat.lt_succ_of_lt h2) hq))

/-- A property that every iteration preserves holds after the loop. -/
theorem forLoop_preserves (Q : σ → Prop) (lo hi : Nat) (body : Nat → σ → σ) (st : σ)
    (h0 : Q st) (hstep : ∀ j s, lo ≤ j → j < hi → Q s → Q (body j s)) :
    Q (forLoop lo hi body st) := by
  rcases Nat.lt_or_ge hi lo with hlt | hge
  · rw [forLoop_of_le _ _ _ _ (Nat.le_of_lt hlt)]
    exact h0
  · exact forLoop_induct (fun _ s => Q s) lo hi body st hge h0 hstep

/-- A cell that no iteration changes keeps its content. -/
theorem forLoop_frame {F : Type} (lo hi : Nat) (body : Nat → (Nat → F) → (Nat → F))
    (X : Nat → F) (k : Nat)
    (hframe : ∀ j s, lo ≤ j → j < hi → body j s k = s k) :
    forLoop lo hi body X k = X k :=
  forLoop_preserves (fun s => s k = X k) lo hi body X rfl
    (fun j s h1 h2 hq => by
      show body j s k = X k
      rw [hframe j s h1 h2]; exact hq)

/-- A cell that iteration `j0` sets to `v` and that no later iteration changes holds `v`
after the loop. -/
theorem forLoop_hit {F : Type} (lo hi : Nat) (body : Nat → (Nat → F) → (Nat → F))
    (X : Nat → F) (k j0 : Nat) (v : F) (h1 : lo ≤ j0) (h2 : j0 < hi)
    (hset : ∀ s, body j0 s k = v)
    (hframe : ∀ j s, j0 < j → j < hi → body j s k = s k) :
    forLoop lo hi body X k = v := by
  have key := forLoop_induct (fun j s => j0 < j → s k = v) lo hi body X (by omega)
    (fun h => absurd h (by omega))
    (fun j s hj1 hj2 hq hlt => by
      rcases Nat.lt_or_ge j0 j with h | h
      · rw [hframe j s h hj2]; exact hq h
      · have : j = j0 := by omega
        subst this
        exact hset s)
  exact key h2

/-- An accumulating loop computes a sum. -/
theorem forLoop_sum {F : Type} [AddCommMonoid F] (lo hi : Nat) (f : Nat → F) (init : F) :
    forLoop lo hi (fun j acc => acc + f j) init = init + ∑ j in Finset.Ico lo hi, f j := by
  rcases Nat.lt_or_ge hi lo with hlt | hge
  · rw [forLoop_of_le _ _ _ _ (Nat.le_of_lt hlt), Finset.Ico_eq_empty (by omega)]
    simp
  · induction hi with
    | zero =>
      rw [forLoop_of_le _ _ _ _ (Nat.zero_le lo)]
      simp
    | succ n ih =>
      rcases Nat.lt_or_ge n lo with hlt | hge2
      · have : lo = n + 1 := by omega
        subst this
        rw [forLoop_of_le _ _ _ _ (le_refl _)]
        simp
      · rw [forLoop_succ _ _ _ _ hge2, ih hge2, Finset.sum_Ico_succ_top hge2, add_assoc]

/-- The loop that zeroes the cells `[lo, hi)`. -/
theorem forLoop_zero_apply {F : Type} [Zero F] (lo hi : Nat) (X : Nat → F) (k : Nat) :
    forLoop lo hi (fun i X => Function.update X i 0) X k
      = if lo ≤ k ∧ k < hi then 0 else X k := by
  split_ifs with h
  · exact forLoop_hit lo hi _ X k k 0 h.1 h.2 (fun s => by simp)
      (fun j s hj _ => Function.update_noteq (by omega) _ _)
  · exact forLoop_frame lo hi _ X k
      (fun j s h1 h2 => Function.update_noteq (by omega) _ _)

end Loops

/-! ## Interleaved indices -/

/-- The interleaved index `j*C + c` determines the bin `j` and the channel `c < C`. -/
theorem interleave_inj {C j c j' c' : Nat} (hc : c < C) (hc' : c' < C)
    (h : j * C + c = j' * C + c') : j = j' ∧ c = c' := by
  have hm : (j * C + c) % C = (j' * C + c') % C := by rw [h]
  have hd : (j * C + c) / C = (j' * C + c') / C := by rw [h]
  have hC : 0 < C := by omega
  rw [Nat.mul_comm j C, Nat.mul_comm j' C, Nat.mul_add_mod, Nat.mul_add_mod,
    Nat.mod_eq_of_lt hc, Nat.mod_eq_of_lt hc'] at hm
  rw [Nat.mul_comm j C, Nat.mul_comm j' C, Nat.mul_add_div hC, Nat.mul_add_div hC,
    Nat.div_eq_of_lt hc, Nat.div_eq_of_lt hc'] at hd
  exact ⟨by omega, hm⟩

/-! ## Band energies -/

/-- What `compute_band_energies` stores for band `i` and channel `c`, over any scalar type. -/
theorem compute_band_energies_apply {F : Type} [LinearOrderedField F] (sqrt : F → F)
    (m : CELTMode) (X bank : Nat → F) (i c : Nat) (hi : i < m.nbEBands)
    (hc : c < m.nbChannels) :
    compute_band_energies sqrt m X bank (i * m.nbChannels + c)
      = sqrt (1e-10 + ∑ j in Finset.Ico (m.nbMdctBlocks * m.eBands i)
          (m.nbMdctBlocks * m.eBands (i + 1)),
            X (j * m.nbChannels + c) * X (j * m.nbChannels + c)) := by
  unfold compute_band_energies
  simp only [ENER_SCALING, SIG_SCALING_1, one_mul]
  apply forLoop_hit 0 m.nbChannels _ bank _ c _ (Nat.zero_le _) hc
  · intro s
    apply forLoop_hit 0 m.nbEBands _ s _ i _ (Nat.zero_le _) hi
    · intro s2
      rw [Function.update_same, forLoop_sum]
    · intro i2 s2 h1 _
      apply Function.update_noteq
      intro h
      have := (interleave_inj hc hc h).1
      omega
  · intro c2 s h1 h2
    apply forLoop_frame
    intro i2 s2 _ _
    apply Function.update_noteq
    intro h
    have := (interleave_inj hc h2 h).2
    omega

/-- C10: for every band `i < nbEBands` and channel `c < C`, `compute_band_energies` writes
`bank[i*C+c] = sqrt(1e-10 + Σ freq[j*C+c]²)`, the sum over `j` in `[B*eBands[i], B*eBands[i+1])`;
the entry is at least `sqrt(1e-10)` and so strictly positive, whatever the band holds. -/
theorem compute_band_energies_spec (m : CELTMode) (freq bank : Nat → ℝ) (i c : Nat)
    (hi : i < m.nbEBands) (hc : c < m.nbChannels) :
    compute_band_energies Real.sqrt m freq bank (i * m.nbChannels + c)
      = Real.sqrt (1e-10 + ∑ j in Finset.Ico (m.nbMdctBlocks * m.eBands i)
          (m.nbMdctBlocks * m.eBands (i + 1)), freq (j * m.nbChannels + c) ^ 2)
    ∧ Real.sqrt 1e-10 ≤ compute_band_energies Real.sqrt m freq bank (i * m.nbChannels + c)
    ∧ 0 < compute_band_energies Real.sqrt m freq bank (i * m.nbChannels + c) := by
  have hs : (0 : ℝ) ≤ ∑ j in Finset.Ico (m.nbMdctBlocks * m.eBands i)
      (m.nbMdctBlocks * m.eBands (i + 1)), freq (j * m.nbChannels + c) ^ 2 :=
    Finset.sum_nonneg (fun j _ => sq_nonneg _)
  have he : compute_band_energies Real.sqrt m freq bank (i * m.nbChannels + c)
      = Real.sqrt (1e-10 + ∑ j in Finset.Ico (m.nbMdctBlocks * m.eBands i)
          (m.nbMdctBlocks * m.eBands (i + 1)), freq (j * m.nbChannels + c) ^ 2) := by
    rw [compute_band_energies_apply Real.sqrt m freq bank i c hi hc]
    simp only [sq]
  rw [he]
  refine ⟨rfl, Real.sqrt_le_sqrt ?_, Real.sqrt_pos.mpr ?_⟩
  · linarith
  · have : (0 : ℝ) < 1e-10 := by norm_num
    linarith

/-! ## The channel and band loops -/

theorem CELTMode.ordered_le {m : CELTMode} (hord : m.ordered) {i k : Nat} (hik : i ≤ k)
    (hk : k ≤ m.nbEBands + 1) : m.eBands i ≤ m.eBands k := by
  induction k with
  | zero =>
    have : i = 0 := by omega
    subst this
    exact le_refl _
  | succ n ih =>
    rcases Nat.lt_or_ge n i with h | h
    · have : i = n + 1 := by omega
      subst this
      exact le_refl _
    · exact le_trans (ih h (by omega)) (hord n (by omega))

/-- The loops over channels, bands and bins shared by `normalise_bands` and
`denormalise_bands` store `v c i j` at the interleaved index `j*C + c` of band `i`. -/
theorem band_loops_hit {F : Type} (m : CELTMode) (hord : m.ordered) (v : Nat → Nat → Nat → F)
    (X : Nat → F) (i j c : Nat) (hi : i < m.nbEBands) (hc : c < m.nbChannels)
    (hj1 : m.nbMdctBlocks * m.eBands i ≤ j) (hj2 : j < m.nbMdctBlocks * m.eBands (i + 1)) :
    forLoop 0 m.nbChannels (fun c X =>
      forLoop 0 m.nbEBands (fun i X =>
        forLoop (m.nbMdctBlocks * m.eBands i) (m.nbMdctBlocks * m.eBands (i + 1))
          (fun j X => Function.update X (j * m.nbChannels + c) (v c i j)) X) X) X
      (j * m.nbChannels + c) = v c i j := by
  apply forLoop_hit 0 m.nbChannels _ X _ c _ (Nat.zero_le _) hc
  · intro s
    apply forLoop_hit 0 m.nbEBands _ s _ i _ (Nat.zero_le _) hi
    · intro s2
      apply forLoop_hit _ _ _ s2 _ j _ hj1 hj2
      · intro s3
        exact Function.update_same _ _ _
      · intro j2 s3 h1 _
        apply Function.update_noteq
        intro h
        have := (interleave_inj hc hc h).1
        omega
    · intro i2 s2 h1 h2
      apply forLoop_frame
      intro j2 s3 h3 _
      apply Function.update_noteq
      intro h
      have e1 := (interleave_inj hc hc h).1
      have e2 : m.eBands (i + 1) ≤ m.eBands i2 := CELTMode.ordered_le hord (by omega) (by omega)
      have e3 := Nat.mul_le_mul_left m.nbMdctBlocks e2
      omega
  · intro c2 s h1 h2
    apply forLoop_frame
    intro i2 s2 _ _
    apply forLoop_frame
    intro j2 s3 _ _
    apply Function.update_noteq
    intro h
    have := (interleave_inj hc h2 h).2
    omega

/-- The last interleaved index of band `i` lies below the padding region. -/
theorem band_index_lt_padding (m : CELTMode) (hord : m.ordered) (i j c : Nat)
    (hi : i < m.nbEBands) (hc : c < m.nbChannels)
    (hj2 : j < m.nbMdctBlocks * m.eBands (i + 1)) :
    j * m.nbChannels + c < m.nbMdctBlocks * m.nbChannels * m.eBands m.nbEBands := by
  have e2 : m.eBands (i + 1) ≤ m.eBands m.nbEBands := CELTMode.ordered_le hord (by omega) (by omega)
  have e3 : m.nbMdctBlocks * m.eBands (i + 1) ≤ m.nbMdctBlocks * m.eBands m.nbEBands :=
    Nat.mul_le_mul_left _ e2
  have e4 : j + 1 ≤ m.nbMdctBlocks * m.eBands m.nbEBands := by omega
  have e5 : (j + 1) * m.nbChannels ≤ m.nbMdctBlocks * m.eBands m.nbEBands * m.nbChannels :=
    Nat.mul_le_mul_right _ e4
  have e6 : m.nbMdctBlocks * m.eBands m.nbEBands * m.nbChannels
      = m.nbMdctBlocks * m.nbChannels * m.eBands m.nbEBands := by ring
  have e7 : (j + 1) * m.nbChannels = j * m.nbChannels + m.nbChannels := by ring
  omega

/-- What `normalise_bands` stores at a sample of band `i`, over any scalar type. -/
theorem normalise_bands_apply {F : Type} [LinearOrderedField F] (sqrt : F → F) (m : CELTMode)
    (hord : m.ordered) (freq X bank : Nat → F) (i j c : Nat) (hi : i < m.nbEBands)
    (hc : c < m.nbChannels) (hj1 : m.nbMdctBlocks * m.eBands i ≤ j)
    (hj2 : j < m.nbMdctBlocks * m.eBands (i + 1)) :
    normalise_bands sqrt m freq X bank (j * m.nbChannels + c)
      = freq (j * m.nbChannels + c)
          * (1 / (1e-10 + bank (i * m.nbChannels + c) * sqrt (m.nbChannels : F))) := by
  unfold normalise_bands
  simp only [ENER_SCALING_1, NORM_SCALING, SIG_SCALING_1, one_mul]
  rw [forLoop_zero_apply, if_neg (by
    have := band_index_lt_padding m hord i j c hi hc hj2
    omega)]
  exact band_loops_hit m hord
    (fun c i j => freq (j * m.nbChannels + c)
      * (1 / (1e-10 + bank (i * m.nbChannels + c) * sqrt (m.nbChannels : F))))
    X i j c hi hc hj1 hj2

/-- What `denormalise_bands` stores at a sample of band `i`, over any scalar type. -/
theorem denormalise_bands_apply {F : Type} [LinearOrderedField F] (sqrt : F → F)
    (m : CELTMode) (hord : m.ordered) (X freq bank : Nat → F) (i j c : Nat)
    (hi : i < m.nbEBands) (hc : c < m.nbChannels) (hj1 : m.nbMdctBlocks * m.eBands i ≤ j)
    (hj2 : j < m.nbMdctBlocks * m.eBands (i + 1)) :
    denormalise_bands sqrt m X freq bank (j * m.nbChannels + c)
      = X (j * m.nbChannels + c)
          * (sqrt (m.nbChannels : F) * bank (i * m.nbChannels + c)) := by
  unfold denormalise_bands
  simp only [ENER_SCALING_1, NORM_SCALING_1, SIG_SCALING, one_mul]
  rw [forLoop_zero_apply, if_neg (by
    have := band_index_lt_padding m hord i j c hi hc hj2
    omega)]
  exact band_loops_hit m hord
    (fun c i j => X (j * m.nbChannels + c)
      * (sqrt (m.nbChannels : F) * bank (i * m.nbChannels + c)))
    freq i j c hi hc hj1 hj2

/-! ## Normalisation followed by denormalisation -/

/-- The sample that `denormalise_bands` returns for a sample normalised by `normalise_bands`
with the same bank. -/
theorem denormalise_normalise_apply {F : Type} [LinearOrderedField F] (sqrt : F → F)
    (m : CELTMode) (hord : m.ordered) (s E X0 freq0 : Nat → F) (i j c : Nat)
    (hi : i < m.nbEBands) (hc : c < m.nbChannels) (hj1 : m.nbMdctBlocks * m.eBands i ≤ j)
    (hj2 : j < m.nbMdctBlocks * m.eBands (i + 1)) :
    denormalise_bands sqrt m (normalise_bands sqrt m s X0 E) freq0 E (j * m.nbChannels + c)
      = s (j * m.nbChannels + c)
          * (1 / (1e-10 + E (i * m.nbChannels + c) * sqrt (m.nbChannels : F)))
          * (sqrt (m.nbChannels : F) * E (i * m.nbChannels + c)) := by
  rw [denormalise_bands_apply sqrt m hord _ _ _ i j c hi hc hj1 hj2,
    normalise_bands_apply sqrt m hord _ _ _ i j c hi hc hj1 hj2]

/-- The energy that `compute_band_energies` finds in the band of `quietSignal`. -/
theorem quietSignal_energy (bank : Nat → ℝ) :
    compute_band_energies Real.sqrt monoMode quietSignal bank 0 = 2e-5 := by
  have h : compute_band_energies Real.sqrt monoMode quietSignal bank 0
      = Real.sqrt (1e-10 + ∑ j in Finset.Ico 0 8, quietSignal j * quietSignal j) :=
    compute_band_energies_apply Real.sqrt monoMode quietSignal bank 0 0
      (by decide) (by decide)
  rw [h]
  have e : (1e-10 : ℝ) + ∑ j in Finset.Ico 0 8, quietSignal j * quietSignal j
      = (2e-5 : ℝ) ^ 2 := by
    simp [Finset.sum_Ico_eq_sum_range, Finset.sum_range_succ, quietSignal]
    norm_num
  rw [e, Real.sqrt_sq (by norm_num)]

/-- C1, counterexample: for the mono mode with the band `[0, 8)` and the quiet signal (zero on
the padding), with the bank computed by `compute_band_energies` from that signal, sample 0 of
`denormalise_bands (normalise_bands s E) E` differs from `s[0]` by more than `1e-6` relative. -/
theorem denormalise_normalise_not_1e6 :
    ¬ (|denormalise_bands Real.sqrt monoMode
          (normalise_bands Real.sqrt monoMode quietSignal zeroBuf
            (compute_band_energies Real.sqrt monoMode quietSignal zeroBuf))
          zeroBuf (compute_band_energies Real.sqrt monoMode quietSignal zeroBuf) 0
        - quietSignal 0| ≤ 1e-6 * |(quietSignal 0 : ℝ)|) := by
  have hord : monoMode.ordered := fun i _ => by
    show 8 * i ≤ 8 * (i + 1)
    omega
  have h : denormalise_bands Real.sqrt monoMode
        (normalise_bands Real.sqrt monoMode quietSignal zeroBuf
          (compute_band_energies Real.sqrt monoMode quietSignal zeroBuf))
        zeroBuf (compute_band_energies Real.sqrt monoMode quietSignal zeroBuf) 0
      = quietSignal 0
          * (1 / (1e-10 + compute_band_energies Real.sqrt monoMode quietSignal zeroBuf 0
              * Real.sqrt ((1 : ℕ) : ℝ)))
          * (Real.sqrt ((1 : ℕ) : ℝ)
              * compute_band_energies Real.sqrt monoMode quietSignal zeroBuf 0) :=
    denormalise_normalise_apply Real.sqrt monoMode hord quietSignal
      (compute_band_energies Real.sqrt monoMode quietSignal zeroBuf) zeroBuf zeroBuf 0 0 0
      (by decide) (by decide) (by decide) (by decide)
  rw [h, quietSignal_energy zeroBuf]
  have hq : (quietSignal 0 : ℝ) = 1e-5 := by simp [quietSignal]
  rw [hq, Nat.cast_one, Real.sqrt_one]
  intro hle
  rw [abs_of_pos (by norm_num : (0 : ℝ) < 1e-5), abs_le] at hle
  norm_num at hle

/-- C1, as amended: for a mode with ordered band boundaries, any spectrum `s` and any bank
`E`, the sample of `denormalise_bands (normalise_bands s E) E` at index `j*C+c` of band `i` is,
over exact reals, `s[j*C+c] * g / (1e-10 + g)` with `g = sqrt(C) * E[i*C+c]`; it is within
`1e-6` relative of `s[j*C+c]` whenever `g ≥ 1e-3`; and every sample of the padding region is
zero.  At the threshold the exact factor is off by `1e-7`, a tenth of the tolerance: the rest
is room for the four float roundings of the two functions. -/
theorem denormalise_normalise_bands (m : CELTMode) (hord : m.ordered)
    (s E X0 freq0 : Nat → ℝ) (i j c : Nat) (hi : i < m.nbEBands) (hc : c < m.nbChannels)
    (hj1 : m.nbMdctBlocks * m.eBands i ≤ j) (hj2 : j < m.nbMdctBlocks * m.eBands (i + 1)) :
    denormalise_bands Real.sqrt m (normalise_bands Real.sqrt m s X0 E) freq0 E
        (j * m.nbChannels + c)
      = s (j * m.nbChannels + c) * (Real.sqrt m.nbChannels * E (i * m.nbChannels + c))
          / (1e-10 + Real.sqrt m.nbChannels * E (i * m.nbChannels + c))
    ∧ (1e-3 ≤ Real.sqrt m.nbChannels * E (i * m.nbChannels + c) →
        |denormalise_bands Real.sqrt m (normalise_bands Real.sqrt m s X0 E) freq0 E
            (j * m.nbChannels + c) - s (j * m.nbChannels + c)|
          ≤ 1e-6 * |s (j * m.nbChannels + c)|)
    ∧ (∀ k, m.nbMdctBlocks * m.nbChannels * m.eBands m.nbEBands ≤ k →
        k < m.nbMdctBlocks * m.nbChannels * m.eBands (m.nbEBands + 1) →
        denormalise_bands Real.sqrt m (normalise_bands Real.sqrt m s X0 E) freq0 E k = 0) := by
  have h := denormalise_normalise_apply Real.sqrt m hord s E X0 freq0 i j c hi hc hj1 hj2
  set g := Real.sqrt m.nbChannels * E (i * m.nbChannels + c) with hg
  set x := s (j * m.nbChannels + c) with hx
  have h2 : denormalise_bands Real.sqrt m (normalise_bands Real.sqrt m s X0 E) freq0 E
      (j * m.nbChannels + c) = x * g / (1e-10 + g) := by
    rw [h, mul_comm (E (i * m.nbChannels + c)) (Real.sqrt m.nbChannels), ← hg]
    ring
  refine ⟨h2, ?_, ?_⟩
  · intro hge
    rw [h2]
    have hpos : (0 : ℝ) < 1e-10 + g := by
      have : (0 : ℝ) < 1e-10 := by norm_num
      have : (0 : ℝ) < 1e-3 := by norm_num
      linarith
    have e : x * g / (1e-10 + g) - x = - (x * (1e-10 / (1e-10 + g))) := by
      field_simp
      ring
    rw [e, abs_neg, abs_mul, mul_comm]
    apply mul_le_mul_of_nonneg_right _ (abs_nonneg x)
    rw [abs_of_nonneg (by positivity), div_le_iff₀ hpos]
    have : (1e-6 : ℝ) * (1e-10 + g) = 1e-16 + 1e-6 * g := by ring
    have : (1e-6 : ℝ) * 1e-3 ≤ 1e-6 * g := by
      apply mul_le_mul_of_nonneg_left hge (by norm_num)
    norm_num at *
    linarith
  · intro k hk1 hk2
    unfold denormalise_bands
    simp only []
    rw [forLoop_zero_apply, if_pos ⟨hk1, hk2⟩]

/-! ## Band energy after normalisation -/

/-- The energy of band `i`, channel `c`, after `normalise_bands` with the bank that
`compute_band_energies` computes from the same spectrum. -/
theorem normalised_band_energy (m : CELTMode) (hord : m.ordered) (freq X0 bank0 : Nat → ℝ)
    (i c : Nat) (hi : i < m.nbEBands) (hc : c < m.nbChannels) :
    ∑ j in Finset.Ico (m.nbMdctBlocks * m.eBands i) (m.nbMdctBlocks * m.eBands (i + 1)),
        normalise_bands Real.sqrt m freq X0 (compute_band_energies Real.sqrt m freq bank0)
          (j * m.nbChannels + c) ^ 2
      = (∑ j in Finset.Ico (m.nbMdctBlocks * m.eBands i) (m.nbMdctBlocks * m.eBands (i + 1)),
          freq (j * m.nbChannels + c) ^ 2)
        / (1e-10 + Real.sqrt m.nbChannels
            * Real.sqrt (1e-10 + ∑ j in Finset.Ico (m.nbMdctBlocks * m.eBands i)
                (m.nbMdctBlocks * m.eBands (i + 1)), freq (j * m.nbChannels + c) ^ 2)) ^ 2 := by
  have hb : compute_band_energies Real.sqrt m freq bank0 (i * m.nbChannels + c)
      = Real.sqrt (1e-10 + ∑ j in Finset.Ico (m.nbMdctBlocks * m.eBands i)
          (m.nbMdctBlocks * m.eBands (i + 1)), freq (j * m.nbChannels + c) ^ 2) := by
    rw [compute_band_energies_apply Real.sqrt m freq bank0 i c hi hc]
    simp only [sq]
  have hterm : ∀ j ∈ Finset.Ico (m.nbMdctBlocks * m.eBands i)
      (m.nbMdctBlocks * m.eBands (i + 1)),
      normalise_bands Real.sqrt m freq X0 (compute_band_energies Real.sqrt m freq bank0)
          (j * m.nbChannels + c) ^ 2
        = freq (j * m.nbChannels + c) ^ 2
          * (1 / (1e-10 + Real.sqrt m.nbChannels
            * Real.sqrt (1e-10 + ∑ j in Finset.Ico (m.nbMdctBlocks * m.eBands i)
                (m.nbMdctBlocks * m.eBands (i + 1)), freq (j * m.nbChannels + c) ^ 2)) ^ 2) := by
    intro j hj
    rw [Finset.mem_Ico] at hj
    rw [normalise_bands_apply Real.sqrt m hord _ _ _ i j c hi hc hj.1 hj.2, hb, mul_pow,
      mul_comm (Real.sqrt (1e-10 + _)) (Real.sqrt m.nbChannels), one_div, one_div, inv_pow]
  rw [Finset.sum_congr rfl hterm, ← Finset.sum_mul, one_div, div_eq_mul_inv]

theorem stereoMode_ordered : stereoMode.ordered := fun i _ => by
  show 4 * i ≤ 4 * (i + 1)
  omega

theorem monoMode_ordered : monoMode.ordered := fun i _ => by
  show 8 * i ≤ 8 * (i + 1)
  omega

section Rotation

variable {F : Type} [LinearOrderedField F]

theorem forLoop_eq_iterate {σ : Type} (n : Nat) (f : σ → σ) (st : σ) :
    forLoop 0 n (fun _ s => f s) st = f^[n] st := by
  induction n with
  | zero => rw [forLoop_of_le _ _ _ _ (le_refl _)]; rfl
  | succ k ih => rw [forLoop_succ _ _ _ _ (Nat.zero_le _), ih, Function.iterate_succ_apply']

theorem forLoop_eq_apply_rotations (c s : F) (stride n : Nat) (X : Nat → F) :
    forLoop 0 n (fun i X => rotate_pair c s stride i X) X
      = apply_rotations c s stride (List.range n) X := by
  unfold forLoop apply_rotations
  rw [Nat.sub_zero, List.range_eq_range']

theorem forDown_eq_apply_rotations (c s : F) (stride n : Nat) (X : Nat → F) :
    forDown n (fun i X => rotate_pair c s stride i X) X
      = apply_rotations c s stride (List.range n).reverse X := rfl

theorem apply_rotations_append (c s : F) (stride : Nat) (l l' : List Nat) (X : Nat → F) :
    apply_rotations c s stride (l ++ l') X
      = apply_rotations c s stride l' (apply_rotations c s stride l X) := by
  unfold apply_rotations
  rw [List.foldl_append]

/-- One iteration of `exp_rotation` is the list of rotations `0, …, len-stride-1` followed by
`len-2*stride-1, …, 0`. -/
theorem exp_rotation_eq_iterate (cos sin : F → F) (X : Nat → F) (len : Nat) (theta : F)
    (dir : Int) (stride iter : Nat) :
    exp_rotation cos sin X len theta dir stride iter
      = (apply_rotations (cos theta) ((dir : F) * sin theta) stride
          (List.range (len - stride) ++ (List.range (len - 2 * stride)).reverse))^[iter] X := by
  unfold exp_rotation
  simp only [forLoop_eq_apply_rotations, forDown_eq_apply_rotations]
  rw [forLoop_eq_iterate]
  congr 1
  funext Y
  rw [apply_rotations_append]

theorem exp_rotation_reversed_reference_eq_iterate (cos sin : F → F) (X : Nat → F) (len : Nat)
    (theta : F) (dir : Int) (stride iter : Nat) :
    exp_rotation_reversed_reference cos sin X len theta dir stride iter
      = (apply_rotations (cos theta) ((dir : F) * sin theta) stride
          (List.range (len - stride) ++ (List.range (len - 2 * stride)).reverse).reverse)^[iter]
          X := by
  unfold exp_rotation_reversed_reference
  simp only [forLoop_eq_apply_rotations, forDown_eq_apply_rotations]
  rw [forLoop_eq_iterate]
  congr 1
  funext Y
  rw [List.reverse_append, List.reverse_reverse, apply_rotations_append]

theorem rotate_pair_apply (c s : F) (stride i : Nat) (X : Nat → F) (k : Nat) :
    rotate_pair c s stride i X k
      = if k = i + stride then c * X (i + stride) + s * X i
        else if k = i then c * X i - s * X (i + stride) else X k := by
  unfold rotate_pair
  simp only [Function.update_apply]

/-- A rotation by the opposite angle undoes an elementary rotation. -/
theorem rotate_pair_inverse (c s : F) (stride i : Nat) (X : Nat → F)
    (hcs : c * c + s * s = 1) (hst : 1 ≤ stride) :
    rotate_pair c (-s) stride i (rotate_pair c s stride i X) = X := by
  funext k
  have hne : i ≠ i + stride := by omega
  simp only [rotate_pair_apply, if_pos, if_neg hne, if_true]
  split_ifs with h1 h2
  · subst h1
    linear_combination (X (i + stride)) * hcs
  · subst h2
    linear_combination (X k) * hcs
  · rfl

/-- Rotations in reversed order and by the opposite angle undo a list of rotations. -/
theorem apply_rotations_inverse (c s : F) (stride : Nat) (hcs : c * c + s * s = 1)
    (hst : 1 ≤ stride) (l : List Nat) (X : Nat → F) :
    apply_rotations c (-s) stride l.reverse (apply_rotations c s stride l X) = X := by
  induction l generalizing X with
  | nil => rfl
  | cons i t ih =>
    rw [List.reverse_cons, apply_rotations_append]
    show apply_rotations c (-s) stride [i]
      (apply_rotations c (-s) stride t.reverse
        (apply_rotations c s stride t (rotate_pair c s stride i X))) = X
    rw [ih]
    exact rotate_pair_inverse c s stride i X hcs hst

/-- Two elementary rotations that touch different cells commute. -/
theorem rotate_pair_comm (c s c' s' : F) (stride i j : Nat) (X : Nat → F) (h1 : i ≠ j)
    (h2 : i ≠ j + stride) (h3 : j ≠ i + stride) :
    rotate_pair c s stride i (rotate_pair c' s' stride j X)
      = rotate_pair c' s' stride j (rotate_pair c s stride i X) := by
  funext k
  have h4 : i + stride ≠ j + stride := by omega
  have h5 : j + stride ≠ i + stride := by omega
  have h6 : i + stride ≠ j := by omega
  have h7 : j + stride ≠ i := by omega
  have h8 : j ≠ i := by omega
  simp only [rotate_pair_apply, if_neg h1, if_neg h2, if_neg h3, if_neg h4, if_neg h5,
    if_neg h6, if_neg h7, if_neg h8, if_true]
  split_ifs <;> first | rfl | omega

/-- A rotation commutes with a list of rotations that touch other cells. -/
theorem rotate_pair_comm_list (c s : F) (stride i : Nat) (l : List Nat)
    (h : ∀ j ∈ l, i ≠ j ∧ i ≠ j + stride ∧ j ≠ i + stride) (X : Nat → F) :
    apply_rotations c s stride l (rotate_pair c s stride i X)
      = rotate_pair c s stride i (apply_rotations c s stride l X) := by
  induction l generalizing X with
  | nil => rfl
  | cons j t ih =>
    have hj := h j (List.mem_cons_self j t)
    show apply_rotations c s stride t (rotate_pair c s stride j (rotate_pair c s stride i X))
      = rotate_pair c s stride i (apply_rotations c s stride t (rotate_pair c s stride j X))
    rw [← rotate_pair_comm c s c s stride i j X hj.1 hj.2.1 hj.2.2,
      ih (fun j' hj' => h j' (List.mem_cons_of_mem j hj'))]

/-- Rotations that touch pairwise different cells can be applied in reversed order. -/
theorem apply_rotations_reverse (c s : F) (stride : Nat) (l : List Nat)
    (h : l.Pairwise (fun i j => i ≠ j ∧ i ≠ j + stride ∧ j ≠ i + stride)) (X : Nat → F) :
    apply_rotations c s stride l.reverse X = apply_rotations c s stride l X := by
  induction l generalizing X with
  | nil => rfl
  | cons i t ih =>
    rw [List.pairwise_cons] at h
    rw [List.reverse_cons, apply_rotations_append, ih h.2]
    show rotate_pair c s stride i (apply_rotations c s stride t X)
      = apply_rotations c s stride t (rotate_pair c s stride i X)
    rw [rotate_pair_comm_list c s stride i t h.1]

/-- Fewer than `stride + 1` consecutive indices give rotations that touch pairwise different
cells. -/
theorem pairwise_range_window (stride b n : Nat) (hn : n ≤ stride) :
    (List.range' b n).Pairwise (fun i j => i ≠ j ∧ i ≠ j + stride ∧ j ≠ i + stride) := by
  have hlt : (List.range' b n).Pairwise (· < ·) := List.pairwise_lt_range' b n
  refine List.Pairwise.imp_of_mem ?_ hlt
  intro i j hi hj hij
  rw [List.mem_range'_1] at hi hj
  omega

/-- The rotations of one iteration of `exp_rotation` can be applied in reversed order: the
pass sequence is a palindrome up to the order of rotations that touch different cells. -/
theorem exp_rotation_pass_reverse (c s : F) (stride len : Nat) (X : Nat → F) :
    apply_rotations c s stride
        (List.range (len - stride) ++ (List.range (len - 2 * stride)).reverse).reverse X
      = apply_rotations c s stride
        (List.range (len - stride) ++ (List.range (len - 2 * stride)).reverse) X := by
  have hsplit : List.range (len - stride)
      = List.range (len - 2 * stride)
        ++ List.range' (len - 2 * stride) (len - stride - (len - 2 * stride)) := by
    rw [List.range_eq_range', List.range_eq_range']
    have e := List.range'_append 0 (len - 2 * stride) (len - stride - (len - 2 * stride)) 1
    rw [Nat.zero_add, Nat.one_mul] at e
    rw [e]
    congr 1
    omega
  have hwin := pairwise_range_window stride (len - 2 * stride)
    (len - stride - (len - 2 * stride)) (by omega)
  rw [List.reverse_append, List.reverse_reverse, apply_rotations_append,
    apply_rotations_append]
  conv_lhs => rw [hsplit, List.reverse_append, apply_rotations_append,
    apply_rotations_reverse c s stride _ hwin]
  conv_rhs => rw [hsplit, apply_rotations_append]

/-- The reference rotation is the same map as `exp_rotation`. -/
theorem exp_rotation_reversed_reference_eq (cos sin : F → F) (X : Nat → F) (len : Nat)
    (theta : F) (dir : Int) (stride iter : Nat) :
    exp_rotation_reversed_reference cos sin X len theta dir stride iter
      = exp_rotation cos sin X len theta dir stride iter := by
  rw [exp_rotation_reversed_reference_eq_iterate, exp_rotation_eq_iterate]
  congr 1
  funext Y
  exact exp_rotation_pass_reverse _ _ stride len Y

/-- The reference rotation with the sine negated undoes `exp_rotation`, for any `c` and `s`
with `c² + s² = 1`. -/
theorem reference_undoes_iterate (c s : F) (stride len iter : Nat)
    (hcs : c * c + s * s = 1) (hst : 1 ≤ stride) (X : Nat → F) :
    (apply_rotations c (-s) stride
        (List.range (len - stride) ++ (List.range (len - 2 * stride)).reverse).reverse)^[iter]
      ((apply_rotations c s stride
        (List.range (len - stride) ++ (List.range (len - 2 * stride)).reverse))^[iter] X)
      = X := by
  have hinv : Function.LeftInverse
      (apply_rotations c (-s) stride
        (List.range (len - stride) ++ (List.range (len - 2 * stride)).reverse).reverse)
      (apply_rotations c s stride
        (List.range (len - stride) ++ (List.range (len - 2 * stride)).reverse)) :=
    fun Y => apply_rotations_inverse c s stride hcs hst _ Y
  exact hinv.iterate iter X

/-- The sine used by `exp_rotation` for `dir = ±1`, with the cosine, lies on the unit circle. -/
theorem cos_dir_sin_unit (theta : ℝ) (dir : Int) (hdir : dir = 1 ∨ dir = -1) :
    Real.cos theta * Real.cos theta + ((dir : ℝ) * Real.sin theta) * ((dir : ℝ) * Real.sin theta)
      = 1 := by
  have h := Real.cos_sq_add_sin_sq theta
  rcases hdir with h1 | h1 <;> subst h1 <;> push_cast <;> nlinarith

/-- The reference rotation with `dir` negated undoes `exp_rotation` (shared by the statements
on inverting the rotation). -/
theorem reference_undoes_exp_rotation (X : Nat → ℝ) (len : Nat) (theta : ℝ) (dir : Int)
    (stride iter : Nat) (hdir : dir = 1 ∨ dir = -1) (hst : 1 ≤ stride) :
    exp_rotation_reversed_reference Real.cos Real.sin
        (exp_rotation Real.cos Real.sin X len theta dir stride iter) len theta (-dir) stride iter
      = X := by
  rw [exp_rotation_reversed_reference_eq_iterate, exp_rotation_eq_iterate]
  have e : (((-dir : Int) : ℝ)) * Real.sin theta = - ((dir : ℝ) * Real.sin theta) := by
    push_cast
    ring
  rw [e]
  exact reference_undoes_iterate _ _ stride len iter (cos_dir_sin_unit theta dir hdir) hst X

/-- An elementary rotation inside the slice keeps the sum of squares of the slice. -/
theorem rotate_pair_energy (c s : F) (stride i len : Nat) (X : Nat → F)
    (hcs : c * c + s * s = 1) (hst : 1 ≤ stride) (hi : i + stride < len) :
    ∑ k in Finset.range len, rotate_pair c s stride i X k ^ 2
      = ∑ k in Finset.range len, X k ^ 2 := by
  have hne : i ≠ i + stride := by omega
  have hT : ({i, i + stride} : Finset ℕ) ⊆ Finset.range len := by
    intro k hk
    rw [Finset.mem_insert, Finset.mem_singleton] at hk
    rw [Finset.mem_range]
    omega
  rw [← Finset.sum_sdiff hT, ← Finset.sum_sdiff hT (f := fun k => X k ^ 2)]
  congr 1
  · apply Finset.sum_congr rfl
    intro k hk
    rw [Finset.mem_sdiff, Finset.mem_insert, Finset.mem_singleton] at hk
    have h1 : k ≠ i + stride := fun h => hk.2 (Or.inr h)
    have h2 : k ≠ i := fun h => hk.2 (Or.inl h)
    rw [rotate_pair_apply, if_neg h1, if_neg h2]
  · rw [Finset.sum_pair hne, Finset.sum_pair hne]
    simp only [rotate_pair_apply, if_neg hne, if_true]
    linear_combination (X i ^ 2 + X (i + stride) ^ 2) * hcs

/-- A list of rotations inside the slice keeps the sum of squares of the slice. -/
theorem apply_rotations_energy (c s : F) (stride len : Nat) (hcs : c * c + s * s = 1)
    (hst : 1 ≤ stride) (l : List Nat) (hl : ∀ i ∈ l, i + stride < len) (X : Nat → F) :
    ∑ k in Finset.range len, apply_rotations c s stride l X k ^ 2
      = ∑ k in Finset.range len, X k ^ 2 := by
  induction l generalizing X with
  | nil => rfl
  | cons i t ih =>
    show ∑ k in Finset.range len,
        apply_rotations c s stride t (rotate_pair c s stride i X) k ^ 2 = _
    rw [ih (fun j hj => hl j (List.mem_cons_of_mem i hj)),
      rotate_pair_energy c s stride i len X hcs hst (hl i (List.mem_cons_self i t))]

/-- The rotations of one iteration of `exp_rotation` stay inside the slice of length `len`. -/
theorem exp_rotation_pass_inside (stride len : Nat) :
    ∀ i ∈ List.range (len - stride) ++ (List.range (len - 2 * stride)).reverse,
      i + stride < len := by
  intro i hi
  rw [List.mem_append, List.mem_reverse, List.mem_range, List.mem_range] at hi
  omega

/-- C5: `exp_rotation` is orthogonal over the reals: for every vector `X`, length `len`, angle
`theta`, `dir` in `{-1, +1}`, `stride ≥ 1` and iteration count `iter`, the sum of squares of
the `len` output samples equals the sum of squares of the `len` input samples. -/
theorem exp_rotation_orthogonal (X : Nat → ℝ) (len : Nat) (theta : ℝ) (dir : Int)
    (stride iter : Nat) (hdir : dir = 1 ∨ dir = -1) (hst : 1 ≤ stride) :
    ∑ k in Finset.range len,
        exp_rotation Real.cos Real.sin X len theta dir stride iter k ^ 2
      = ∑ k in Finset.range len, X k ^ 2 := by
  rw [exp_rotation_eq_iterate]
  induction iter with
  | zero => rfl
  | succ n ih =>
    rw [Function.iterate_succ_apply',
      apply_rotations_energy _ _ stride len (cos_dir_sin_unit theta dir hdir) hst _
        (exp_rotation_pass_inside stride len), ih]

/-- C6, counterexample: for `theta = 0.1`, `stride = 2`, `iter = 8` and length 16, no vector is
changed by `exp_rotation` with `dir = +1` followed by `exp_rotation` with `dir = -1`: there
the round trip is the identity map. -/
theorem exp_rotation_roundtrip_is_identity_example :
    ¬ ∃ x : Nat → ℝ,
      exp_rotation Real.cos Real.sin (exp_rotation Real.cos Real.sin x 16 0.1 1 2 8)
        16 0.1 (-1) 2 8 ≠ x := by
  rintro ⟨x, hx⟩
  apply hx
  rw [← exp_rotation_reversed_reference_eq]
  exact reference_undoes_exp_rotation x 16 0.1 1 2 8 (Or.inl rfl) (by decide)

/-- C6, as amended: over the reals, for every angle `theta`, every `stride ≥ 1`, every length
and every iteration count, `exp_rotation` with `dir = +1` followed by `exp_rotation` with
`dir = -1` (same `theta`, `stride`, `iter` and length) is the identity map, and so is
`dir = -1` followed by `dir = +1`, the order in which `quant_bands` applies them. -/
theorem exp_rotation_roundtrip_identity (x : Nat → ℝ) (len : Nat) (theta : ℝ)
    (stride iter : Nat) (hst : 1 ≤ stride) :
    exp_rotation Real.cos Real.sin (exp_rotation Real.cos Real.sin x len theta 1 stride iter)
        len theta (-1) stride iter = x
    ∧ exp_rotation Real.cos Real.sin
        (exp_rotation Real.cos Real.sin x len theta (-1) stride iter)
        len theta 1 stride iter = x := by
  constructor
  · rw [← exp_rotation_reversed_reference_eq]
    exact reference_undoes_exp_rotation x len theta 1 stride iter (Or.inl rfl) hst
  · rw [← exp_rotation_reversed_reference_eq]
    exact reference_undoes_exp_rotation x len theta (-1) stride iter (Or.inr rfl) hst

/-- C7: `exp_rotation` is exactly invertible over the reals: for every `x`, `len`, `theta`,
`dir` in `{-1, +1}`, `stride ≥ 1` and `iter`, the reference rotation (the same elementary
rotations in reversed order) with `dir` negated, applied after `exp_rotation`, returns `x`. -/
theorem exp_rotation_invertible (x : Nat → ℝ) (len : Nat) (theta : ℝ) (dir : Int)
    (stride iter : Nat) (hdir : dir = 1 ∨ dir = -1) (hst : 1 ≤ stride) :
    exp_rotation_reversed_reference Real.cos Real.sin
        (exp_rotation Real.cos Real.sin x len theta dir stride iter) len theta (-dir) stride iter
      = x :=
  reference_undoes_exp_rotation x len theta dir stride iter hdir hst

end Rotation

/-! ## Stereo mixing -/

section Stereo

variable {F : Type} [LinearOrderedField F]

/-- The sample loop of `stereo_mix` for one band of a two-channel mode: it mixes the pairs
`lo .. hi-1` and leaves every other cell alone. -/
theorem mix_loop_apply (a1 a2 : F) (lo hi : Nat) (X : Nat → F) :
    (∀ j, lo ≤ j → j < hi →
        forLoop lo hi (fun j X =>
          Function.update (Function.update X (j * 2) (a1 * X (j * 2) + a2 * X (j * 2 + 1)))
            (j * 2 + 1) (a1 * X (j * 2 + 1) - a2 * X (j * 2))) X (j * 2)
          = a1 * X (j * 2) + a2 * X (j * 2 + 1)
        ∧ forLoop lo hi (fun j X =>
          Function.update (Function.update X (j * 2) (a1 * X (j * 2) + a2 * X (j * 2 + 1)))
            (j * 2 + 1) (a1 * X (j * 2 + 1) - a2 * X (j * 2))) X (j * 2 + 1)
          = a1 * X (j * 2 + 1) - a2 * X (j * 2))
    ∧ (∀ k, k < lo * 2 ∨ hi * 2 ≤ k →
        forLoop lo hi (fun j X =>
          Function.update (Function.update X (j * 2) (a1 * X (j * 2) + a2 * X (j * 2 + 1)))
            (j * 2 + 1) (a1 * X (j * 2 + 1) - a2 * X (j * 2))) X k = X k) := by
  rcases Nat.lt_or_ge hi lo with hlt | hge
  · rw [forLoop_of_le _ _ _ _ (Nat.le_of_lt hlt)]
    exact ⟨fun j h1 h2 => absurd h2 (by omega), fun k _ => rfl⟩
  · refine forLoop_induct
      (fun n s => (∀ j, lo ≤ j → j < n →
          s (j * 2) = a1 * X (j * 2) + a2 * X (j * 2 + 1)
          ∧ s (j * 2 + 1) = a1 * X (j * 2 + 1) - a2 * X (j * 2))
        ∧ (∀ k, k < lo * 2 ∨ n * 2 ≤ k → s k = X k))
      lo hi _ X hge ⟨fun j h1 h2 => absurd h2 (by omega), fun k _ => rfl⟩ ?_
    intro n s hn1 hn2 ⟨hq1, hq2⟩
    have e0 : s (n * 2) = X (n * 2) := hq2 _ (Or.inr (by omega))
    have e1 : s (n * 2 + 1) = X (n * 2 + 1) := hq2 _ (Or.inr (by omega))
    refine ⟨fun j h1 h2 => ?_, fun k hk => ?_⟩
    · rcases Nat.lt_or_ge j n with h | h
      · have := hq1 j h1 h
        rw [Function.update_noteq (by omega), Function.update_noteq (by omega),
          Function.update_noteq (by omega), Function.update_noteq (by omega)]
        exact this
      · have : j = n := by omega
        subst this
        rw [Function.update_noteq (by omega), Function.update_same, Function.update_same,
          e0, e1]
        exact ⟨rfl, rfl⟩
    · rw [Function.update_noteq (by omega), Function.update_noteq (by omega)]
      exact hq2 k (by omega)

/-- The band loop of `stereo_mix` for a two-channel mode with ordered band boundaries: each
sample pair of band `i` is mixed once, with the coefficients of band `i`. -/
theorem mix_bands_apply (a1 a2 : Nat → F) (B nb : Nat) (e : Nat → Nat)
    (hord : ∀ i, i ≤ nb → e i ≤ e (i + 1)) (X : Nat → F) (i j : Nat) (hi : i < nb)
    (hj1 : B * e i ≤ j) (hj2 : j < B * e (i + 1)) :
    forLoop 0 nb (fun i X => forLoop (B * e i) (B * e (i + 1)) (fun j X =>
        Function.update (Function.update X (j * 2) (a1 i * X (j * 2) + a2 i * X (j * 2 + 1)))
          (j * 2 + 1) (a1 i * X (j * 2 + 1) - a2 i * X (j * 2))) X) X (j * 2)
      = a1 i * X (j * 2) + a2 i * X (j * 2 + 1)
    ∧ forLoop 0 nb (fun i X => forLoop (B * e i) (B * e (i + 1)) (fun j X =>
        Function.update (Function.update X (j * 2) (a1 i * X (j * 2) + a2 i * X (j * 2 + 1)))
          (j * 2 + 1) (a1 i * X (j * 2 + 1) - a2 i * X (j * 2))) X) X (j * 2 + 1)
      = a1 i * X (j * 2 + 1) - a2 i * X (j * 2) := by
  have key := forLoop_induct
    (fun n s => n ≤ nb →
      (∀ i' j', i' < n → B * e i' ≤ j' → j' < B * e (i' + 1) →
        s (j' * 2) = a1 i' * X (j' * 2) + a2 i' * X (j' * 2 + 1)
        ∧ s (j' * 2 + 1) = a1 i' * X (j' * 2 + 1) - a2 i' * X (j' * 2))
      ∧ (∀ k, B * e n * 2 ≤ k → s k = X k))
    0 nb (fun i X => forLoop (B * e i) (B * e (i + 1)) (fun j X =>
        Function.update (Function.update X (j * 2) (a1 i * X (j * 2) + a2 i * X (j * 2 + 1)))
          (j * 2 + 1) (a1 i * X (j * 2 + 1) - a2 i * X (j * 2))) X) X (Nat.zero_le _)
    (fun _ => ⟨fun i' j' h => absurd h (by omega), fun k _ => rfl⟩)
    (by
      intro n s _ hn2 hq _
      obtain ⟨hq1, hq2⟩ := hq (by omega)
      obtain ⟨hm1, hm2⟩ := mix_loop_apply (a1 n) (a2 n) (B * e n) (B * e (n + 1)) s
      have hle : B * e n ≤ B * e (n + 1) := Nat.mul_le_mul_left B (hord n (by omega))
      beta_reduce
      refine ⟨fun i' j' h1 h2 h3 => ?_, fun k hk => ?_⟩
      · rcases Nat.lt_or_ge i' n with h | h
        · have hle2 : B * e (i' + 1) ≤ B * e n := by
            apply Nat.mul_le_mul_left
            have hmono : ∀ d, i' + 1 + d ≤ nb → e (i' + 1) ≤ e (i' + 1 + d) := by
              intro d
              induction d with
              | zero => intro _; exact le_refl _
              | succ d ih => intro hd; exact le_trans (ih (by omega)) (hord _ (by omega))
            have := hmono (n - (i' + 1)) (by omega)
            rwa [show i' + 1 + (n - (i' + 1)) = n by omega] at this
          rw [hm2 _ (Or.inl (by omega)), hm2 _ (Or.inl (by omega))]
          exact hq1 i' j' h h2 h3
        · have : i' = n := by omega
          subst this
          rw [(hm1 j' h2 h3).1, (hm1 j' h2 h3).2, hq2 _ (by omega), hq2 _ (by omega)]
          exact ⟨rfl, rfl⟩
      · rw [hm2 k (Or.inr hk)]
        exact hq2 k (by omega))
  exact (key (le_refl _)).1 i j hi hj1 hj2

/-- What `stereo_mix` stores in the two channels of a sample of band `i`, for a two-channel
mode with ordered band boundaries, over any scalar type. -/
theorem stereo_mix_apply (sqrt : F → F) (m : CELTMode) (hord : m.ordered)
    (hC : m.nbChannels = 2) (X bank : Nat → F) (dir : Int) (i j : Nat) (hi : i < m.nbEBands)
    (hj1 : m.nbMdctBlocks * m.eBands i ≤ j) (hj2 : j < m.nbMdctBlocks * m.eBands (i + 1)) :
    stereo_mix sqrt m X bank dir (j * 2)
      = bank (i * 2)
          / sqrt (0.01 + bank (i * 2) * bank (i * 2) + bank (i * 2 + 1) * bank (i * 2 + 1))
          * X (j * 2)
        + (dir : F) * bank (i * 2 + 1)
          / sqrt (0.01 + bank (i * 2) * bank (i * 2) + bank (i * 2 + 1) * bank (i * 2 + 1))
          * X (j * 2 + 1)
    ∧ stereo_mix sqrt m X bank dir (j * 2 + 1)
      = bank (i * 2)
          / sqrt (0.01 + bank (i * 2) * bank (i * 2) + bank (i * 2 + 1) * bank (i * 2 + 1))
          * X (j * 2 + 1)
        - (dir : F) * bank (i * 2 + 1)
          / sqrt (0.01 + bank (i * 2) * bank (i * 2) + bank (i * 2 + 1) * bank (i * 2 + 1))
          * X (j * 2) := by
  have hp0 := band_index_lt_padding m hord i j 0 hi (by omega) hj2
  have hp1 := band_index_lt_padding m hord i j 1 hi (by omega) hj2
  obtain ⟨B, C, nb, e, pe, npb, pb⟩ := m
  simp only at hC hp0 hp1 hj1 hj2 hi
  subst hC
  have hord2 : ∀ i, i ≤ nb → e i ≤ e (i + 1) := hord
  unfold stereo_mix
  simp only []
  rw [forLoop_zero_apply, forLoop_zero_apply, if_neg (by omega), if_neg (by omega)]
  exact mix_bands_apply
    (fun i => bank (i * 2)
      / sqrt (0.01 + bank (i * 2) * bank (i * 2) + bank (i * 2 + 1) * bank (i * 2 + 1)))
    (fun i => (dir : F) * bank (i * 2 + 1)
      / sqrt (0.01 + bank (i * 2) * bank (i * 2) + bank (i * 2 + 1) * bank (i * 2 + 1)))
    B nb e hord2 X i j hi hj1 hj2

/-- Mixing with `dir = +1` and then with `dir = -1` and the same bank scales both channels of
every sample of band `i` by `(left² + right²) / (0.01 + left² + right²)`. -/
theorem stereo_roundtrip_apply (m : CELTMode) (hord : m.ordered) (hC : m.nbChannels = 2)
    (X bank : Nat → ℝ) (i j : Nat) (hi : i < m.nbEBands)
    (hj1 : m.nbMdctBlocks * m.eBands i ≤ j) (hj2 : j < m.nbMdctBlocks * m.eBands (i + 1)) :
    stereo_mix Real.sqrt m (stereo_mix Real.sqrt m X bank 1) bank (-1) (j * 2)
      = (bank (i * 2) * bank (i * 2) + bank (i * 2 + 1) * bank (i * 2 + 1))
          / (0.01 + bank (i * 2) * bank (i * 2) + bank (i * 2 + 1) * bank (i * 2 + 1))
          * X (j * 2)
    ∧ stereo_mix Real.sqrt m (stereo_mix Real.sqrt m X bank 1) bank (-1) (j * 2 + 1)
      = (bank (i * 2) * bank (i * 2) + bank (i * 2 + 1) * bank (i * 2 + 1))
          / (0.01 + bank (i * 2) * bank (i * 2) + bank (i * 2 + 1) * bank (i * 2 + 1))
          * X (j * 2 + 1) := by
  obtain ⟨h1, h2⟩ := stereo_mix_apply Real.sqrt m hord hC X bank 1 i j hi hj1 hj2
  obtain ⟨h3, h4⟩ := stereo_mix_apply Real.sqrt m hord hC (stereo_mix Real.sqrt m X bank 1)
    bank (-1) i j hi hj1 hj2
  rw [h3, h4, h1, h2]
  set L := bank (i * 2) with hL
  set R := bank (i * 2 + 1) with hR
  have hpos : (0 : ℝ) < 0.01 + L * L + R * R := by
    have : (0 : ℝ) < 0.01 := by norm_num
    nlinarith [mul_self_nonneg L, mul_self_nonneg R]
  set d := Real.sqrt (0.01 + L * L + R * R) with hd
  have hd2 : d * d = 0.01 + L * L + R * R := Real.mul_self_sqrt (le_of_lt hpos)
  have hd0 : d ≠ 0 := by
    intro h0
    rw [h0, mul_zero] at hd2
    linarith
  rw [← hd2]
  push_cast
  constructor <;> field_simp <;> ring

/-- Mixing with `dir = +1` and then with `dir = -1` and the same bank scales the energy of
band `i` by the square of `(left² + right²) / (0.01 + left² + right²)`. -/
theorem stereo_roundtrip_energy (m : CELTMode) (hord : m.ordered) (hC : m.nbChannels = 2)
    (X bank : Nat → ℝ) (i : Nat) (hi : i < m.nbEBands) :
    ∑ j in Finset.Ico (m.nbMdctBlocks * m.eBands i) (m.nbMdctBlocks * m.eBands (i + 1)),
        (stereo_mix Real.sqrt m (stereo_mix Real.sqrt m X bank 1) bank (-1) (j * 2) ^ 2
          + stereo_mix Real.sqrt m (stereo_mix Real.sqrt m X bank 1) bank (-1) (j * 2 + 1) ^ 2)
      = ((bank (i * 2) * bank (i * 2) + bank (i * 2 + 1) * bank (i * 2 + 1))
          / (0.01 + bank (i * 2) * bank (i * 2) + bank (i * 2 + 1) * bank (i * 2 + 1))) ^ 2
        * ∑ j in Finset.Ico (m.nbMdctBlocks * m.eBands i) (m.nbMdctBlocks * m.eBands (i + 1)),
            (X (j * 2) ^ 2 + X (j * 2 + 1) ^ 2) := by
  rw [Finset.mul_sum]
  apply Finset.sum_congr rfl
  intro j hj
  rw [Finset.mem_Ico] at hj
  obtain ⟨h1, h2⟩ := stereo_roundtrip_apply m hord hC X bank i j hi hj.1 hj.2
  rw [h1, h2]
  ring

/-- C3, counterexample: in the stereo mode with the single band `[0, 4)`, the bank `[1, 1]`
and the signal `L = [1,0,0,0]`, `R = [0,1,0,0]`, the energy of the band after
`stereo_mix(+1)` followed by `stereo_mix(-1)` is not within `1e-6` relative of the energy
before. -/
theorem stereo_mix_roundtrip_energy_not_1e6 :
    ¬ (|∑ j in Finset.Ico 0 4,
          (stereo_mix Real.sqrt stereoMode (stereo_mix Real.sqrt stereoMode stereoSignal
              unitBank 1) unitBank (-1) (j * 2) ^ 2
            + stereo_mix Real.sqrt stereoMode (stereo_mix Real.sqrt stereoMode stereoSignal
              unitBank 1) unitBank (-1) (j * 2 + 1) ^ 2)
        - ∑ j in Finset.Ico 0 4, ((stereoSignal (j * 2) : ℝ) ^ 2 + stereoSignal (j * 2 + 1) ^ 2)|
      ≤ 1e-6 * ∑ j in Finset.Ico 0 4,
          ((stereoSignal (j * 2) : ℝ) ^ 2 + stereoSignal (j * 2 + 1) ^ 2)) := by
  have h : ∑ j in Finset.Ico 0 4,
        (stereo_mix Real.sqrt stereoMode (stereo_mix Real.sqrt stereoMode stereoSignal
            unitBank 1) unitBank (-1) (j * 2) ^ 2
          + stereo_mix Real.sqrt stereoMode (stereo_mix Real.sqrt stereoMode stereoSignal
            unitBank 1) unitBank (-1) (j * 2 + 1) ^ 2)
      = (((unitBank (0 * 2) : ℝ) * unitBank (0 * 2) + unitBank (0 * 2 + 1) * unitBank (0 * 2 + 1))
          / (0.01 + unitBank (0 * 2) * unitBank (0 * 2)
              + unitBank (0 * 2 + 1) * unitBank (0 * 2 + 1))) ^ 2
        * ∑ j in Finset.Ico 0 4, ((stereoSignal (j * 2) : ℝ) ^ 2 + stereoSignal (j * 2 + 1) ^ 2) :=
    stereo_roundtrip_energy stereoMode stereoMode_ordered rfl stereoSignal unitBank 0
      (by decide)
  have hS : ∑ j in Finset.Ico 0 4, ((stereoSignal (j * 2) : ℝ) ^ 2 + stereoSignal (j * 2 + 1) ^ 2)
      = 2 := by
    rw [Finset.sum_Ico_eq_sum_range]
    simp only [Finset.sum_range_succ, Finset.sum_range_zero, stereoSignal]
    norm_num
  rw [h, hS]
  simp only [unitBank]
  intro habs
  rw [abs_le] at habs
  norm_num at habs

/-- C3, as amended: for a stereo mode (`C = 2`) with ordered band boundaries, every spectrum
`X` and every bank, `stereo_mix(+1)` followed by `stereo_mix(-1)` with the same bank multiplies
the energy of band `i` (the sum of squares over both channels) by `(T / (0.01 + T))²` with
`T = left² + right²`, `left = bank[2i]`, `right = bank[2i+1]`, over exact reals; the energy
is within `1e-6` relative of its original value whenever `T ≥ 200000`.  At the threshold the
exact factor is off by `1e-7`, a tenth of the tolerance: the rest is room for the float
roundings of the coefficients and of the mixed samples. -/
theorem stereo_mix_roundtrip_energy (m : CELTMode) (hord : m.ordered) (hC : m.nbChannels = 2)
    (X bank : Nat → ℝ) (i : Nat) (hi : i < m.nbEBands) :
    ∑ j in Finset.Ico (m.nbMdctBlocks * m.eBands i) (m.nbMdctBlocks * m.eBands (i + 1)),
        (stereo_mix Real.sqrt m (stereo_mix Real.sqrt m X bank 1) bank (-1) (j * 2) ^ 2
          + stereo_mix Real.sqrt m (stereo_mix Real.sqrt m X bank 1) bank (-1) (j * 2 + 1) ^ 2)
      = ((bank (i * 2) * bank (i * 2) + bank (i * 2 + 1) * bank (i * 2 + 1))
          / (0.01 + bank (i * 2) * bank (i * 2) + bank (i * 2 + 1) * bank (i * 2 + 1))) ^ 2
        * ∑ j in Finset.Ico (m.nbMdctBlocks * m.eBands i) (m.nbMdctBlocks * m.eBands (i + 1)),
            (X (j * 2) ^ 2 + X (j * 2 + 1) ^ 2)
    ∧ (200000 ≤ bank (i * 2) * bank (i * 2) + bank (i * 2 + 1) * bank (i * 2 + 1) →
        |∑ j in Finset.Ico (m.nbMdctBlocks * m.eBands i) (m.nbMdctBlocks * m.eBands (i + 1)),
            (stereo_mix Real.sqrt m (stereo_mix Real.sqrt m X bank 1) bank (-1) (j * 2) ^ 2
              + stereo_mix Real.sqrt m (stereo_mix Real.sqrt m X bank 1) bank (-1)
                  (j * 2 + 1) ^ 2)
          - ∑ j in Finset.Ico (m.nbMdctBlocks * m.eBands i) (m.nbMdctBlocks * m.eBands (i + 1)),
              (X (j * 2) ^ 2 + X (j * 2 + 1) ^ 2)|
        ≤ 1e-6 * ∑ j in Finset.Ico (m.nbMdctBlocks * m.eBands i)
            (m.nbMdctBlocks * m.eBands (i + 1)), (X (j * 2) ^ 2 + X (j * 2 + 1) ^ 2)) := by
  have h := stereo_roundtrip_energy m hord hC X bank i hi
  refine ⟨h, fun hT => ?_⟩
  rw [h]
  set T := bank (i * 2) * bank (i * 2) + bank (i * 2 + 1) * bank (i * 2 + 1) with hTdef
  set E := ∑ j in Finset.Ico (m.nbMdctBlocks * m.eBands i) (m.nbMdctBlocks * m.eBands (i + 1)),
    (X (j * 2) ^ 2 + X (j * 2 + 1) ^ 2) with hE
  have hE0 : 0 ≤ E := Finset.sum_nonneg (fun j _ => add_nonneg (sq_nonneg _) (sq_nonneg _))
  have e1 : (0.01 : ℝ) + bank (i * 2) * bank (i * 2) + bank (i * 2 + 1) * bank (i * 2 + 1)
      = 0.01 + T := by rw [hTdef]; ring
  rw [e1]
  have hpos : (0 : ℝ) < 0.01 + T := by norm_num; linarith
  set g := T / (0.01 + T) with hg
  have hg0 : 0 ≤ g := div_nonneg (by linarith) (le_of_lt hpos)
  have hg1 : g ≤ 1 := by
    rw [hg, div_le_one hpos]
    norm_num
  have hg2 : 1 - g ≤ 1 / 20000001 := by
    have : 1 - g = 0.01 / (0.01 + T) := by
      rw [hg]
      field_simp
    rw [this, div_le_div_iff₀ hpos (by norm_num)]
    norm_num
    linarith
  have e2 : g ^ 2 * E - E = - ((1 - g ^ 2) * E) := by ring
  have h3 : 0 ≤ 1 - g ^ 2 := by nlinarith
  have h4 : 1 - g ^ 2 ≤ 1e-6 := by
    have : 1 - g ^ 2 ≤ 2 * (1 - g) := by nlinarith
    norm_num
    linarith
  rw [e2, abs_neg, abs_of_nonneg (mul_nonneg h3 hE0)]
  exact mul_le_mul_of_nonneg_right h4 hE0

end Stereo

/-! ## Pitch gains -/

/-- A cell holds a value with property `Q` after the loop when iteration `j0` stores such a
value there and no later iteration changes the cell. -/
theorem forLoop_establishes {F : Type} (Q : F → Prop) (lo hi : Nat)
    (body : Nat → (Nat → F) → (Nat → F)) (X : Nat → F) (k j0 : Nat) (h1 : lo ≤ j0)
    (h2 : j0 < hi) (hset : ∀ s, Q (body j0 s k))
    (hframe : ∀ j s, j0 < j → j < hi → body j s k = s k) :
    Q (forLoop lo hi body X k) := by
  have key := forLoop_induct (fun j s => j0 < j → Q (s k)) lo hi body X (by omega)
    (fun h => absurd h (by omega))
    (fun j s hj1 hj2 hq hlt => by
      rcases Nat.lt_or_ge j0 j with h | h
      · show Q (body j s k)
        rw [hframe j s h hj2]; exact hq h
      · have : j = j0 := by omega
        subst this
        exact hset s)
  exact key h2

/-- The clipping and scaling of `compute_pitch_gain` yields a gain in `[0, 0.9]`. -/
theorem clipped_gain_bounds {F : Type} [LinearOrderedField F] (g : F) :
    0 ≤ (if (if g > 1 then 1 else g) < 0 then 0 else (if g > 1 then 1 else g)) * 0.9
    ∧ (if (if g > 1 then 1 else g) < 0 then 0 else (if g > 1 then 1 else g)) * 0.9 ≤ 0.9 := by
  have h9 : (0 : F) ≤ 0.9 := by norm_num
  split_ifs with h1 h2 h3
  · exact absurd h2 (by norm_num)
  · exact ⟨by norm_num, by norm_num⟩
  · exact ⟨by norm_num, by norm_num⟩
  · have hg1 : g ≤ 1 := not_lt.mp h1
    have hg0 : 0 ≤ g := not_lt.mp h3
    constructor
    · exact mul_nonneg hg0 h9
    · calc g * 0.9 ≤ 1 * 0.9 := mul_le_mul_of_nonneg_right hg1 h9
        _ = 0.9 := one_mul _

/-- C8: for every mode, every `X`, `P` and every energy bank (and whatever the arrays `gains`
and `w` held before), each `gains[p]` written by `compute_pitch_gain`, `p < nbPBands`,
satisfies `0 ≤ gains[p] ≤ 0.9`. -/
theorem compute_pitch_gain_bounds (m : CELTMode) (X P gains bank w : Nat → ℝ) (p : Nat)
    (hp : p < m.nbPBands) :
    0 ≤ (compute_pitch_gain m X P gains bank w).1 p
    ∧ (compute_pitch_gain m X P gains bank w).1 p ≤ 0.9 := by
  unfold compute_pitch_gain
  simp only []
  apply forLoop_establishes (fun v : ℝ => 0 ≤ v ∧ v ≤ 0.9) 0 m.nbPBands _ gains p p
    (Nat.zero_le _) hp
  · intro s
    rw [Function.update_same]
    exact clipped_gain_bounds _
  · intro j s hj _
    exact Function.update_noteq (by omega) _ _

/-! ## Padding discipline -/

/-- C9: for every mode and arbitrary input buffers (whatever they hold on the padding), the
spectrum written by `normalise_bands` (`X`), `denormalise_bands` (`freq`), `stereo_mix` (`X`),
`quant_bands` (`X`) and `unquant_bands` (`X`) is zero at every index `k` of the padding region
`[B*C*eBands[nbEBands], B*C*eBands[nbEBands+1])`, whatever the external collaborators do. -/
theorem padding_zero {Enc Dec : Type} (col : Collab ℝ Enc Dec) (m : CELTMode)
    (freq X P W bank norm : Nat → ℝ) (dir : Int) (total_bits : Int) (enc : Enc) (dec : Dec)
    (pulses offsets : Nat → Int) (k : Nat)
    (hk1 : m.nbMdctBlocks * m.nbChannels * m.eBands m.nbEBands ≤ k)
    (hk2 : k < m.nbMdctBlocks * m.nbChannels * m.eBands (m.nbEBands + 1)) :
    normalise_bands Real.sqrt m freq X bank k = 0
    ∧ denormalise_bands Real.sqrt m X freq bank k = 0
    ∧ stereo_mix Real.sqrt m X bank dir k = 0
    ∧ (quant_bands Real.cos Real.sin Real.sqrt col m X P W total_bits enc norm pulses
        offsets).X k = 0
    ∧ (unquant_bands Real.cos Real.sin Real.sqrt col m X P total_bits dec norm pulses
        offsets).X k = 0 := by
  refine ⟨?_, ?_, ?_, ?_, ?_⟩
  · unfold normalise_bands
    simp only []
    rw [forLoop_zero_apply, if_pos ⟨hk1, hk2⟩]
  · unfold denormalise_bands
    simp only []
    rw [forLoop_zero_apply, if_pos ⟨hk1, hk2⟩]
  · unfold stereo_mix
    simp only []
    rw [forLoop_zero_apply, if_pos ⟨hk1, hk2⟩]
  · unfold quant_bands
    simp only []
    rw [forLoop_zero_apply, if_pos ⟨hk1, hk2⟩]
  · unfold unquant_bands
    simp only []
    rw [forLoop_zero_apply, if_pos ⟨hk1, hk2⟩]

/-! ## Encoder and decoder in lockstep -/

section Lockstep

variable {F Enc Dec : Type} [LinearOrderedField F]

theorem forLoop_split {σ : Type} (lo mid hi : Nat) (body : Nat → σ → σ) (st : σ)
    (h1 : lo ≤ mid) (h2 : mid ≤ hi) :
    forLoop lo hi body st = forLoop mid hi body (forLoop lo mid body st) := by
  induction hi, h2 using Nat.le_induction with
  | base => rw [forLoop_of_le mid mid _ _ (le_refl _)]
  | succ n hn ih =>
    rw [forLoop_succ _ _ _ _ (le_trans h1 hn), forLoop_succ _ _ _ _ hn, ih]

/-- The loop `for (j = lo; j < hi; j++) X[j] = v j`. -/
theorem forLoop_store_apply {G : Type} (lo hi : Nat) (v : Nat → G) (X : Nat → G) (k : Nat) :
    forLoop lo hi (fun j X => Function.update X j (v j)) X k
      = if lo ≤ k ∧ k < hi then v k else X k := by
  split_ifs with h
  · exact forLoop_hit lo hi _ X k k (v k) h.1 h.2 (fun s => by simp)
      (fun j s hj _ => Function.update_noteq (by omega) _ _)
  · exact forLoop_frame lo hi _ X k
      (fun j s h1 h2 => Function.update_noteq (by omega) _ _)

theorem atOffset_below {G : Type} (X : Nat → G) (off : Nat) (f : (Nat → G) → (Nat → G)) (j : Nat)
    (hj : j < off) : atOffset X off f j = X j := by
  unfold atOffset
  rw [if_neg (by omega)]

theorem blit_below {G : Type} (X : Nat → G) (off n : Nat) (v : Nat → G) (j : Nat) (hj : j < off) :
    blit X off n v j = X j := by
  unfold blit
  rw [if_neg (by omega)]

/-- Two buffers that agree below `off` and receive bands that agree on their `n` samples
agree below `off + n`. -/
theorem blit_agree {G : Type} (X X' : Nat → G) (off n : Nat) (v v' : Nat → G)
    (hX : ∀ j, j < off → X j = X' j) (hv : ∀ k, k < n → v k = v' k) :
    ∀ j, j < off + n → blit X off n v j = blit X' off n v' j := by
  intro j hj
  unfold blit
  by_cases h : off ≤ j ∧ j < off + n
  · rw [if_pos h, if_pos h]
    exact hv _ (by omega)
  · rw [if_neg h, if_neg h]
    exact hX j (by omega)

theorem rotate_pair_local (c s : F) (stride i len : Nat) (X X' : Nat → F)
    (hi : i + stride < len) (h : ∀ k, k < len → X k = X' k) :
    ∀ k, k < len → rotate_pair c s stride i X k = rotate_pair c s stride i X' k := by
  intro k hk
  rw [rotate_pair_apply, rotate_pair_apply, h i (by omega), h (i + stride) hi, h k hk]

theorem apply_rotations_local (c s : F) (stride len : Nat) (l : List Nat)
    (hl : ∀ i ∈ l, i + stride < len) (X X' : Nat → F) (h : ∀ k, k < len → X k = X' k) :
    ∀ k, k < len → apply_rotations c s stride l X k = apply_rotations c s stride l X' k := by
  induction l generalizing X X' with
  | nil => exact h
  | cons i t ih =>
    exact ih (fun j hj => hl j (List.mem_cons_of_mem i hj)) _ _
      (rotate_pair_local c s stride i len X X' (hl i (List.mem_cons_self i t)) h)

/-- The first `len` samples that `exp_rotation` leaves depend only on the first `len` samples
it finds. -/
theorem exp_rotation_local (cos sin : F → F) (X X' : Nat → F) (len : Nat) (theta : F)
    (dir : Int) (stride iter : Nat) (h : ∀ k, k < len → X k = X' k) :
    ∀ k, k < len → exp_rotation cos sin X len theta dir stride iter k
      = exp_rotation cos sin X' len theta dir stride iter k := by
  rw [exp_rotation_eq_iterate, exp_rotation_eq_iterate]
  induction iter with
  | zero => exact h
  | succ n ih =>
    rw [Function.iterate_succ_apply', Function.iterate_succ_apply']
    exact apply_rotations_local _ _ stride len _ (exp_rotation_pass_inside stride len) _ _ ih

/-- Rotating the band at `off` of two buffers that agree below `off + len` leaves buffers that
agree below `off + len`. -/
theorem atOffset_rotation_agree (cos sin : F → F) (X X' : Nat → F) (off len : Nat) (theta : F)
    (dir : Int) (stride iter : Nat) (h : ∀ j, j < off + len → X j = X' j) :
    ∀ j, j < off + len →
      atOffset X off (fun X => exp_rotation cos sin X len theta dir stride iter) j
        = atOffset X' off (fun X => exp_rotation cos sin X len theta dir stride iter) j := by
  intro j hj
  unfold atOffset
  by_cases hle : off ≤ j
  · rw [if_pos hle, if_pos hle]
    exact exp_rotation_local cos sin _ _ len theta dir stride iter
      (fun k hk => h (off + k) (by omega)) (j - off) (by omega)
  · rw [if_neg hle, if_neg hle]
    exact h j hj

/-- The end of band `i` is its start plus its length `N`. -/
theorem band_end (B : Nat) (e : Nat → Nat) (i : Nat) (hle : e i ≤ e (i + 1)) :
    B * e i + ((B : Int) * ((e (i + 1) : Int) - (e i : Int))).toNat = B * e (i + 1) := by
  have h : (B : Int) * ((e (i + 1) : Int) - (e i : Int)) = ((B * (e (i + 1) - e i) : Nat) : Int) := by
    push_cast [Nat.cast_sub hle]
    ring
  rw [h, Int.toNat_natCast, ← Nat.mul_add]
  congr 1
  omega

/-- After the prediction part of the loop body for band `i`, encoder and decoder hold the same
`q` and the same `alpha`. -/
theorem predict_q_alpha (col : Collab F Enc Dec) (m : CELTMode) (W : Nat → F)
    (pe pd : Nat → Int) (i : Nat) (hpu : pe i = pd i) (se : QuantState F Enc)
    (sd : QuantState F Dec) :
    (quant_predict col m W pe i se).1 = (unquant_predict col m pd i sd).1
    ∧ (quant_predict col m W pe i se).2.alpha = (unquant_predict col m pd i sd).2.alpha := by
  unfold quant_predict unquant_predict
  dsimp only
  rw [← hpu]
  by_cases hc : m.eBands i ≥ m.pitchEnd ∨ pe i ≤ 0
  · rw [if_pos hc, if_pos hc]
    by_cases hq : pe i - 1 < 0
    · rw [if_pos hq, if_pos hq]
      exact ⟨rfl, rfl⟩
    · rw [if_neg hq, if_neg hq]
      exact ⟨rfl, rfl⟩
  · rw [if_neg hc, if_neg hc]
    exact ⟨rfl, rfl⟩

/-- After the prediction part of the loop body for band `i`, encoder and decoder still agree;
when no pulse is left (`q ≤ 0`) they also agree on the samples of band `i`. -/
theorem predict_agree (col : Collab F Enc Dec) (m : CELTMode) (Pre : Enc → Enc → Prop)
    (Sync : Enc → Enc → Dec → Prop) (hpair : DecodeOfEncode col m Pre Sync) (hord : m.ordered)
    (W : Nat → F) (pe pd : Nat → Int) (i : Nat) (hi : i < m.nbEBands) (hpu : pe i = pd i)
    (fin : Enc) (se : QuantState F Enc) (sd : QuantState F Dec)
    (hag : Agree Sync fin (m.nbMdctBlocks * m.nbChannels * m.eBands i)
      (m.nbMdctBlocks * m.nbChannels * m.eBands i) se sd)
    (hpre : Pre (quant_predict col m W pe i se).2.coder fin) :
    Agree Sync fin (m.nbMdctBlocks * m.nbChannels * m.eBands i)
        (m.nbMdctBlocks * m.nbChannels * m.eBands i)
        (quant_predict col m W pe i se).2 (unquant_predict col m pd i sd).2
    ∧ ((quant_predict col m W pe i se).1 ≤ 0 →
        ∀ j, j < m.nbMdctBlocks * m.nbChannels * m.eBands (i + 1) →
          (quant_predict col m W pe i se).2.X j = (unquant_predict col m pd i sd).2.X j) := by
  obtain ⟨hX, hN, hP, hS⟩ := hag
  have hend := band_end (m.nbMdctBlocks * m.nbChannels) m.eBands i (hord i (by omega))
  unfold quant_predict at hpre ⊢
  unfold unquant_predict
  dsimp only at hpre ⊢
  rw [← hpu, ← hP]
  by_cases hc : m.eBands i ≥ m.pitchEnd ∨ pe i ≤ 0
  · rw [if_pos hc] at hpre
    rw [if_pos hc, if_pos hc]
    by_cases hq : pe i - 1 < 0
    · rw [if_pos hq] at hpre
      rw [if_pos hq, if_pos hq]
      dsimp only at hpre ⊢
      have hf := hpair.fold (shift se.X (m.nbMdctBlocks * m.nbChannels * m.eBands i))
        (shift sd.X (m.nbMdctBlocks * m.nbChannels * m.eBands i))
        ((m.nbMdctBlocks * m.nbChannels : Nat) * ((m.eBands (i + 1) : Int) - (m.eBands i : Int)))
        se.norm sd.norm (shift se.P (m.nbMdctBlocks * m.nbChannels * m.eBands i))
        (m.nbMdctBlocks * m.nbChannels) (m.eBands i) (m.eBands (m.nbEBands + 1)) hN
      have hXb := blit_agree se.X sd.X _ _ _ _ hX (fun k hk => (hf k hk).1)
      rw [hend] at hXb
      refine ⟨⟨fun j hj => ?_, hN, ?_, hS⟩, fun _ j hj => hXb j hj⟩
      · dsimp only
        rw [blit_below _ _ _ _ _ hj, blit_below _ _ _ _ _ hj]
        exact hX j hj
      · funext j
        dsimp only
        unfold blit
        split_ifs with hb
        · exact (hf _ (by omega)).2
        · rfl
    · rw [if_neg hq] at hpre
      rw [if_neg hq, if_neg hq]
      dsimp only at hpre ⊢
      obtain ⟨h1, h2, h3⟩ := hpair.intra fin
        (shift se.X (m.nbMdctBlocks * m.nbChannels * m.eBands i))
        (shift sd.X (m.nbMdctBlocks * m.nbChannels * m.eBands i))
        (shift W (m.nbMdctBlocks * m.nbChannels * m.eBands i))
        ((m.nbMdctBlocks * m.nbChannels : Nat) * ((m.eBands (i + 1) : Int) - (m.eBands i : Int)))
        (pe i - 1) se.norm sd.norm (shift se.P (m.nbMdctBlocks * m.nbChannels * m.eBands i))
        (m.nbMdctBlocks * m.nbChannels) (m.eBands i) se.coder sd.coder hS hpre hN
      refine ⟨⟨fun j hj => ?_, hN, ?_, h1⟩, fun hq0 j hj => ?_⟩
      · dsimp only
        rw [blit_below _ _ _ _ _ hj, blit_below _ _ _ _ _ hj]
        exact hX j hj
      · funext j
        dsimp only
        unfold blit
        split_ifs with hb
        · exact h2 _ (by omega)
        · rfl
      · have hK : pe i - 1 = 0 := by
          have : (pe i - 1 : Int) ≤ 0 := hq0
          omega
        have hXb := blit_agree se.X sd.X _ _ _ _ hX (h3 hK)
        rw [hend] at hXb
        exact hXb j hj
  · rw [if_neg hc] at hpre
    rw [if_neg hc, if_neg hc]
    dsimp only at hpre ⊢
    refine ⟨⟨hX, hN, rfl, hS⟩, fun hq0 => ?_⟩
    exact absurd (Or.inr hq0) hc

/-- After the pulse-coding part of the loop body for band `i`, encoder and decoder agree on
the samples up to the end of band `i`, although only the encoder rotates `X` before the
codebook search. -/
theorem vq_agree (cos sin : F → F) (col : Collab F Enc Dec) (m : CELTMode)
    (Pre : Enc → Enc → Prop) (Sync : Enc → Enc → Dec → Prop)
    (hpair : DecodeOfEncode col m Pre Sync) (hord : m.ordered) (W : Nat → F)
    (pe pd : Nat → Int) (i : Nat) (hi : i < m.nbEBands) (hpu : pe i = pd i) (fin : Enc)
    (q : Int) (se : QuantState F Enc) (sd : QuantState F Dec) (halpha : se.alpha = sd.alpha)
    (hag : Agree Sync fin (m.nbMdctBlocks * m.nbChannels * m.eBands i)
      (m.nbMdctBlocks * m.nbChannels * m.eBands i) se sd)
    (hX0 : q ≤ 0 → ∀ j, j < m.nbMdctBlocks * m.nbChannels * m.eBands (i + 1) →
      se.X j = sd.X j)
    (hpre : Pre (quant_vq cos sin col m W pe i q se).coder fin) :
    Agree Sync fin (m.nbMdctBlocks * m.nbChannels * m.eBands (i + 1))
      (m.nbMdctBlocks * m.nbChannels * m.eBands i)
      (quant_vq cos sin col m W pe i q se) (unquant_vq cos sin col m pd i q sd) := by
  obtain ⟨hX, hN, hP, hS⟩ := hag
  have hend := band_end (m.nbMdctBlocks * m.nbChannels) m.eBands i (hord i (by omega))
  unfold quant_vq at hpre ⊢
  unfold unquant_vq
  dsimp only at hpre ⊢
  rw [← hpu, ← hP, ← halpha]
  by_cases hq : q > 0
  · rw [if_pos hq] at hpre
    rw [if_pos hq, if_pos hq]
    dsimp only at hpre ⊢
    obtain ⟨h1, h2⟩ := hpair.alg fin _ (shift sd.X (m.nbMdctBlocks * m.nbChannels * m.eBands i))
      _ _ _ _ _ _ sd.coder hS hpre
    refine ⟨fun j hj => ?_, hN, rfl, h1⟩
    dsimp only
    rw [← hend] at hj
    apply atOffset_rotation_agree cos sin _ _ _ _ _ _ _ _ _ j hj
    apply blit_agree _ _ _ _ _ _ _ h2
    intro j' hj'
    rw [atOffset_below _ _ _ _ hj']
    exact hX j' hj'
  · rw [if_neg hq] at hpre
    rw [if_neg hq, if_neg hq]
    exact ⟨hX0 (by omega), hN, hP, hS⟩

/-- After the loop body for band `i` has stored the band in `norm`, the contexts of encoder
and decoder agree up to the end of band `i`. -/
theorem store_norm_agree (sqrt : F → F) (m : CELTMode) (Sync : Enc → Enc → Dec → Prop)
    (fin : Enc) (i : Nat) (se : QuantState F Enc) (sd : QuantState F Dec)
    (hag : Agree Sync fin (m.nbMdctBlocks * m.nbChannels * m.eBands (i + 1))
      (m.nbMdctBlocks * m.nbChannels * m.eBands i) se sd) :
    Agree Sync fin (m.nbMdctBlocks * m.nbChannels * m.eBands (i + 1))
      (m.nbMdctBlocks * m.nbChannels * m.eBands (i + 1))
      (store_norm sqrt m i se) (store_norm sqrt m i sd) := by
  obtain ⟨hX, hN, hP, hS⟩ := hag
  unfold store_norm
  dsimp only
  refine ⟨hX, fun j hj => ?_, hP, hS⟩
  dsimp only
  rw [forLoop_store_apply, forLoop_store_apply]
  split_ifs with hb
  · rw [hX j hj]
  · exact hN j (by omega)

/-- The loop body of `quant_bands` only appends to the stream, in both of its parts. -/
theorem quant_band_ext (cos sin sqrt : F → F) (col : Collab F Enc Dec) (m : CELTMode)
    (Pre : Enc → Enc → Prop) (Sync : Enc → Enc → Dec → Prop)
    (hpair : DecodeOfEncode col m Pre Sync) (W : Nat → F) (pe : Nat → Int) (i : Nat)
    (st : QuantState F Enc) :
    Pre st.coder (quant_predict col m W pe i st).2.coder
    ∧ Pre (quant_predict col m W pe i st).2.coder
        (quant_vq cos sin col m W pe i (quant_predict col m W pe i st).1
          (quant_predict col m W pe i st).2).coder
    ∧ (quant_band cos sin sqrt col m W pe i st).coder
        = (quant_vq cos sin col m W pe i (quant_predict col m W pe i st).1
          (quant_predict col m W pe i st).2).coder := by
  refine ⟨?_, ?_, rfl⟩
  · unfold quant_predict
    dsimp only
    split_ifs
    · exact hpair.pre_refl _
    · exact hpair.intra_ext _ _ _ _ _ _ _ _ _
    · exact hpair.pre_refl _
  · generalize (quant_predict col m W pe i st).1 = q
    generalize (quant_predict col m W pe i st).2 = st2
    unfold quant_vq
    dsimp only
    split_ifs
    · exact hpair.alg_ext _ _ _ _ _ _ _
    · exact hpair.pre_refl _

/-- One pass of the loop body for band `i` keeps encoder and decoder in agreement, up to the
end of band `i`. -/
theorem band_agree (cos sin sqrt : F → F) (col : Collab F Enc Dec) (m : CELTMode)
    (Pre : Enc → Enc → Prop) (Sync : Enc → Enc → Dec → Prop)
    (hpair : DecodeOfEncode col m Pre Sync) (hord : m.ordered) (W : Nat → F)
    (pe pd : Nat → Int) (i : Nat) (hi : i < m.nbEBands) (hpu : pe i = pd i) (fin : Enc)
    (se : QuantState F Enc) (sd : QuantState F Dec)
    (hag : Agree Sync fin (m.nbMdctBlocks * m.nbChannels * m.eBands i)
      (m.nbMdctBlocks * m.nbChannels * m.eBands i) se sd)
    (hpre : Pre (quant_band cos sin sqrt col m W pe i se).coder fin) :
    Agree Sync fin (m.nbMdctBlocks * m.nbChannels * m.eBands (i + 1))
      (m.nbMdctBlocks * m.nbChannels * m.eBands (i + 1))
      (quant_band cos sin sqrt col m W pe i se) (unquant_band cos sin sqrt col m pd i sd) := by
  obtain ⟨_, e2, e3⟩ := quant_band_ext cos sin sqrt col m Pre Sync hpair W pe i se
  rw [e3] at hpre
  have hpre1 := hpair.pre_trans _ _ _ e2 hpre
  obtain ⟨hq, halpha⟩ := predict_q_alpha col m W pe pd i hpu se sd
  obtain ⟨hag1, hX0⟩ := predict_agree col m Pre Sync hpair hord W pe pd i hi hpu fin se sd
    hag hpre1
  have hag2 := vq_agree cos sin col m Pre Sync hpair hord W pe pd i hi hpu fin
    (quant_predict col m W pe i se).1 (quant_predict col m W pe i se).2
    (unquant_predict col m pd i sd).2 halpha hag1 hX0 hpre
  unfold quant_band unquant_band
  dsimp only
  rw [← hq]
  exact store_norm_agree sqrt m Sync fin i _ _ hag2

/-- The band loop of `quant_bands` only appends to the stream. -/
theorem quant_loop_ext (cos sin sqrt : F → F) (col : Collab F Enc Dec) (m : CELTMode)
    (Pre : Enc → Enc → Prop) (Sync : Enc → Enc → Dec → Prop)
    (hpair : DecodeOfEncode col m Pre Sync) (W : Nat → F) (pe : Nat → Int) (lo hi : Nat)
    (st : QuantState F Enc) :
    Pre st.coder (forLoop lo hi (quant_band cos sin sqrt col m W pe) st).coder := by
  apply forLoop_preserves (fun s => Pre st.coder s.coder) lo hi _ st (hpair.pre_refl _)
  intro j s _ _ hq
  obtain ⟨e1, e2, e3⟩ := quant_band_ext cos sin sqrt col m Pre Sync hpair W pe j s
  show Pre st.coder (quant_band cos sin sqrt col m W pe j s).coder
  rw [e3]
  exact hpair.pre_trans _ _ _ hq (hpair.pre_trans _ _ _ e1 e2)

/-- The band loops of `quant_bands` and `unquant_bands` stay in agreement. -/
theorem bands_agree (cos sin sqrt : F → F) (col : Collab F Enc Dec) (m : CELTMode)
    (Pre : Enc → Enc → Prop) (Sync : Enc → Enc → Dec → Prop)
    (hpair : DecodeOfEncode col m Pre Sync) (hord : m.ordered) (W : Nat → F)
    (pe pd : Nat → Int) (hpu : ∀ i, i < m.nbEBands → pe i = pd i) (fin : Enc)
    (se : QuantState F Enc) (sd : QuantState F Dec)
    (hag : Agree Sync fin (m.nbMdctBlocks * m.nbChannels * m.eBands 0)
      (m.nbMdctBlocks * m.nbChannels * m.eBands 0) se sd)
    (hfin : Pre (forLoop 0 m.nbEBands (quant_band cos sin sqrt col m W pe) se).coder fin)
    (n : Nat) (hn : n ≤ m.nbEBands) :
    Agree Sync fin (m.nbMdctBlocks * m.nbChannels * m.eBands n)
      (m.nbMdctBlocks * m.nbChannels * m.eBands n)
      (forLoop 0 n (quant_band cos sin sqrt col m W pe) se)
      (forLoop 0 n (unquant_band cos sin sqrt col m pd) sd) := by
  induction n with
  | zero =>
    rw [forLoop_of_le _ _ _ _ (le_refl _), forLoop_of_le _ _ _ _ (le_refl _)]
    exact hag
  | succ k ih =>
    rw [forLoop_succ _ _ _ _ (Nat.zero_le _), forLoop_succ _ _ _ _ (Nat.zero_le _)]
    apply band_agree cos sin sqrt col m Pre Sync hpair hord W pe pd k (by omega)
      (hpu k (by omega)) fin _ _ (ih (by omega))
    rw [← forLoop_succ 0 k (quant_band cos sin sqrt col m W pe) se (Nat.zero_le _)]
    have hsplit := forLoop_split 0 (k + 1) m.nbEBands (quant_band cos sin sqrt col m W pe) se
      (Nat.zero_le _) hn
    have hext := quant_loop_ext cos sin sqrt col m Pre Sync hpair W pe (k + 1) m.nbEBands
      (forLoop 0 (k + 1) (quant_band cos sin sqrt col m W pe) se)
    rw [← hsplit] at hext
    exact hpair.pre_trans _ _ _ hext hfin

end Lockstep

/-- C4, as amended: for every mode with ordered band boundaries starting at bin 0
(`eBands[0] = 0`), every pitch prediction `P`, bit budget and allocation, with collaborators
that meet `DecodeOfEncode` (the conditions the specification lists and, beyond them, that what
`intra_fold` writes to the band depends only on the context below the band and on `P`, and
that `intra_unquant` leaves the same band of `X` as `intra_prediction` when no pulse follows,
`K = 0`) and a decoder synchronised with the encoder on a stream that continues what the
encoder has written when `quant_bands` returns: every sample `X[j]`,
`j < B*C*eBands[nbEBands+1]`, produced by `unquant_bands` equals the sample left by
`quant_bands`, whatever the decoder's `X` and the scratch arrays held before, and although
only the encoder rotates `X` before the codebook. -/
theorem unquant_bands_reconstructs {Enc Dec : Type} (col : Collab ℝ Enc Dec) (m : CELTMode)
    (Pre : Enc → Enc → Prop) (Sync : Enc → Enc → Dec → Prop)
    (hpair : DecodeOfEncode col m Pre Sync) (hord : m.ordered) (h0 : m.eBands 0 = 0)
    (Xe Xd P W : Nat → ℝ) (total_bits : Int) (enc fin : Enc) (dec : Dec)
    (norm_e norm_d : Nat → ℝ) (pulses_e pulses_d offsets_e offsets_d : Nat → Int)
    (hsync : Sync fin enc dec)
    (hfin : Pre (quant_bands Real.cos Real.sin Real.sqrt col m Xe P W total_bits enc norm_e
      pulses_e offsets_e).coder fin)
    (j : Nat) (hj : j < m.nbMdctBlocks * m.nbChannels * m.eBands (m.nbEBands + 1)) :
    (unquant_bands Real.cos Real.sin Real.sqrt col m Xd P total_bits dec norm_d pulses_d
        offsets_d).X j
      = (quant_bands Real.cos Real.sin Real.sqrt col m Xe P W total_bits enc norm_e pulses_e
        offsets_e).X j := by
  unfold quant_bands at hfin ⊢
  unfold unquant_bands
  dsimp only at hfin ⊢
  rw [← hpair.tell fin enc dec hsync] at *
  have hoff : ∀ i, i < m.nbEBands →
      forLoop 0 m.nbEBands (fun i offsets => Function.update offsets i 0) offsets_e i
        = forLoop 0 m.nbEBands (fun i offsets => Function.update offsets i 0) offsets_d i := by
    intro i hi
    rw [forLoop_zero_apply, forLoop_zero_apply, if_pos ⟨Nat.zero_le _, hi⟩,
      if_pos ⟨Nat.zero_le _, hi⟩]
  have hpu := hpair.alloc _ _ (total_bits - col.ec_enc_tell enc 0 - 1) pulses_e pulses_d hoff
  have hag0 : Agree Sync fin (m.nbMdctBlocks * m.nbChannels * m.eBands 0)
      (m.nbMdctBlocks * m.nbChannels * m.eBands 0)
      ({ X := Xe, P := P, norm := norm_e, alpha := 0.7, coder := enc } : QuantState ℝ Enc)
      ({ X := Xd, P := P, norm := norm_d, alpha := 0.7, coder := dec } : QuantState ℝ Dec) := by
    rw [h0, Nat.mul_zero]
    exact ⟨fun j hj => absurd hj (by omega), fun j hj => absurd hj (by omega), rfl, hsync⟩
  have hag := bands_agree Real.cos Real.sin Real.sqrt col m Pre Sync hpair hord W _ _ hpu fin
    _ _ hag0 hfin m.nbEBands (le_refl _)
  rw [forLoop_zero_apply, forLoop_zero_apply]
  split_ifs with hb
  · rfl
  · exact (hag.X j (by omega)).symm

/-! ## The sample codec is a decode-of-encode pair -/

theorem listCodec_paired {F : Type} [LinearOrderedField F] (m : CELTMode) :
    DecodeOfEncode (listCodec : Collab F (List F) (Nat × List F)) m listPre listSync where
  pre_refl := fun enc => List.prefix_refl enc
  pre_trans := fun _ _ _ h1 h2 => List.IsPrefix.trans h1 h2
  intra_ext := fun _ _ _ _ _ _ _ _ enc => List.prefix_refl enc
  alg_ext := fun x _ _ _ _ _ enc => List.prefix_append enc [x 0]
  tell := fun _ enc dec h => by
    show ((enc.length : Nat) : Int) = ((dec.1 : Nat) : Int)
    rw [h.1]
  alloc := fun _ _ _ _ _ _ _ _ => rfl
  fold := fun _ _ _ _ _ _ _ _ _ _ _ _ => ⟨rfl, rfl⟩
  intra := fun _ _ _ _ _ K _ _ _ _ _ _ _ hs _ _ => by
    refine ⟨hs, fun _ _ => rfl, fun hK k _ => ?_⟩
    show (if K = 0 then zeroBuf else _) k = (if K = 0 then zeroBuf else _) k
    rw [if_pos hK, if_pos hK]
  alg := fun fin x x' _ _ _ P alpha enc dec hs hpre => by
    obtain ⟨n, rest⟩ := dec
    obtain ⟨h1, h2⟩ := hs
    obtain ⟨t, ht⟩ : ∃ t, (enc ++ [x 0]) ++ t = fin := hpre
    have hrest : rest = x 0 :: t := by
      have h3 : enc ++ rest = enc ++ ([x 0] ++ t) := by
        rw [← List.append_assoc, ht]
        exact h2.symm
      exact List.append_cancel_left h3
    subst hrest
    refine ⟨⟨?_, ?_⟩, fun k _ => rfl⟩
    · show n + 1 = (enc ++ [x 0]).length
      rw [List.length_append, List.length_singleton]
      have : n = enc.length := h1
      omega
    · show fin = (enc ++ [x 0]) ++ t
      exact ht.symm

/-! ## The statements at sample inputs -/

/-- C1: the amended statement at the mono mode, the quiet signal and the unit bank, sample 0. -/
theorem denormalise_normalise_bands_witness :
    monoMode.ordered ∧ 0 < monoMode.nbEBands ∧ 0 < monoMode.nbChannels
    ∧ monoMode.nbMdctBlocks * monoMode.eBands 0 ≤ 0
    ∧ 0 < monoMode.nbMdctBlocks * monoMode.eBands (0 + 1)
    ∧ (1e-3 : ℝ) ≤ Real.sqrt monoMode.nbChannels * unitBank (0 * monoMode.nbChannels + 0)
    ∧ |denormalise_bands Real.sqrt monoMode
          (normalise_bands Real.sqrt monoMode quietSignal zeroBuf unitBank) zeroBuf unitBank
          (0 * monoMode.nbChannels + 0) - quietSignal (0 * monoMode.nbChannels + 0)|
        ≤ 1e-6 * |(quietSignal (0 * monoMode.nbChannels + 0) : ℝ)| := by
  have hg : (1e-3 : ℝ) ≤ Real.sqrt monoMode.nbChannels * unitBank (0 * monoMode.nbChannels + 0) := by
    show (1e-3 : ℝ) ≤ Real.sqrt ((1 : ℕ) : ℝ) * 1
    rw [Nat.cast_one, Real.sqrt_one]
    norm_num
  exact ⟨monoMode_ordered, by decide, by decide, by decide, by decide, hg,
    (denormalise_normalise_bands monoMode monoMode_ordered quietSignal unitBank zeroBuf zeroBuf
      0 0 0 (by decide) (by decide) (by decide) (by decide)).2.1 hg⟩

/-- C3: the amended statement at the stereo mode, the stereo signal and the bank whose
entries are `1000`, band 0. -/
theorem stereo_mix_roundtrip_energy_witness :
    stereoMode.ordered ∧ stereoMode.nbChannels = 2 ∧ 0 < stereoMode.nbEBands
    ∧ (200000 : ℝ) ≤ strongBank (0 * 2) * strongBank (0 * 2) + strongBank (0 * 2 + 1) * strongBank (0 * 2 + 1)
    ∧ |∑ j in Finset.Ico (stereoMode.nbMdctBlocks * stereoMode.eBands 0)
          (stereoMode.nbMdctBlocks * stereoMode.eBands (0 + 1)),
          (stereo_mix Real.sqrt stereoMode (stereo_mix Real.sqrt stereoMode stereoSignal
              strongBank 1) strongBank (-1) (j * 2) ^ 2
            + stereo_mix Real.sqrt stereoMode (stereo_mix Real.sqrt stereoMode stereoSignal
              strongBank 1) strongBank (-1) (j * 2 + 1) ^ 2)
        - ∑ j in Finset.Ico (stereoMode.nbMdctBlocks * stereoMode.eBands 0)
            (stereoMode.nbMdctBlocks * stereoMode.eBands (0 + 1)),
            ((stereoSignal (j * 2) : ℝ) ^ 2 + stereoSignal (j * 2 + 1) ^ 2)|
      ≤ 1e-6 * ∑ j in Finset.Ico (stereoMode.nbMdctBlocks * stereoMode.eBands 0)
          (stereoMode.nbMdctBlocks * stereoMode.eBands (0 + 1)),
          ((stereoSignal (j * 2) : ℝ) ^ 2 + stereoSignal (j * 2 + 1) ^ 2) := by
  have hT : (200000 : ℝ)
      ≤ strongBank (0 * 2) * strongBank (0 * 2) + strongBank (0 * 2 + 1) * strongBank (0 * 2 + 1) := by
    simp only [strongBank]
    norm_num
  exact ⟨stereoMode_ordered, rfl, by decide, hT,
    (stereo_mix_roundtrip_energy stereoMode stereoMode_ordered rfl stereoSignal strongBank 0
      (by decide)).2 hT⟩

/-- C4: the amended statement at the mono mode with the sample codec, the decoder reading the
stream that the encoder wrote for the quiet signal, sample 0. -/
theorem unquant_bands_reconstructs_witness :
    DecodeOfEncode (listCodec : Collab ℝ (List ℝ) (Nat × List ℝ)) monoMode listPre listSync
    ∧ monoMode.ordered ∧ monoMode.eBands 0 = 0
    ∧ listSync
        (quant_bands Real.cos Real.sin Real.sqrt listCodec monoMode quietSignal zeroBuf zeroBuf
          64 [] zeroBuf (fun _ => 0) (fun _ => 0)).coder []
        (0, (quant_bands Real.cos Real.sin Real.sqrt listCodec monoMode quietSignal zeroBuf
          zeroBuf 64 [] zeroBuf (fun _ => 0) (fun _ => 0)).coder)
    ∧ listPre
        (quant_bands Real.cos Real.sin Real.sqrt listCodec monoMode quietSignal zeroBuf zeroBuf
          64 [] zeroBuf (fun _ => 0) (fun _ => 0)).coder
        (quant_bands Real.cos Real.sin Real.sqrt listCodec monoMode quietSignal zeroBuf zeroBuf
          64 [] zeroBuf (fun _ => 0) (fun _ => 0)).coder
    ∧ 0 < monoMode.nbMdctBlocks * monoMode.nbChannels * monoMode.eBands (monoMode.nbEBands + 1)
    ∧ (unquant_bands Real.cos Real.sin Real.sqrt listCodec monoMode unitBank zeroBuf 64
        (0, (quant_bands Real.cos Real.sin Real.sqrt listCodec monoMode quietSignal zeroBuf
          zeroBuf 64 [] zeroBuf (fun _ => 0) (fun _ => 0)).coder)
        unitBank (fun _ => 0) (fun _ => 0)).X 0
      = (quant_bands Real.cos Real.sin Real.sqrt listCodec monoMode quietSignal zeroBuf zeroBuf
          64 [] zeroBuf (fun _ => 0) (fun _ => 0)).X 0 :=
  ⟨listCodec_paired monoMode, monoMode_ordered, rfl, ⟨rfl, rfl⟩, List.prefix_refl _, by decide,
    unquant_bands_reconstructs listCodec monoMode listPre listSync (listCodec_paired monoMode)
      monoMode_ordered rfl quietSignal unitBank zeroBuf zeroBuf 64 []
      (quant_bands Real.cos Real.sin Real.sqrt listCodec monoMode quietSignal zeroBuf zeroBuf
        64 [] zeroBuf (fun _ => 0) (fun _ => 0)).coder
      (0, (quant_bands Real.cos Real.sin Real.sqrt listCodec monoMode quietSignal zeroBuf
        zeroBuf 64 [] zeroBuf (fun _ => 0) (fun _ => 0)).coder)
      zeroBuf unitBank (fun _ => 0) (fun _ => 0) (fun _ => 0) (fun _ => 0) ⟨rfl, rfl⟩
      (List.prefix_refl _) 0 (by decide)⟩

/-- C5: the statement for the quiet signal, length 16, angle 0.1, `dir = +1`, stride 2 and
eight iterations. -/
theorem exp_rotation_orthogonal_witness :
    ((1 : Int) = 1 ∨ (1 : Int) = -1) ∧ 1 ≤ 2
    ∧ ∑ k in Finset.range 16,
        exp_rotation Real.cos Real.sin quietSignal 16 0.1 1 2 8 k ^ 2
      = ∑ k in Finset.range 16, (quietSignal k : ℝ) ^ 2 :=
  ⟨Or.inl rfl, by decide,
    exp_rotation_orthogonal quietSignal 16 0.1 1 2 8 (Or.inl rfl) (by decide)⟩

/-- C6: the amended statement for the quiet signal, length 16, angle 0.1, stride 2 and eight
iterations. -/
theorem exp_rotation_roundtrip_identity_witness :
    1 ≤ 2
    ∧ exp_rotation Real.cos Real.sin
        (exp_rotation Real.cos Real.sin quietSignal 16 0.1 1 2 8) 16 0.1 (-1) 2 8 = quietSignal
    ∧ exp_rotation Real.cos Real.sin
        (exp_rotation Real.cos Real.sin quietSignal 16 0.1 (-1) 2 8) 16 0.1 1 2 8
          = quietSignal :=
  ⟨by decide, exp_rotation_roundtrip_identity quietSignal 16 0.1 2 8 (by decide)⟩

/-- C7: the statement for the quiet signal, length 16, angle 0.1, `dir = +1`, stride 2 and
eight iterations. -/
theorem exp_rotation_invertible_witness :
    ((1 : Int) = 1 ∨ (1 : Int) = -1) ∧ 1 ≤ 2
    ∧ exp_rotation_reversed_reference Real.cos Real.sin
        (exp_rotation Real.cos Real.sin quietSignal 16 0.1 1 2 8) 16 0.1 (-1) 2 8
      = quietSignal :=
  ⟨Or.inl rfl, by decide,
    exp_rotation_invertible quietSignal 16 0.1 1 2 8 (Or.inl rfl) (by decide)⟩

/-- C8: the statement at the mono mode with `X = P` the quiet signal and the unit bank, pitch
band 0. -/
theorem compute_pitch_gain_bounds_witness :
    0 < monoMode.nbPBands
    ∧ (0 : ℝ) ≤ (compute_pitch_gain monoMode quietSignal quietSignal zeroBuf unitBank zeroBuf).1 0
    ∧ (compute_pitch_gain monoMode quietSignal quietSignal zeroBuf unitBank zeroBuf).1 0
        ≤ (0.9 : ℝ) :=
  ⟨by decide,
    compute_pitch_gain_bounds monoMode quietSignal quietSignal zeroBuf unitBank zeroBuf 0
      (by decide)⟩

/-- C9: the statement at the mono mode with the sample codec, for the first sample of the
padding, with buffers that are not zero there. -/
theorem padding_zero_witness :
    monoMode.nbMdctBlocks * monoMode.nbChannels * monoMode.eBands monoMode.nbEBands ≤ 8
    ∧ 8 < monoMode.nbMdctBlocks * monoMode.nbChannels * monoMode.eBands (monoMode.nbEBands + 1)
    ∧ normalise_bands Real.sqrt monoMode unitBank unitBank unitBank 8 = 0
    ∧ denormalise_bands Real.sqrt monoMode unitBank unitBank unitBank 8 = 0
    ∧ stereo_mix Real.sqrt monoMode unitBank unitBank 1 8 = 0
    ∧ (quant_bands Real.cos Real.sin Real.sqrt (listCodec : Collab ℝ (List ℝ) (Nat × List ℝ))
        monoMode unitBank unitBank unitBank 64 [] unitBank (fun _ => 0) (fun _ => 0)).X 8 = 0
    ∧ (unquant_bands Real.cos Real.sin Real.sqrt (listCodec : Collab ℝ (List ℝ) (Nat × List ℝ))
        monoMode unitBank unitBank 64 (0, []) unitBank (fun _ => 0) (fun _ => 0)).X 8 = 0 :=
  ⟨by decide, by decide,
    padding_zero listCodec monoMode unitBank unitBank unitBank unitBank unitBank unitBank 1 64
      [] (0, []) (fun _ => 0) (fun _ => 0) 8 (by decide) (by decide)⟩

/-- C10: the statement at the mono mode and the quiet signal, band 0, channel 0. -/
theorem compute_band_energies_spec_witness :
    0 < monoMode.nbEBands ∧ 0 < monoMode.nbChannels
    ∧ Real.sqrt 1e-10
        ≤ compute_band_energies Real.sqrt monoMode quietSignal zeroBuf
            (0 * monoMode.nbChannels + 0)
    ∧ 0 < compute_band_energies Real.sqrt monoMode quietSignal zeroBuf
        (0 * monoMode.nbChannels + 0) :=
  ⟨by decide, by decide,
    (compute_band_energies_spec monoMode quietSignal zeroBuf 0 0 (by decide) (by decide)).2⟩

/-! ## Implicit consequences for normalisation, stereo mixing and rotation -/

/-- The value `S / (1e-10 + sqrt(C) * sqrt(1e-10 + S))²` lies strictly below `1/C`. -/
theorem normalised_energy_lt (C S : ℝ) (hC : 1 ≤ C) (hS : 0 ≤ S) :
    S / (1e-10 + Real.sqrt C * Real.sqrt (1e-10 + S)) ^ 2 < 1 / C := by
  have hε : (0 : ℝ) < 1e-10 := by norm_num
  have hC0 : (0 : ℝ) < C := by linarith
  have hS0 : (0 : ℝ) ≤ 1e-10 + S := by linarith
  set t := Real.sqrt C with ht
  set r := Real.sqrt (1e-10 + S) with hr
  have ht0 : 0 ≤ t := Real.sqrt_nonneg _
  have hr0 : 0 ≤ r := Real.sqrt_nonneg _
  have ht2 : t ^ 2 = C := Real.sq_sqrt (le_of_lt hC0)
  have hr2 : r ^ 2 = 1e-10 + S := Real.sq_sqrt hS0
  have hx0 : 0 ≤ t * r := mul_nonneg ht0 hr0
  have hx2 : (t * r) ^ 2 = C * (1e-10 + S) := by rw [mul_pow, ht2, hr2]
  have hD : (0 : ℝ) < 1e-10 + t * r := by linarith
  rw [div_lt_div_iff₀ (pow_pos hD 2) hC0, one_mul]
  have e : (1e-10 + t * r) ^ 2 = (1e-10 : ℝ) ^ 2 + 2 * 1e-10 * (t * r) + (t * r) ^ 2 := by ring
  rw [e, hx2]
  have h1 : (0 : ℝ) < (1e-10 : ℝ) ^ 2 := pow_pos hε 2
  have h2 : (0 : ℝ) ≤ 2 * 1e-10 * (t * r) := by positivity
  have h3 : (0 : ℝ) < C * 1e-10 := mul_pos hC0 hε
  nlinarith

/-- C17, as amended: over exact reals (the roundings of the float build set aside), for every
mode with ordered band boundaries, spectrum `freq`, band `i` and channel `c`, with
`S = Σ freq[j*C+c]²` over the band, normalising with the bank produced by
`compute_band_energies` gives the band energy `S / (1e-10 + sqrt(C)*sqrt(1e-10 + S))²`; it is
strictly less than `1/C` for every input and exactly 0 for an all-zero band. -/
theorem normalised_band_energy_lt_inv_channels (m : CELTMode) (hord : m.ordered)
    (freq X0 bank0 : Nat → ℝ) (i c : Nat) (hi : i < m.nbEBands) (hc : c < m.nbChannels) :
    ∑ j in Finset.Ico (m.nbMdctBlocks * m.eBands i) (m.nbMdctBlocks * m.eBands (i + 1)),
        normalise_bands Real.sqrt m freq X0 (compute_band_energies Real.sqrt m freq bank0)
          (j * m.nbChannels + c) ^ 2
      = (∑ j in Finset.Ico (m.nbMdctBlocks * m.eBands i) (m.nbMdctBlocks * m.eBands (i + 1)),
          freq (j * m.nbChannels + c) ^ 2)
        / (1e-10 + Real.sqrt m.nbChannels
            * Real.sqrt (1e-10 + ∑ j in Finset.Ico (m.nbMdctBlocks * m.eBands i)
                (m.nbMdctBlocks * m.eBands (i + 1)), freq (j * m.nbChannels + c) ^ 2)) ^ 2
    ∧ ∑ j in Finset.Ico (m.nbMdctBlocks * m.eBands i) (m.nbMdctBlocks * m.eBands (i + 1)),
        normalise_bands Real.sqrt m freq X0 (compute_band_energies Real.sqrt m freq bank0)
          (j * m.nbChannels + c) ^ 2 < 1 / (m.nbChannels : ℝ)
    ∧ ((∀ j, m.nbMdctBlocks * m.eBands i ≤ j → j < m.nbMdctBlocks * m.eBands (i + 1) →
          freq (j * m.nbChannels + c) = 0) →
        ∑ j in Finset.Ico (m.nbMdctBlocks * m.eBands i) (m.nbMdctBlocks * m.eBands (i + 1)),
          normalise_bands Real.sqrt m freq X0 (compute_band_energies Real.sqrt m freq bank0)
            (j * m.nbChannels + c) ^ 2 = 0) := by
  have h := normalised_band_energy m hord freq X0 bank0 i c hi hc
  have hC : (1 : ℝ) ≤ (m.nbChannels : ℝ) := by
    have : 1 ≤ m.nbChannels := by omega
    exact_mod_cast this
  refine ⟨h, ?_, fun hz => ?_⟩
  · rw [h]
    exact normalised_energy_lt _ _ hC (Finset.sum_nonneg (fun j _ => sq_nonneg _))
  · rw [h]
    have hS : ∑ j in Finset.Ico (m.nbMdctBlocks * m.eBands i)
        (m.nbMdctBlocks * m.eBands (i + 1)), freq (j * m.nbChannels + c) ^ 2 = 0 := by
      apply Finset.sum_eq_zero
      intro j hj
      rw [Finset.mem_Ico] at hj
      rw [hz j hj.1 hj.2]
      ring
    rw [hS, zero_div]

/-- C18, as amended: over exact reals (the roundings of the float build set aside), for a
stereo mode (`C = 2`) with ordered band boundaries, `stereo_mix` with `dir = -1` applied after
`stereo_mix` with `dir = +1` and the same bank multiplies every sample of band `i`, in both
channels, by `g = (left² + right²) / (0.01 + left² + right²)`, `left = bank[2i]`,
`right = bank[2i+1]`; `0 ≤ g < 1`, so the round trip attenuates, never amplifies, and is never
the exact identity. -/
theorem stereo_mix_roundtrip_attenuates (m : CELTMode) (hord : m.ordered)
    (hC : m.nbChannels = 2) (X bank : Nat → ℝ) (i j : Nat) (hi : i < m.nbEBands)
    (hj1 : m.nbMdctBlocks * m.eBands i ≤ j) (hj2 : j < m.nbMdctBlocks * m.eBands (i + 1)) :
    stereo_mix Real.sqrt m (stereo_mix Real.sqrt m X bank 1) bank (-1) (j * 2)
      = (bank (i * 2) * bank (i * 2) + bank (i * 2 + 1) * bank (i * 2 + 1))
          / (0.01 + bank (i * 2) * bank (i * 2) + bank (i * 2 + 1) * bank (i * 2 + 1))
          * X (j * 2)
    ∧ stereo_mix Real.sqrt m (stereo_mix Real.sqrt m X bank 1) bank (-1) (j * 2 + 1)
      = (bank (i * 2) * bank (i * 2) + bank (i * 2 + 1) * bank (i * 2 + 1))
          / (0.01 + bank (i * 2) * bank (i * 2) + bank (i * 2 + 1) * bank (i * 2 + 1))
          * X (j * 2 + 1)
    ∧ 0 ≤ (bank (i * 2) * bank (i * 2) + bank (i * 2 + 1) * bank (i * 2 + 1))
          / (0.01 + bank (i * 2) * bank (i * 2) + bank (i * 2 + 1) * bank (i * 2 + 1))
    ∧ (bank (i * 2) * bank (i * 2) + bank (i * 2 + 1) * bank (i * 2 + 1))
          / (0.01 + bank (i * 2) * bank (i * 2) + bank (i * 2 + 1) * bank (i * 2 + 1)) < 1 := by
  obtain ⟨h1, h2⟩ := stereo_roundtrip_apply m hord hC X bank i j hi hj1 hj2
  have hT : 0 ≤ bank (i * 2) * bank (i * 2) + bank (i * 2 + 1) * bank (i * 2 + 1) :=
    add_nonneg (mul_self_nonneg _) (mul_self_nonneg _)
  have hpos : (0 : ℝ)
      < 0.01 + bank (i * 2) * bank (i * 2) + bank (i * 2 + 1) * bank (i * 2 + 1) := by
    have : (0 : ℝ) < 0.01 := by norm_num
    linarith
  refine ⟨h1, h2, div_nonneg hT (le_of_lt hpos), ?_⟩
  rw [div_lt_one hpos]
  have : (0 : ℝ) < 0.01 := by norm_num
  linarith

/-- C14, counterexample: in the stereo mode with the single band `[0, 4)`, bank `[1, 1]` and
the signal `L = [1,0,0,0]`, `R = [0,1,0,0]`, the left sample 0 after `stereo_mix` with
`dir = +1` is not `(l + r)/sqrt(1.02)`. -/
theorem stereo_mix_unit_bank_not_sqrt_1_02 :
    stereo_mix Real.sqrt stereoMode stereoSignal unitBank 1 0
      ≠ ((stereoSignal 0 : ℝ) + stereoSignal 1) / Real.sqrt 1.02 := by
  have h : stereo_mix Real.sqrt stereoMode stereoSignal unitBank 1 0
      = (unitBank 0 : ℝ) / Real.sqrt (0.01 + unitBank 0 * unitBank 0 + unitBank 1 * unitBank 1)
          * stereoSignal 0
        + ((1 : Int) : ℝ) * unitBank 1
          / Real.sqrt (0.01 + unitBank 0 * unitBank 0 + unitBank 1 * unitBank 1)
          * stereoSignal 1 :=
    (stereo_mix_apply Real.sqrt stereoMode stereoMode_ordered rfl stereoSignal unitBank 1 0 0
      (by decide) (by decide) (by decide)).1
  have s0 : (stereoSignal 0 : ℝ) = 1 := by simp [stereoSignal]
  have s1 : (stereoSignal 1 : ℝ) = 0 := by simp [stereoSignal]
  have u : ∀ k, (unitBank k : ℝ) = 1 := fun _ => rfl
  have e : (0.01 : ℝ) + 1 * 1 + 1 * 1 = 2.01 := by norm_num
  rw [h, s0, s1, u, u, e]
  intro heq
  simp only [mul_one, mul_zero, add_zero, one_div, inv_inj] at heq
  have h1 : Real.sqrt 2.01 ^ 2 = 2.01 := Real.sq_sqrt (by norm_num)
  have h2 : Real.sqrt 1.02 ^ 2 = 1.02 := Real.sq_sqrt (by norm_num)
  rw [heq, h2] at h1
  norm_num at h1

/-- C14, as amended: for a stereo mode (`C = 2`) with ordered band boundaries and a band `i`
with `bank[2i] = bank[2i+1] = 1`, `stereo_mix` with `dir = +1` uses
`a1 = a2 = 1/sqrt(2.01)`: it maps every sample pair `(l, r)` of the band to
`((l + r)/sqrt(2.01), (r - l)/sqrt(2.01))`. -/
theorem stereo_mix_unit_bank (m : CELTMode) (hord : m.ordered) (hC : m.nbChannels = 2)
    (X bank : Nat → ℝ) (i j : Nat) (hi : i < m.nbEBands)
    (hj1 : m.nbMdctBlocks * m.eBands i ≤ j) (hj2 : j < m.nbMdctBlocks * m.eBands (i + 1))
    (hl : bank (i * 2) = 1) (hr : bank (i * 2 + 1) = 1) :
    stereo_mix Real.sqrt m X bank 1 (j * 2) = (X (j * 2) + X (j * 2 + 1)) / Real.sqrt 2.01
    ∧ stereo_mix Real.sqrt m X bank 1 (j * 2 + 1)
        = (X (j * 2 + 1) - X (j * 2)) / Real.sqrt 2.01 := by
  obtain ⟨h1, h2⟩ := stereo_mix_apply Real.sqrt m hord hC X bank 1 i j hi hj1 hj2
  have e : (0.01 : ℝ) + 1 * 1 + 1 * 1 = 2.01 := by norm_num
  rw [h1, h2, hl, hr, e]
  push_cast
  constructor <;> ring

/-! ## Pitch gains: weights and sums -/

theorem forLoop_congr {σ : Type} (lo hi : Nat) (body body' : Nat → σ → σ) (st : σ)
    (h : ∀ j s, lo ≤ j → j < hi → body j s = body' j s) :
    forLoop lo hi body st = forLoop lo hi body' st := by
  rcases Nat.lt_or_ge hi lo with hlt | hge
  · rw [forLoop_of_le _ _ _ _ (Nat.le_of_lt hlt), forLoop_of_le _ _ _ _ (Nat.le_of_lt hlt)]
  · induction hi, hge using Nat.le_induction with
    | base => rw [forLoop_of_le _ _ _ _ (le_refl _), forLoop_of_le _ _ _ _ (le_refl _)]
    | succ n hn ih =>
      rw [forLoop_succ _ _ _ _ hn, forLoop_succ _ _ _ _ hn,
        ih (fun j s h1 h2 => h j s h1 (by omega)), h n _ hn (by omega)]

/-- A loop that accumulates two sums at once. -/
theorem forLoop_sum_pair {F : Type} [AddCommMonoid F] (lo hi : Nat) (f g : Nat → F)
    (a b : F) :
    forLoop lo hi (fun j (S : F × F) => (S.1 + f j, S.2 + g j)) (a, b)
      = (a + ∑ j in Finset.Ico lo hi, f j, b + ∑ j in Finset.Ico lo hi, g j) := by
  rcases Nat.lt_or_ge hi lo with hlt | hge
  · rw [forLoop_of_le _ _ _ _ (Nat.le_of_lt hlt), Finset.Ico_eq_empty (by omega)]
    simp
  · induction hi, hge using Nat.le_induction with
    | base =>
      rw [forLoop_of_le _ _ _ _ (le_refl _)]
      simp
    | succ n hn ih =>
      rw [forLoop_succ _ _ _ _ hn, ih, Finset.sum_Ico_succ_top hn, Finset.sum_Ico_succ_top hn,
        add_assoc, add_assoc]

/-- The weight of a bin of energy band `i` is `bank[i]`. -/
theorem pitch_weights_apply {F : Type} [LinearOrderedField F] (m : CELTMode)
    (hord : m.ordered) (bank w : Nat → F) (i j : Nat) (hi : i < m.nbEBands)
    (hj1 : m.nbMdctBlocks * m.nbChannels * m.eBands i ≤ j)
    (hj2 : j < m.nbMdctBlocks * m.nbChannels * m.eBands (i + 1)) :
    pitch_weights m bank w j = bank i := by
  unfold pitch_weights
  simp only [ENER_SCALING_1, mul_one]
  apply forLoop_hit 0 m.nbEBands _ w j i (bank i) (Nat.zero_le _) hi
  · intro s
    rw [forLoop_store_apply, if_pos ⟨hj1, hj2⟩]
  · intro i2 s h1 h2
    have e2 : m.eBands (i + 1) ≤ m.eBands i2 := CELTMode.ordered_le hord (by omega) (by omega)
    have e3 := Nat.mul_le_mul_left (m.nbMdctBlocks * m.nbChannels) e2
    rw [forLoop_store_apply, if_neg (by omega)]

/-- Every bin between the first and the last band boundary lies in some energy band. -/
theorem band_cover (B : Nat) (e : Nat → Nat) (j n : Nat) (hj1 : B * e 0 ≤ j)
    (hj2 : j < B * e n) : ∃ i, i < n ∧ B * e i ≤ j ∧ j < B * e (i + 1) := by
  induction n with
  | zero => omega
  | succ k ih =>
    rcases Nat.lt_or_ge j (B * e k) with h | h
    · obtain ⟨i, hi, h1, h2⟩ := ih h
      exact ⟨i, by omega, h1, h2⟩
    · exact ⟨k, by omega, h, hj2⟩

/-- The bins of a pitch band lie between the first and the last boundary of the energy
bands. -/
theorem pitch_band_inside (m : CELTMode) (hpit : m.pitch_inside) (p j : Nat)
    (hp : p < m.nbPBands) (hj1 : m.nbMdctBlocks * m.nbChannels * m.pBands p ≤ j)
    (hj2 : j < m.nbMdctBlocks * m.nbChannels * m.pBands (p + 1)) :
    m.nbMdctBlocks * m.nbChannels * m.eBands 0 ≤ j
    ∧ j < m.nbMdctBlocks * m.nbChannels * m.eBands m.nbEBands := by
  obtain ⟨hmono, hlo, hhi⟩ := hpit
  have hup : ∀ d, p + 1 + d ≤ m.nbPBands → m.pBands (p + 1) ≤ m.pBands (p + 1 + d) := by
    intro d
    induction d with
    | zero => intro _; exact le_refl _
    | succ d ih => intro hd; exact le_trans (ih (by omega)) (hmono _ (by omega))
  have hdown : ∀ q, q ≤ p → m.pBands 0 ≤ m.pBands q := by
    intro q
    induction q with
    | zero => intro _; exact le_refl _
    | succ q ih => intro hq; exact le_trans (ih (by omega)) (hmono _ (by omega))
  have h1 := hup (m.nbPBands - (p + 1)) (by omega)
  rw [show p + 1 + (m.nbPBands - (p + 1)) = m.nbPBands by omega] at h1
  have h2 := hdown p (le_refl _)
  have h3 := Nat.mul_le_mul_left (m.nbMdctBlocks * m.nbChannels) (le_trans hlo h2)
  have h4 := Nat.mul_le_mul_left (m.nbMdctBlocks * m.nbChannels) (le_trans h1 hhi)
  omega

/-- What `compute_pitch_gain` stores in `gains[p]`, over any scalar type, in terms of the
weights left by the weight-building loop. -/
theorem compute_pitch_gain_apply {F : Type} [LinearOrderedField F] (m : CELTMode)
    (X P gains bank w : Nat → F) (p : Nat) (hp : p < m.nbPBands) :
    (compute_pitch_gain m X P gains bank w).1 p
      = (if (if (∑ j in Finset.Ico (m.nbMdctBlocks * m.nbChannels * m.pBands p)
                (m.nbMdctBlocks * m.nbChannels * m.pBands (p + 1)),
                  X j * P j * pitch_weights m bank w j)
              / (1e-10 + ∑ j in Finset.Ico (m.nbMdctBlocks * m.nbChannels * m.pBands p)
                (m.nbMdctBlocks * m.nbChannels * m.pBands (p + 1)),
                  X j * X j * pitch_weights m bank w j) > 1 then 1
            else (∑ j in Finset.Ico (m.nbMdctBlocks * m.nbChannels * m.pBands p)
                (m.nbMdctBlocks * m.nbChannels * m.pBands (p + 1)),
                  X j * P j * pitch_weights m bank w j)
              / (1e-10 + ∑ j in Finset.Ico (m.nbMdctBlocks * m.nbChannels * m.pBands p)
                (m.nbMdctBlocks * m.nbChannels * m.pBands (p + 1)),
                  X j * X j * pitch_weights m bank w j)) < 0 then 0
          else (if (∑ j in Finset.Ico (m.nbMdctBlocks * m.nbChannels * m.pBands p)
                (m.nbMdctBlocks * m.nbChannels * m.pBands (p + 1)),
                  X j * P j * pitch_weights m bank w j)
              / (1e-10 + ∑ j in Finset.Ico (m.nbMdctBlocks * m.nbChannels * m.pBands p)
                (m.nbMdctBlocks * m.nbChannels * m.pBands (p + 1)),
                  X j * X j * pitch_weights m bank w j) > 1 then 1
            else (∑ j in Finset.Ico (m.nbMdctBlocks * m.nbChannels * m.pBands p)
                (m.nbMdctBlocks * m.nbChannels * m.pBands (p + 1)),
                  X j * P j * pitch_weights m bank w j)
              / (1e-10 + ∑ j in Finset.Ico (m.nbMdctBlocks * m.nbChannels * m.pBands p)
                (m.nbMdctBlocks * m.nbChannels * m.pBands (p + 1)),
                  X j * X j * pitch_weights m bank w j))) * 0.9 := by
  unfold compute_pitch_gain pitch_weights
  simp only [NORM_SCALING, mul_one, one_mul]
  apply forLoop_hit 0 m.nbPBands _ gains p p _ (Nat.zero_le _) hp
  · intro s
    rw [Function.update_same, forLoop_sum_pair]
    simp only [zero_add]
  · intro j s hj _
    exact Function.update_noteq (by omega) _ _

/-- With a bank that holds `b` for every energy band, and pitch bands inside the energy bands,
`gains[p]` is the clipped and scaled ratio of `b·ΣX·P` to `1e-10 + b·ΣX²`. -/
theorem compute_pitch_gain_uniform {F : Type} [LinearOrderedField F] (m : CELTMode)
    (hord : m.ordered) (hpit : m.pitch_inside) (X P gains bank w : Nat → F) (b : F)
    (hb : ∀ i, i < m.nbEBands → bank i = b) (p : Nat) (hp : p < m.nbPBands) :
    (compute_pitch_gain m X P gains bank w).1 p
      = (fun g : F => (if (if g > 1 then 1 else g) < 0 then 0
          else (if g > 1 then 1 else g)) * 0.9)
        ((b * ∑ j in Finset.Ico (m.nbMdctBlocks * m.nbChannels * m.pBands p)
            (m.nbMdctBlocks * m.nbChannels * m.pBands (p + 1)), X j * P j)
          / (1e-10 + b * ∑ j in Finset.Ico (m.nbMdctBlocks * m.nbChannels * m.pBands p)
            (m.nbMdctBlocks * m.nbChannels * m.pBands (p + 1)), X j * X j)) := by
  have hW : ∀ j ∈ Finset.Ico (m.nbMdctBlocks * m.nbChannels * m.pBands p)
      (m.nbMdctBlocks * m.nbChannels * m.pBands (p + 1)), pitch_weights m bank w j = b := by
    intro j hj
    rw [Finset.mem_Ico] at hj
    obtain ⟨h1, h2⟩ := pitch_band_inside m hpit p j hp hj.1 hj.2
    obtain ⟨i, hi, h3, h4⟩ := band_cover _ m.eBands j m.nbEBands h1 h2
    rw [pitch_weights_apply m hord bank w i j hi h3 h4, hb i hi]
  have hxy : ∑ j in Finset.Ico (m.nbMdctBlocks * m.nbChannels * m.pBands p)
      (m.nbMdctBlocks * m.nbChannels * m.pBands (p + 1)), X j * P j * pitch_weights m bank w j
      = b * ∑ j in Finset.Ico (m.nbMdctBlocks * m.nbChannels * m.pBands p)
        (m.nbMdctBlocks * m.nbChannels * m.pBands (p + 1)), X j * P j := by
    rw [Finset.mul_sum]
    exact Finset.sum_congr rfl (fun j hj => by rw [hW j hj, mul_comm])
  have hxx : ∑ j in Finset.Ico (m.nbMdctBlocks * m.nbChannels * m.pBands p)
      (m.nbMdctBlocks * m.nbChannels * m.pBands (p + 1)), X j * X j * pitch_weights m bank w j
      = b * ∑ j in Finset.Ico (m.nbMdctBlocks * m.nbChannels * m.pBands p)
        (m.nbMdctBlocks * m.nbChannels * m.pBands (p + 1)), X j * X j := by
    rw [Finset.mul_sum]
    exact Finset.sum_congr rfl (fun j hj => by rw [hW j hj, mul_comm])
  rw [compute_pitch_gain_apply m X P gains bank w p hp, hxy, hxx]

/-- With `P = X` and a bank that holds `b > 0` for every energy band, `gains[p]` is
`0.9·Q/(1e-10 + Q)` with `Q = b·ΣX²` over the pitch band. -/
theorem compute_pitch_gain_self (m : CELTMode) (hord : m.ordered) (hpit : m.pitch_inside)
    (X gains bank w : Nat → ℝ) (b : ℝ) (hb0 : 0 < b)
    (hb : ∀ i, i < m.nbEBands → bank i = b) (p : Nat) (hp : p < m.nbPBands) :
    (compute_pitch_gain m X X gains bank w).1 p
      = 0.9 * ((b * ∑ j in Finset.Ico (m.nbMdctBlocks * m.nbChannels * m.pBands p)
            (m.nbMdctBlocks * m.nbChannels * m.pBands (p + 1)), X j * X j)
          / (1e-10 + b * ∑ j in Finset.Ico (m.nbMdctBlocks * m.nbChannels * m.pBands p)
            (m.nbMdctBlocks * m.nbChannels * m.pBands (p + 1)), X j * X j)) := by
  rw [compute_pitch_gain_uniform m hord hpit X X gains bank w b hb p hp]
  have hQ : 0 ≤ b * ∑ j in Finset.Ico (m.nbMdctBlocks * m.nbChannels * m.pBands p)
      (m.nbMdctBlocks * m.nbChannels * m.pBands (p + 1)), X j * X j :=
    mul_nonneg (le_of_lt hb0) (Finset.sum_nonneg (fun j _ => mul_self_nonneg _))
  set Q := b * ∑ j in Finset.Ico (m.nbMdctBlocks * m.nbChannels * m.pBands p)
      (m.nbMdctBlocks * m.nbChannels * m.pBands (p + 1)), X j * X j with hQdef
  have hε : (0 : ℝ) < 1e-10 := by norm_num
  have hden : (0 : ℝ) < 1e-10 + Q := by linarith
  have hg0 : 0 ≤ Q / (1e-10 + Q) := div_nonneg hQ (le_of_lt hden)
  have hg1 : Q / (1e-10 + Q) ≤ 1 := by
    rw [div_le_one hden]
    linarith
  beta_reduce
  rw [if_neg (not_lt.mpr hg1), if_neg (not_lt.mpr hg0)]
  ring

theorem monoMode_pitch_inside : monoMode.pitch_inside :=
  ⟨fun p _ => by
    show 8 * p ≤ 8 * (p + 1)
    omega, by decide, by decide⟩

/-- C11, counterexample: in the mono mode with the band `[0, 8)`, with `P = X` the quiet
signal and the uniform bank holding 1, `compute_pitch_gain` does not return `gains[0] = 0.9`
(it returns 0.675). -/
theorem compute_pitch_gain_self_not_0_9 :
    (compute_pitch_gain monoMode quietSignal quietSignal zeroBuf unitBank zeroBuf).1 0
      ≠ (0.9 : ℝ) := by
  have h : (compute_pitch_gain monoMode quietSignal quietSignal zeroBuf unitBank zeroBuf).1 0
      = (0.9 : ℝ) * ((1 * ∑ j in Finset.Ico 0 8, (quietSignal j : ℝ) * quietSignal j)
          / (1e-10 + 1 * ∑ j in Finset.Ico 0 8, (quietSignal j : ℝ) * quietSignal j)) :=
    compute_pitch_gain_self monoMode monoMode_ordered monoMode_pitch_inside quietSignal zeroBuf
      unitBank zeroBuf 1 (by norm_num) (fun _ _ => rfl) 0 (by decide)
  have hS : ∑ j in Finset.Ico 0 8, (quietSignal j : ℝ) * quietSignal j = 3e-10 := by
    rw [Finset.sum_Ico_eq_sum_range]
    simp only [Finset.sum_range_succ, Finset.sum_range_zero, quietSignal]
    norm_num
  rw [h, hS]
  norm_num

/-- C11, as amended: for every mode with ordered band boundaries and pitch bands inside the
energy bands, every spectrum `X` and every uniform bank (all entries equal to `b > 0`),
`compute_pitch_gain` called with `P` equal to `X` returns
`gains[p] = 0.9·Q/(1e-10 + Q)` with `Q = b·ΣX[j]²` over the pitch band; this is strictly less
than 0.9, and within `1e-6` of 0.9 whenever `Q ≥ 1e-4`. -/
theorem compute_pitch_gain_self_uniform (m : CELTMode) (hord : m.ordered)
    (hpit : m.pitch_inside) (X gains bank w : Nat → ℝ) (b : ℝ) (hb0 : 0 < b)
    (hb : ∀ i, i < m.nbEBands → bank i = b) (p : Nat) (hp : p < m.nbPBands) :
    (compute_pitch_gain m X X gains bank w).1 p
      = 0.9 * ((b * ∑ j in Finset.Ico (m.nbMdctBlocks * m.nbChannels * m.pBands p)
            (m.nbMdctBlocks * m.nbChannels * m.pBands (p + 1)), X j * X j)
          / (1e-10 + b * ∑ j in Finset.Ico (m.nbMdctBlocks * m.nbChannels * m.pBands p)
            (m.nbMdctBlocks * m.nbChannels * m.pBands (p + 1)), X j * X j))
    ∧ (compute_pitch_gain m X X gains bank w).1 p < 0.9
    ∧ (1e-4 ≤ b * ∑ j in Finset.Ico (m.nbMdctBlocks * m.nbChannels * m.pBands p)
          (m.nbMdctBlocks * m.nbChannels * m.pBands (p + 1)), X j * X j →
        |(compute_pitch_gain m X X gains bank w).1 p - 0.9| ≤ 1e-6) := by
  have h := compute_pitch_gain_self m hord hpit X gains bank w b hb0 hb p hp
  have hQ : 0 ≤ b * ∑ j in Finset.Ico (m.nbMdctBlocks * m.nbChannels * m.pBands p)
      (m.nbMdctBlocks * m.nbChannels * m.pBands (p + 1)), X j * X j :=
    mul_nonneg (le_of_lt hb0) (Finset.sum_nonneg (fun j _ => mul_self_nonneg _))
  rw [h]
  set Q := b * ∑ j in Finset.Ico (m.nbMdctBlocks * m.nbChannels * m.pBands p)
      (m.nbMdctBlocks * m.nbChannels * m.pBands (p + 1)), X j * X j with hQdef
  have hε : (0 : ℝ) < 1e-10 := by norm_num
  have hden : (0 : ℝ) < 1e-10 + Q := by linarith
  have hlt : Q / (1e-10 + Q) < 1 := by
    rw [div_lt_one hden]
    linarith
  have e : (0.9 : ℝ) * (Q / (1e-10 + Q)) - 0.9 = - (0.9 * (1e-10 / (1e-10 + Q))) := by
    field_simp
    ring
  refine ⟨rfl, ?_, fun hQ4 => ?_⟩
  · have : (0.9 : ℝ) * (Q / (1e-10 + Q)) < 0.9 * 1 :=
      mul_lt_mul_of_pos_left hlt (by norm_num)
    linarith
  · rw [e, abs_neg, abs_of_nonneg (by positivity)]
    have h1 : (1e-10 : ℝ) / (1e-10 + Q) ≤ 1e-6 := by
      rw [div_le_iff₀ hden]
      norm_num at hQ4 ⊢
      linarith
    have : (0.9 : ℝ) * (1e-10 / (1e-10 + Q)) ≤ 0.9 * 1e-6 :=
      mul_le_mul_of_nonneg_left h1 (by norm_num)
    norm_num at this ⊢
    linarith

theorem twoBandMode_ordered : twoBandMode.ordered := fun i _ => by
  show i ≤ i + 1
  omega

theorem twoBandMode_pitch_inside : twoBandMode.pitch_inside :=
  ⟨fun p _ => by
    show 2 * p ≤ 2 * (p + 1)
    omega, by decide, by decide⟩

/-- C12, counterexample: in the mode with the energy bands `[0, 1)`, `[1, 2)` and the pitch
band `[0, 2)`, with `X = [1, 1]`, `P = [1, -1]` (so `ΣX·P = 0` over the pitch band) and the
bank `[2, 1]`, `compute_pitch_gain` does not return `gains[0] = 0`. -/
theorem compute_pitch_gain_orthogonal_nonzero :
    ∑ j in Finset.Ico 0 2, (onesSignal j : ℝ) * stepSignal j = 0
    ∧ (compute_pitch_gain twoBandMode onesSignal stepSignal zeroBuf tiltedBank zeroBuf).1 0
      ≠ (0 : ℝ) := by
  constructor
  · rw [Finset.sum_Ico_eq_sum_range]
    simp only [Finset.sum_range_succ, Finset.sum_range_zero, onesSignal, stepSignal]
    norm_num
  · have w0 : pitch_weights twoBandMode (tiltedBank : Nat → ℝ) zeroBuf 0 = 2 :=
      pitch_weights_apply twoBandMode twoBandMode_ordered tiltedBank zeroBuf 0 0
        (by decide) (by decide) (by decide)
    have w1 : pitch_weights twoBandMode (tiltedBank : Nat → ℝ) zeroBuf 1 = 1 :=
      pitch_weights_apply twoBandMode twoBandMode_ordered tiltedBank zeroBuf 1 1
        (by decide) (by decide) (by decide)
    have hxy : ∑ j in Finset.Ico 0 2,
        (onesSignal j : ℝ) * stepSignal j * pitch_weights twoBandMode tiltedBank zeroBuf j
        = 1 := by
      rw [Finset.sum_Ico_eq_sum_range]
      simp only [Finset.sum_range_succ, Finset.sum_range_zero, Nat.sub_zero, Nat.zero_add,
        w0, w1, onesSignal, stepSignal]
      norm_num
    have hxx : ∑ j in Finset.Ico 0 2,
        (onesSignal j : ℝ) * onesSignal j * pitch_weights twoBandMode tiltedBank zeroBuf j
        = 3 := by
      rw [Finset.sum_Ico_eq_sum_range]
      simp only [Finset.sum_range_succ, Finset.sum_range_zero, Nat.sub_zero, Nat.zero_add,
        w0, w1, onesSignal]
      norm_num
    have h := compute_pitch_gain_apply twoBandMode (onesSignal : Nat → ℝ) stepSignal zeroBuf
      tiltedBank zeroBuf 0 (by decide)
    have e1 : twoBandMode.nbMdctBlocks * twoBandMode.nbChannels * twoBandMode.pBands 0 = 0 :=
      rfl
    have e2 : twoBandMode.nbMdctBlocks * twoBandMode.nbChannels * twoBandMode.pBands (0 + 1)
        = 2 := rfl
    rw [e1, e2, hxy, hxx] at h
    rw [h]
    norm_num

/-- C12, as amended: for every mode with ordered band boundaries and pitch bands inside the
energy bands, and every uniform bank (the same entry for every energy band), whenever `X` is
orthogonal to `P` over the bins of pitch band `p` (`ΣX[j]·P[j] = 0`), `compute_pitch_gain`
returns `gains[p] = 0`. -/
theorem compute_pitch_gain_orthogonal (m : CELTMode) (hord : m.ordered)
    (hpit : m.pitch_inside) (X P gains bank w : Nat → ℝ) (b : ℝ)
    (hb : ∀ i, i < m.nbEBands → bank i = b) (p : Nat) (hp : p < m.nbPBands)
    (horth : ∑ j in Finset.Ico (m.nbMdctBlocks * m.nbChannels * m.pBands p)
      (m.nbMdctBlocks * m.nbChannels * m.pBands (p + 1)), X j * P j = 0) :
    (compute_pitch_gain m X P gains bank w).1 p = 0 := by
  rw [compute_pitch_gain_uniform m hord hpit X P gains bank w b hb p hp, horth, mul_zero,
    zero_div]
  norm_num

/-- The weights read for a pitch band do not depend on what the scratch array held before. -/
theorem pitch_weights_initial (m : CELTMode) (hord : m.ordered) (hpit : m.pitch_inside)
    {F : Type} [LinearOrderedField F] (bank w w' : Nat → F) (p j : Nat) (hp : p < m.nbPBands)
    (hj1 : m.nbMdctBlocks * m.nbChannels * m.pBands p ≤ j)
    (hj2 : j < m.nbMdctBlocks * m.nbChannels * m.pBands (p + 1)) :
    pitch_weights m bank w j = pitch_weights m bank w' j := by
  obtain ⟨h1, h2⟩ := pitch_band_inside m hpit p j hp hj1 hj2
  obtain ⟨i, hi, h3, h4⟩ := band_cover _ m.eBands j m.nbEBands h1 h2
  rw [pitch_weights_apply m hord bank w i j hi h3 h4,
    pitch_weights_apply m hord bank w' i j hi h3 h4]

/-- C20: in `compute_pitch_gain`, under the mode invariants (energy and pitch band boundaries
non-decreasing, `eBands[0] ≤ pBands[0]`, `pBands[nbPBands] ≤ eBands[nbEBands]`), every weight
index `j` read in the pitch-band loop (`j` in `[B*pBands[p], B*pBands[p+1])`, `p < nbPBands`)
lies inside the scratch array of length `B*eBands[nbEBands]` and in an energy band `i`, whose
pass of the weight-building loop wrote `w[j] = bank[i]`; so the result of `compute_pitch_gain`
does not depend on what the scratch array held when it was allocated. -/
theorem compute_pitch_gain_reads_written (m : CELTMode) (hord : m.ordered)
    (hpit : m.pitch_inside) (X P gains bank w w' : Nat → ℝ) (p j : Nat)
    (hp : p < m.nbPBands) (hj1 : m.nbMdctBlocks * m.nbChannels * m.pBands p ≤ j)
    (hj2 : j < m.nbMdctBlocks * m.nbChannels * m.pBands (p + 1)) :
    j < m.nbMdctBlocks * m.nbChannels * m.eBands m.nbEBands
    ∧ (∃ i, i < m.nbEBands ∧ m.nbMdctBlocks * m.nbChannels * m.eBands i ≤ j
        ∧ j < m.nbMdctBlocks * m.nbChannels * m.eBands (i + 1)
        ∧ pitch_weights m bank w j = bank i)
    ∧ compute_pitch_gain m X P gains bank w = compute_pitch_gain m X P gains bank w' := by
  obtain ⟨h1, h2⟩ := pitch_band_inside m hpit p j hp hj1 hj2
  obtain ⟨i, hi, h3, h4⟩ := band_cover _ m.eBands j m.nbEBands h1 h2
  refine ⟨h2, ⟨i, hi, h3, h4, pitch_weights_apply m hord bank w i j hi h3 h4⟩, ?_⟩
  have hW := fun q k hq hk1 hk2 => pitch_weights_initial m hord hpit bank w w' q k hq hk1 hk2
  unfold pitch_weights at hW
  unfold compute_pitch_gain
  simp only [] at hW ⊢
  congr 1
  apply forLoop_congr
  intro q s _ hq
  have hS : forLoop (m.nbMdctBlocks * m.nbChannels * m.pBands q)
      (m.nbMdctBlocks * m.nbChannels * m.pBands (q + 1))
      (fun k (S : ℝ × ℝ) =>
        (S.1 + 1 * X k * P k
            * forLoop 0 m.nbEBands (fun i w =>
                forLoop (m.nbMdctBlocks * m.nbChannels * m.eBands i)
                  (m.nbMdctBlocks * m.nbChannels * m.eBands (i + 1))
                  (fun j w => Function.update w j (bank i * ENER_SCALING_1)) w) w k,
          S.2 + 1 * X k * X k
            * forLoop 0 m.nbEBands (fun i w =>
                forLoop (m.nbMdctBlocks * m.nbChannels * m.eBands i)
                  (m.nbMdctBlocks * m.nbChannels * m.eBands (i + 1))
                  (fun j w => Function.update w j (bank i * ENER_SCALING_1)) w) w k)) (0, 0)
      = forLoop (m.nbMdctBlocks * m.nbChannels * m.pBands q)
      (m.nbMdctBlocks * m.nbChannels * m.pBands (q + 1))
      (fun k (S : ℝ × ℝ) =>
        (S.1 + 1 * X k * P k
            * forLoop 0 m.nbEBands (fun i w =>
                forLoop (m.nbMdctBlocks * m.nbChannels * m.eBands i)
                  (m.nbMdctBlocks * m.nbChannels * m.eBands (i + 1))
                  (fun j w => Function.update w j (bank i * ENER_SCALING_1)) w) w' k,
          S.2 + 1 * X k * X k
            * forLoop 0 m.nbEBands (fun i w =>
                forLoop (m.nbMdctBlocks * m.nbChannels * m.eBands i)
                  (m.nbMdctBlocks * m.nbChannels * m.eBands (i + 1))
                  (fun j w => Function.update w j (bank i * ENER_SCALING_1)) w) w' k)) (0, 0) := by
    apply forLoop_congr
    intro k S hk1 hk2
    rw [hW q k hq hk1 hk2]
  rw [hS]

/-! ## The band loop of the quantiser: blend weight, context and coding mode -/

section BandLoop

variable {F Enc Dec : Type} [LinearOrderedField F]

/-- The prediction part of the loop body of `quant_bands` does not read `alpha`. -/
theorem quant_predict_alpha_in (col : Collab F Enc Dec) (m : CELTMode) (W : Nat → F)
    (pulses : Nat → Int) (i : Nat) (st : QuantState F Enc) (a : F) :
    quant_predict col m W pulses i { st with alpha := a } = quant_predict col m W pulses i st := by
  unfold quant_predict
  dsimp only

/-- The prediction part of the loop body of `unquant_bands` does not read `alpha`. -/
theorem unquant_predict_alpha_in (col : Collab F Enc Dec) (m : CELTMode)
    (pulses : Nat → Int) (i : Nat) (st : QuantState F Dec) (a : F) :
    unquant_predict col m pulses i { st with alpha := a } = unquant_predict col m pulses i st := by
  unfold unquant_predict
  dsimp only

/-- The `alpha` that the prediction part of the loop body of `quant_bands` leaves. -/
theorem quant_predict_alpha_out (col : Collab F Enc Dec) (m : CELTMode) (W : Nat → F)
    (pulses : Nat → Int) (i : Nat) (st : QuantState F Enc) :
    (quant_predict col m W pulses i st).2.alpha
      = if m.eBands i ≥ m.pitchEnd ∨ pulses i ≤ 0 then 0 else 0.7 := by
  unfold quant_predict
  dsimp only
  split_ifs <;> rfl

/-- The `alpha` that the prediction part of the loop body of `unquant_bands` leaves. -/
theorem unquant_predict_alpha_out (col : Collab F Enc Dec) (m : CELTMode)
    (pulses : Nat → Int) (i : Nat) (st : QuantState F Dec) :
    (unquant_predict col m pulses i st).2.alpha
      = if m.eBands i ≥ m.pitchEnd ∨ pulses i ≤ 0 then 0 else 0.7 := by
  unfold unquant_predict
  dsimp only
  split_ifs <;> rfl

/-- The encoder after the loop body of `quant_bands`, when pulses are coded, is the one that
`alg_quant` returns, called with the `alpha` left by the prediction part. -/
theorem quant_band_coder (cos sin sqrt : F → F) (col : Collab F Enc Dec) (m : CELTMode)
    (W : Nat → F) (pulses : Nat → Int) (i : Nat) (st : QuantState F Enc)
    (hq : 0 < (quant_predict col m W pulses i st).1) :
    (quant_band cos sin sqrt col m W pulses i st).coder
      = (col.alg_quant
          (shift (atOffset (quant_predict col m W pulses i st).2.X
            (m.nbMdctBlocks * m.nbChannels * m.eBands i)
            (fun X => exp_rotation cos sin X
              (((m.nbMdctBlocks * m.nbChannels : Nat) : Int)
                * ((m.eBands (i + 1) : Int) - (m.eBands i : Int))).toNat
              (0.007 * ((((m.nbMdctBlocks * m.nbChannels : Nat) : Int)
                * ((m.eBands (i + 1) : Int) - (m.eBands i : Int)) : Int) : F)
                / (0.1 + (pulses i : F))) (-1) (m.nbMdctBlocks * m.nbChannels) 8))
            (m.nbMdctBlocks * m.nbChannels * m.eBands i))
          (shift W (m.nbMdctBlocks * m.nbChannels * m.eBands i))
          (((m.nbMdctBlocks * m.nbChannels : Nat) : Int)
            * ((m.eBands (i + 1) : Int) - (m.eBands i : Int)))
          (quant_predict col m W pulses i st).1
          (shift (atOffset (quant_predict col m W pulses i st).2.P
            (m.nbMdctBlocks * m.nbChannels * m.eBands i)
            (fun P => exp_rotation cos sin P
              (((m.nbMdctBlocks * m.nbChannels : Nat) : Int)
                * ((m.eBands (i + 1) : Int) - (m.eBands i : Int))).toNat
              (0.007 * ((((m.nbMdctBlocks * m.nbChannels : Nat) : Int)
                * ((m.eBands (i + 1) : Int) - (m.eBands i : Int)) : Int) : F)
                / (0.1 + (pulses i : F))) (-1) (m.nbMdctBlocks * m.nbChannels) 8))
            (m.nbMdctBlocks * m.nbChannels * m.eBands i))
          (if m.eBands i ≥ m.pitchEnd ∨ pulses i ≤ 0 then 0 else 0.7)
          (quant_predict col m W pulses i st).2.coder).2 := by
  rw [← quant_predict_alpha_out col m W pulses i st]
  unfold quant_band store_norm
  dsimp only
  generalize quant_predict col m W pulses i st = r at hq ⊢
  unfold quant_vq
  dsimp only
  rw [if_pos hq]

/-- The decoder after the loop body of `unquant_bands`, when pulses are coded, is the one that
`alg_unquant` returns, called with the `alpha` left by the prediction part. -/
theorem unquant_band_coder (cos sin sqrt : F → F) (col : Collab F Enc Dec) (m : CELTMode)
    (pulses : Nat → Int) (i : Nat) (st : QuantState F Dec)
    (hq : 0 < (unquant_predict col m pulses i st).1) :
    (unquant_band cos sin sqrt col m pulses i st).coder
      = (col.alg_unquant
          (shift (unquant_predict col m pulses i st).2.X
            (m.nbMdctBlocks * m.nbChannels * m.eBands i))
          (((m.nbMdctBlocks * m.nbChannels : Nat) : Int)
            * ((m.eBands (i + 1) : Int) - (m.eBands i : Int)))
          (unquant_predict col m pulses i st).1
          (shift (atOffset (unquant_predict col m pulses i st).2.P
            (m.nbMdctBlocks * m.nbChannels * m.eBands i)
            (fun P => exp_rotation cos sin P
              (((m.nbMdctBlocks * m.nbChannels : Nat) : Int)
                * ((m.eBands (i + 1) : Int) - (m.eBands i : Int))).toNat
              (0.007 * ((((m.nbMdctBlocks * m.nbChannels : Nat) : Int)
                * ((m.eBands (i + 1) : Int) - (m.eBands i : Int)) : Int) : F)
                / (0.1 + (pulses i : F))) (-1) (m.nbMdctBlocks * m.nbChannels) 8))
            (m.nbMdctBlocks * m.nbChannels * m.eBands i))
          (if m.eBands i ≥ m.pitchEnd ∨ pulses i ≤ 0 then 0 else 0.7)
          (unquant_predict col m pulses i st).2.coder).2 := by
  rw [← unquant_predict_alpha_out col m pulses i st]
  unfold unquant_band store_norm
  dsimp only
  generalize unquant_predict col m pulses i st = r at hq ⊢
  unfold unquant_vq
  dsimp only
  rw [if_pos hq]

theorem quant_predict_norm (col : Collab F Enc Dec) (m : CELTMode) (W : Nat → F)
    (pulses : Nat → Int) (i : Nat) (st : QuantState F Enc) :
    (quant_predict col m W pulses i st).2.norm = st.norm := by
  unfold quant_predict
  dsimp only
  split_ifs <;> rfl

theorem unquant_predict_norm (col : Collab F Enc Dec) (m : CELTMode)
    (pulses : Nat → Int) (i : Nat) (st : QuantState F Dec) :
    (unquant_predict col m pulses i st).2.norm = st.norm := by
  unfold unquant_predict
  dsimp only
  split_ifs <;> rfl

theorem quant_vq_norm (cos sin : F → F) (col : Collab F Enc Dec) (m : CELTMode) (W : Nat → F)
    (pulses : Nat → Int) (i : Nat) (q : Int) (st : QuantState F Enc) :
    (quant_vq cos sin col m W pulses i q st).norm = st.norm := by
  unfold quant_vq
  dsimp only
  split_ifs <;> rfl

theorem unquant_vq_norm (cos sin : F → F) (col : Collab F Enc Dec) (m : CELTMode)
    (pulses : Nat → Int) (i : Nat) (q : Int) (st : QuantState F Dec) :
    (unquant_vq cos sin col m pulses i q st).norm = st.norm := by
  unfold unquant_vq
  dsimp only
  split_ifs <;> rfl

/-- What the loop body of `quant_bands` for band `i` leaves in `norm`. -/
theorem quant_band_norm (cos sin sqrt : F → F) (col : Collab F Enc Dec) (m : CELTMode)
    (W : Nat → F) (pulses : Nat → Int) (i : Nat) (st : QuantState F Enc) (j : Nat) :
    (quant_band cos sin sqrt col m W pulses i st).norm j
      = if m.nbMdctBlocks * m.nbChannels * m.eBands i ≤ j
          ∧ j < m.nbMdctBlocks * m.nbChannels * m.eBands (i + 1)
        then (quant_band cos sin sqrt col m W pulses i st).X j
          * (0.0625 * sqrt ((((m.nbMdctBlocks * m.nbChannels : Nat) : Int)
              * ((m.eBands (i + 1) : Int) - (m.eBands i : Int)) : Int) : F))
        else st.norm j := by
  unfold quant_band store_norm
  dsimp only
  rw [forLoop_store_apply, quant_vq_norm, quant_predict_norm]

/-- What the loop body of `unquant_bands` for band `i` leaves in `norm`. -/
theorem unquant_band_norm (cos sin sqrt : F → F) (col : Collab F Enc Dec) (m : CELTMode)
    (pulses : Nat → Int) (i : Nat) (st : QuantState F Dec) (j : Nat) :
    (unquant_band cos sin sqrt col m pulses i st).norm j
      = if m.nbMdctBlocks * m.nbChannels * m.eBands i ≤ j
          ∧ j < m.nbMdctBlocks * m.nbChannels * m.eBands (i + 1)
        then (unquant_band cos sin sqrt col m pulses i st).X j
          * (0.0625 * sqrt ((((m.nbMdctBlocks * m.nbChannels : Nat) : Int)
              * ((m.eBands (i + 1) : Int) - (m.eBands i : Int)) : Int) : F))
        else st.norm j := by
  unfold unquant_band store_norm
  dsimp only
  rw [forLoop_store_apply, unquant_vq_norm, unquant_predict_norm]

/-- The loop body of `quant_bands` for band `i` leaves the samples below the band alone. -/
theorem quant_band_X_below (cos sin sqrt : F → F) (col : Collab F Enc Dec) (m : CELTMode)
    (W : Nat → F) (pulses : Nat → Int) (i : Nat) (st : QuantState F Enc) (j : Nat)
    (hj : j < m.nbMdctBlocks * m.nbChannels * m.eBands i) :
    (quant_band cos sin sqrt col m W pulses i st).X j = st.X j := by
  have h1 : (quant_predict col m W pulses i st).2.X j = st.X j := by
    unfold quant_predict
    dsimp only
    split_ifs
    · exact blit_below _ _ _ _ _ hj
    · exact blit_below _ _ _ _ _ hj
    · rfl
  unfold quant_band store_norm
  dsimp only
  rw [← h1]
  generalize quant_predict col m W pulses i st = r
  unfold quant_vq
  dsimp only
  split_ifs
  · dsimp only
    rw [atOffset_below _ _ _ _ hj, blit_below _ _ _ _ _ hj, atOffset_below _ _ _ _ hj]
  · rfl

/-- The loop body of `unquant_bands` for band `i` leaves the samples below the band alone. -/
theorem unquant_band_X_below (cos sin sqrt : F → F) (col : Collab F Enc Dec) (m : CELTMode)
    (pulses : Nat → Int) (i : Nat) (st : QuantState F Dec) (j : Nat)
    (hj : j < m.nbMdctBlocks * m.nbChannels * m.eBands i) :
    (unquant_band cos sin sqrt col m pulses i st).X j = st.X j := by
  have h1 : (unquant_predict col m pulses i st).2.X j = st.X j := by
    unfold unquant_predict
    dsimp only
    split_ifs
    · exact blit_below _ _ _ _ _ hj
    · exact blit_below _ _ _ _ _ hj
    · rfl
  unfold unquant_band store_norm
  dsimp only
  rw [← h1]
  generalize unquant_predict col m pulses i st = r
  unfold unquant_vq
  dsimp only
  split_ifs
  · dsimp only
    rw [atOffset_below _ _ _ _ hj, blit_below _ _ _ _ _ hj]
  · rfl

/-- A band loop whose body stores the scaled band in `norm` and leaves the samples below the
band alone hands to band `k` a context that holds the scaled samples of the bands below
`k`. -/
theorem norm_context {E : Type} (m : CELTMode) (hord : m.ordered) (n : Nat → F)
    (body : Nat → QuantState F E → QuantState F E)
    (hnorm : ∀ i st j, (body i st).norm j
      = if m.nbMdctBlocks * m.nbChannels * m.eBands i ≤ j
          ∧ j < m.nbMdctBlocks * m.nbChannels * m.eBands (i + 1)
        then (body i st).X j * n i else st.norm j)
    (hX : ∀ i st j, j < m.nbMdctBlocks * m.nbChannels * m.eBands i →
      (body i st).X j = st.X j)
    (st : QuantState F E) (k : Nat) (hk : k ≤ m.nbEBands) (i j : Nat) (hi : i < k)
    (hj1 : m.nbMdctBlocks * m.nbChannels * m.eBands i ≤ j)
    (hj2 : j < m.nbMdctBlocks * m.nbChannels * m.eBands (i + 1)) :
    (forLoop 0 k body st).norm j = (forLoop 0 k body st).X j * n i := by
  induction k with
  | zero => omega
  | succ k ih =>
    rw [forLoop_succ _ _ _ _ (Nat.zero_le _)]
    rcases Nat.lt_or_ge i k with h | h
    · have e2 : m.eBands (i + 1) ≤ m.eBands k := CELTMode.ordered_le hord (by omega) (by omega)
      have e3 := Nat.mul_le_mul_left (m.nbMdctBlocks * m.nbChannels) e2
      rw [hnorm, if_neg (by omega), hX _ _ _ (by omega)]
      exact ih (by omega) h
    · have : i = k := by omega
      subst this
      rw [hnorm, if_pos ⟨hj1, hj2⟩]

/-- With no pulse allocated (`pulses[i] ≤ 0`), the loop body of `quant_bands` calls
`intra_fold` and nothing else. -/
theorem quant_band_fold (cos sin sqrt : F → F) (col : Collab F Enc Dec) (m : CELTMode)
    (W : Nat → F) (pulses : Nat → Int) (i : Nat) (st : QuantState F Enc)
    (hq : pulses i ≤ 0) :
    quant_band cos sin sqrt col m W pulses i st
      = store_norm sqrt m i
        { st with
          X := blit st.X (m.nbMdctBlocks * m.nbChannels * m.eBands i)
            (((m.nbMdctBlocks * m.nbChannels : Nat) : Int)
              * ((m.eBands (i + 1) : Int) - (m.eBands i : Int))).toNat
            (col.intra_fold (shift st.X (m.nbMdctBlocks * m.nbChannels * m.eBands i))
              (((m.nbMdctBlocks * m.nbChannels : Nat) : Int)
                * ((m.eBands (i + 1) : Int) - (m.eBands i : Int)))
              st.norm (shift st.P (m.nbMdctBlocks * m.nbChannels * m.eBands i))
              (m.nbMdctBlocks * m.nbChannels) (m.eBands i) (m.eBands (m.nbEBands + 1))).1,
          P := blit st.P (m.nbMdctBlocks * m.nbChannels * m.eBands i)
            (((m.nbMdctBlocks * m.nbChannels : Nat) : Int)
              * ((m.eBands (i + 1) : Int) - (m.eBands i : Int))).toNat
            (col.intra_fold (shift st.X (m.nbMdctBlocks * m.nbChannels * m.eBands i))
              (((m.nbMdctBlocks * m.nbChannels : Nat) : Int)
                * ((m.eBands (i + 1) : Int) - (m.eBands i : Int)))
              st.norm (shift st.P (m.nbMdctBlocks * m.nbChannels * m.eBands i))
              (m.nbMdctBlocks * m.nbChannels) (m.eBands i) (m.eBands (m.nbEBands + 1))).2,
          alpha := 0 } := by
  unfold quant_band quant_vq quant_predict
  dsimp only
  rw [if_pos (Or.inr hq : m.eBands i ≥ m.pitchEnd ∨ pulses i ≤ 0),
    if_pos (show pulses i - 1 < 0 by omega)]
  dsimp only
  rw [if_neg (show ¬ (pulses i - 1 > 0) by omega)]

/-- With no pulse allocated (`pulses[i] ≤ 0`), the loop body of `unquant_bands` calls
`intra_fold` and nothing else. -/
theorem unquant_band_fold (cos sin sqrt : F → F) (col : Collab F Enc Dec) (m : CELTMode)
    (pulses : Nat → Int) (i : Nat) (st : QuantState F Dec) (hq : pulses i ≤ 0) :
    unquant_band cos sin sqrt col m pulses i st
      = store_norm sqrt m i
        { st with
          X := blit st.X (m.nbMdctBlocks * m.nbChannels * m.eBands i)
            (((m.nbMdctBlocks * m.nbChannels : Nat) : Int)
              * ((m.eBands (i + 1) : Int) - (m.eBands i : Int))).toNat
            (col.intra_fold (shift st.X (m.nbMdctBlocks * m.nbChannels * m.eBands i))
              (((m.nbMdctBlocks * m.nbChannels : Nat) : Int)
                * ((m.eBands (i + 1) : Int) - (m.eBands i : Int)))
              st.norm (shift st.P (m.nbMdctBlocks * m.nbChannels * m.eBands i))
              (m.nbMdctBlocks * m.nbChannels) (m.eBands i) (m.eBands (m.nbEBands + 1))).1,
          P := blit st.P (m.nbMdctBlocks * m.nbChannels * m.eBands i)
            (((m.nbMdctBlocks * m.nbChannels : Nat) : Int)
              * ((m.eBands (i + 1) : Int) - (m.eBands i : Int))).toNat
            (col.intra_fold (shift st.X (m.nbMdctBlocks * m.nbChannels * m.eBands i))
              (((m.nbMdctBlocks * m.nbChannels : Nat) : Int)
                * ((m.eBands (i + 1) : Int) - (m.eBands i : Int)))
              st.norm (shift st.P (m.nbMdctBlocks * m.nbChannels * m.eBands i))
              (m.nbMdctBlocks * m.nbChannels) (m.eBands i) (m.eBands (m.nbEBands + 1))).2,
          alpha := 0 } := by
  unfold unquant_band unquant_vq unquant_predict
  dsimp only
  rw [if_pos (Or.inr hq : m.eBands i ≥ m.pitchEnd ∨ pulses i ≤ 0),
    if_pos (show pulses i - 1 < 0 by omega)]
  dsimp only
  rw [if_neg (show ¬ (pulses i - 1 > 0) by omega)]

/-- With one pulse allocated to a band at or above `pitchEnd`, the loop body of `quant_bands`
calls `intra_prediction` with `K = 0` and no pulse coding follows. -/
theorem quant_band_intra (cos sin sqrt : F → F) (col : Collab F Enc Dec) (m : CELTMode)
    (W : Nat → F) (pulses : Nat → Int) (i : Nat) (st : QuantState F Enc)
    (hq : pulses i = 1) (hp : m.pitchEnd ≤ m.eBands i) :
    quant_band cos sin sqrt col m W pulses i st
      = store_norm sqrt m i
        { st with
          X := blit st.X (m.nbMdctBlocks * m.nbChannels * m.eBands i)
            (((m.nbMdctBlocks * m.nbChannels : Nat) : Int)
              * ((m.eBands (i + 1) : Int) - (m.eBands i : Int))).toNat
            (col.intra_prediction (shift st.X (m.nbMdctBlocks * m.nbChannels * m.eBands i))
              (shift W (m.nbMdctBlocks * m.nbChannels * m.eBands i))
              (((m.nbMdctBlocks * m.nbChannels : Nat) : Int)
                * ((m.eBands (i + 1) : Int) - (m.eBands i : Int)))
              0 st.norm (shift st.P (m.nbMdctBlocks * m.nbChannels * m.eBands i))
              (m.nbMdctBlocks * m.nbChannels) (m.eBands i) st.coder).1,
          P := blit st.P (m.nbMdctBlocks * m.nbChannels * m.eBands i)
            (((m.nbMdctBlocks * m.nbChannels : Nat) : Int)
              * ((m.eBands (i + 1) : Int) - (m.eBands i : Int))).toNat
            (col.intra_prediction (shift st.X (m.nbMdctBlocks * m.nbChannels * m.eBands i))
              (shift W (m.nbMdctBlocks * m.nbChannels * m.eBands i))
              (((m.nbMdctBlocks * m.nbChannels : Nat) : Int)
                * ((m.eBands (i + 1) : Int) - (m.eBands i : Int)))
              0 st.norm (shift st.P (m.nbMdctBlocks * m.nbChannels * m.eBands i))
              (m.nbMdctBlocks * m.nbChannels) (m.eBands i) st.coder).2.1,
          alpha := 0,
          coder := (col.intra_prediction
              (shift st.X (m.nbMdctBlocks * m.nbChannels * m.eBands i))
              (shift W (m.nbMdctBlocks * m.nbChannels * m.eBands i))
              (((m.nbMdctBlocks * m.nbChannels : Nat) : Int)
                * ((m.eBands (i + 1) : Int) - (m.eBands i : Int)))
              0 st.norm (shift st.P (m.nbMdctBlocks * m.nbChannels * m.eBands i))
              (m.nbMdctBlocks * m.nbChannels) (m.eBands i) st.coder).2.2 } := by
  unfold quant_band quant_vq quant_predict
  dsimp only
  have e : pulses i - 1 = 0 := by omega
  rw [if_pos (Or.inl hp : m.eBands i ≥ m.pitchEnd ∨ pulses i ≤ 0),
    if_neg (show ¬ (pulses i - 1 < 0) by omega)]
  dsimp only
  rw [if_neg (show ¬ (pulses i - 1 > 0) by omega), e]

/-- With one pulse allocated to a band at or above `pitchEnd`, the loop body of
`unquant_bands` calls `intra_unquant` with `K = 0` and no pulse decoding follows. -/
theorem unquant_band_intra (cos sin sqrt : F → F) (col : Collab F Enc Dec) (m : CELTMode)
    (pulses : Nat → Int) (i : Nat) (st : QuantState F Dec)
    (hq : pulses i = 1) (hp : m.pitchEnd ≤ m.eBands i) :
    unquant_band cos sin sqrt col m pulses i st
      = store_norm sqrt m i
        { st with
          X := blit st.X (m.nbMdctBlocks * m.nbChannels * m.eBands i)
            (((m.nbMdctBlocks * m.nbChannels : Nat) : Int)
              * ((m.eBands (i + 1) : Int) - (m.eBands i : Int))).toNat
            (col.intra_unquant (shift st.X (m.nbMdctBlocks * m.nbChannels * m.eBands i))
              (((m.nbMdctBlocks * m.nbChannels : Nat) : Int)
                * ((m.eBands (i + 1) : Int) - (m.eBands i : Int)))
              0 st.norm (shift st.P (m.nbMdctBlocks * m.nbChannels * m.eBands i))
              (m.nbMdctBlocks * m.nbChannels) (m.eBands i) st.coder).1,
          P := blit st.P (m.nbMdctBlocks * m.nbChannels * m.eBands i)
            (((m.nbMdctBlocks * m.nbChannels : Nat) : Int)
              * ((m.eBands (i + 1) : Int) - (m.eBands i : Int))).toNat
            (col.intra_unquant (shift st.X (m.nbMdctBlocks * m.nbChannels * m.eBands i))
              (((m.nbMdctBlocks * m.nbChannels : Nat) : Int)
                * ((m.eBands (i + 1) : Int) - (m.eBands i : Int)))
              0 st.norm (shift st.P (m.nbMdctBlocks * m.nbChannels * m.eBands i))
              (m.nbMdctBlocks * m.nbChannels) (m.eBands i) st.coder).2.1,
          alpha := 0,
          coder := (col.intra_unquant
              (shift st.X (m.nbMdctBlocks * m.nbChannels * m.eBands i))
              (((m.nbMdctBlocks * m.nbChannels : Nat) : Int)
                * ((m.eBands (i + 1) : Int) - (m.eBands i : Int)))
              0 st.norm (shift st.P (m.nbMdctBlocks * m.nbChannels * m.eBands i))
              (m.nbMdctBlocks * m.nbChannels) (m.eBands i) st.coder).2.2 } := by
  unfold unquant_band unquant_vq unquant_predict
  dsimp only
  have e : pulses i - 1 = 0 := by omega
  rw [if_pos (Or.inl hp : m.eBands i ≥ m.pitchEnd ∨ pulses i ≤ 0),
    if_neg (show ¬ (pulses i - 1 < 0) by omega)]
  dsimp only
  rw [if_neg (show ¬ (pulses i - 1 > 0) by omega), e]

/-- The loop body of `quant_bands` for band `i` calls `alg_quant` with no other `alpha` than
0 (when `eBands[i] ≥ pitchEnd` or `pulses[i] ≤ 0`) or 0.7 (otherwise): replacing `alg_quant` by
a function that agrees with it for that `alpha` does not change the result. -/
theorem quant_band_alg_alpha (cos sin sqrt : F → F) (col : Collab F Enc Dec) (m : CELTMode)
    (W : Nat → F) (pulses : Nat → Int) (i : Nat) (st : QuantState F Enc)
    (f : (Nat → F) → (Nat → F) → Int → Int → (Nat → F) → F → Enc → (Nat → F) × Enc)
    (hf : ∀ x w N K p enc,
      f x w N K p (if m.eBands i ≥ m.pitchEnd ∨ pulses i ≤ 0 then 0 else 0.7) enc
        = col.alg_quant x w N K p (if m.eBands i ≥ m.pitchEnd ∨ pulses i ≤ 0 then 0 else 0.7)
            enc) :
    quant_band cos sin sqrt { col with alg_quant := f } m W pulses i st
      = quant_band cos sin sqrt col m W pulses i st := by
  have hp : quant_predict { col with alg_quant := f } m W pulses i st
      = quant_predict col m W pulses i st := rfl
  have ha := quant_predict_alpha_out col m W pulses i st
  unfold quant_band
  dsimp only
  rw [hp]
  generalize quant_predict col m W pulses i st = r at ha ⊢
  congr 1
  unfold quant_vq
  dsimp only
  split_ifs
  · rw [ha, hf]
  · rfl

/-- The loop body of `unquant_bands` for band `i` calls `alg_unquant` with no other `alpha`
than 0 (when `eBands[i] ≥ pitchEnd` or `pulses[i] ≤ 0`) or 0.7 (otherwise). -/
theorem unquant_band_alg_alpha (cos sin sqrt : F → F) (col : Collab F Enc Dec) (m : CELTMode)
    (pulses : Nat → Int) (i : Nat) (st : QuantState F Dec)
    (f : (Nat → F) → Int → Int → (Nat → F) → F → Dec → (Nat → F) × Dec)
    (hf : ∀ x N K p dec,
      f x N K p (if m.eBands i ≥ m.pitchEnd ∨ pulses i ≤ 0 then 0 else 0.7) dec
        = col.alg_unquant x N K p (if m.eBands i ≥ m.pitchEnd ∨ pulses i ≤ 0 then 0 else 0.7)
            dec) :
    unquant_band cos sin sqrt { col with alg_unquant := f } m pulses i st
      = unquant_band cos sin sqrt col m pulses i st := by
  have hp : unquant_predict { col with alg_unquant := f } m pulses i st
      = unquant_predict col m pulses i st := rfl
  have ha := unquant_predict_alpha_out col m pulses i st
  unfold unquant_band
  dsimp only
  rw [hp]
  generalize unquant_predict col m pulses i st = r at ha ⊢
  congr 1
  unfold unquant_vq
  dsimp only
  split_ifs
  · rw [ha, hf]
  · rfl

end BandLoop

/-! ## Coding mode selected by the pulse allocation -/

/-- C13, counterexample: in the mono mode with the band `[0, 8)` and `pulses[0] = 0`, with
collaborators that mark what they write, the sample `X[0]` left by `quant_bands` and by
`unquant_bands` is the 1 written by `intra_fold`, not the 2 written by `intra_prediction` or
`intra_unquant`: an allocation of zero selects the fold fallback. -/
theorem zero_pulses_select_fold :
    (quant_bands Real.cos Real.sin Real.sqrt (markCodec : Collab ℝ Unit Unit) monoMode zeroBuf
        zeroBuf zeroBuf 64 () zeroBuf (fun _ => 0) (fun _ => 0)).X 0 = 1
    ∧ (quant_bands Real.cos Real.sin Real.sqrt (markCodec : Collab ℝ Unit Unit) monoMode zeroBuf
        zeroBuf zeroBuf 64 () zeroBuf (fun _ => 0) (fun _ => 0)).X 0 ≠ 2
    ∧ (unquant_bands Real.cos Real.sin Real.sqrt (markCodec : Collab ℝ Unit Unit) monoMode
        zeroBuf zeroBuf 64 () zeroBuf (fun _ => 0) (fun _ => 0)).X 0 = 1
    ∧ (unquant_bands Real.cos Real.sin Real.sqrt (markCodec : Collab ℝ Unit Unit) monoMode
        zeroBuf zeroBuf 64 () zeroBuf (fun _ => 0) (fun _ => 0)).X 0 ≠ 2 := by
  have hpad : ¬ (monoMode.nbMdctBlocks * monoMode.nbChannels * monoMode.eBands monoMode.nbEBands
      ≤ 0 ∧ 0 < monoMode.nbMdctBlocks * monoMode.nbChannels
        * monoMode.eBands (monoMode.nbEBands + 1)) := by decide
  have hq0 : ∀ (offsets : Nat → Int) (bits : Int),
      (markCodec : Collab ℝ Unit Unit).compute_allocation monoMode offsets bits (fun _ => 0) 0
        ≤ 0 := fun _ _ => le_refl _
  have he : (quant_bands Real.cos Real.sin Real.sqrt (markCodec : Collab ℝ Unit Unit) monoMode
      zeroBuf zeroBuf zeroBuf 64 () zeroBuf (fun _ => 0) (fun _ => 0)).X 0 = 1 := by
    unfold quant_bands
    dsimp only
    rw [forLoop_zero_apply, if_neg hpad]
    rw [show monoMode.nbEBands = 0 + 1 from rfl, forLoop_succ _ _ _ _ (le_refl _), forLoop_of_le _ _ _ _ (le_refl _),
      quant_band_fold _ _ _ _ _ _ _ _ _ (hq0 _ _)]
    rfl
  have hd : (unquant_bands Real.cos Real.sin Real.sqrt (markCodec : Collab ℝ Unit Unit)
      monoMode zeroBuf zeroBuf 64 () zeroBuf (fun _ => 0) (fun _ => 0)).X 0 = 1 := by
    unfold unquant_bands
    dsimp only
    rw [forLoop_zero_apply, if_neg hpad]
    rw [show monoMode.nbEBands = 0 + 1 from rfl, forLoop_succ _ _ _ _ (le_refl _), forLoop_of_le _ _ _ _ (le_refl _),
      unquant_band_fold _ _ _ _ _ _ _ _ (hq0 _ _)]
    rfl
  refine ⟨he, ?_, hd, ?_⟩
  · rw [he]
    norm_num
  · rw [hd]
    norm_num

/-- C13, as amended: in `quant_bands` and `unquant_bands`, for every band `i`: an allocation
`pulses[i] ≤ 0` (zero as well as minus one) selects the fold fallback `intra_fold`, with no
pulse coding; an allocation `pulses[i] = 1` for a band at or above `pitchEnd` selects
intra-prediction coding (`intra_prediction` on encode, `intra_unquant` on decode, with
`K = 0`), with no pulse coding. -/
theorem pulse_allocation_selects {Enc Dec : Type} (col : Collab ℝ Enc Dec) (m : CELTMode)
    (W : Nat → ℝ) (pulses : Nat → Int) (i : Nat) (se : QuantState ℝ Enc)
    (sd : QuantState ℝ Dec) :
    (pulses i ≤ 0 →
      quant_band Real.cos Real.sin Real.sqrt col m W pulses i se
          = store_norm Real.sqrt m i (fold_branch col m i se)
        ∧ unquant_band Real.cos Real.sin Real.sqrt col m pulses i sd
          = store_norm Real.sqrt m i (fold_branch col m i sd))
    ∧ (pulses i = 1 → m.pitchEnd ≤ m.eBands i →
      quant_band Real.cos Real.sin Real.sqrt col m W pulses i se
          = store_norm Real.sqrt m i (intra_branch_enc col m W i 0 se)
        ∧ unquant_band Real.cos Real.sin Real.sqrt col m pulses i sd
          = store_norm Real.sqrt m i (intra_branch_dec col m i 0 sd)) :=
  ⟨fun hq => ⟨quant_band_fold Real.cos Real.sin Real.sqrt col m W pulses i se hq,
      unquant_band_fold Real.cos Real.sin Real.sqrt col m pulses i sd hq⟩,
    fun hq hp => ⟨quant_band_intra Real.cos Real.sin Real.sqrt col m W pulses i se hq hp,
      unquant_band_intra Real.cos Real.sin Real.sqrt col m pulses i sd hq hp⟩⟩

/-! ## The blend weight and the `norm` context -/

/-- C15: in `quant_bands` and `unquant_bands`, for every allocation and every band `i`, the
blend weight `alpha` with which the pulse-coding part of the loop body runs (the one it hands
to `alg_quant` / `alg_unquant`) is a function of band `i` alone: 0 when
`eBands[i] ≥ pitchEnd` or `pulses[i] ≤ 0`, and 0.7 otherwise; the loop body gives the same
result whatever `alpha` an earlier band left, and the same result when `alg_quant` /
`alg_unquant` is replaced by a function that agrees with it for that `alpha`. -/
theorem alpha_function_of_band {Enc Dec : Type} (col : Collab ℝ Enc Dec) (m : CELTMode)
    (W : Nat → ℝ) (pulses : Nat → Int) (i : Nat) (se : QuantState ℝ Enc)
    (sd : QuantState ℝ Dec) (a : ℝ) :
    (quant_predict col m W pulses i se).2.alpha
        = (if m.eBands i ≥ m.pitchEnd ∨ pulses i ≤ 0 then 0 else 0.7)
    ∧ (unquant_predict col m pulses i sd).2.alpha
        = (if m.eBands i ≥ m.pitchEnd ∨ pulses i ≤ 0 then 0 else 0.7)
    ∧ quant_band Real.cos Real.sin Real.sqrt col m W pulses i se
        = store_norm Real.sqrt m i
          (quant_vq Real.cos Real.sin col m W pulses i (quant_predict col m W pulses i se).1
            { (quant_predict col m W pulses i se).2 with
              alpha := if m.eBands i ≥ m.pitchEnd ∨ pulses i ≤ 0 then 0 else 0.7 })
    ∧ unquant_band Real.cos Real.sin Real.sqrt col m pulses i sd
        = store_norm Real.sqrt m i
          (unquant_vq Real.cos Real.sin col m pulses i (unquant_predict col m pulses i sd).1
            { (unquant_predict col m pulses i sd).2 with
              alpha := if m.eBands i ≥ m.pitchEnd ∨ pulses i ≤ 0 then 0 else 0.7 })
    ∧ quant_band Real.cos Real.sin Real.sqrt col m W pulses i { se with alpha := a }
        = quant_band Real.cos Real.sin Real.sqrt col m W pulses i se
    ∧ unquant_band Real.cos Real.sin Real.sqrt col m pulses i { sd with alpha := a }
        = unquant_band Real.cos Real.sin Real.sqrt col m pulses i sd
    ∧ (∀ f : (Nat → ℝ) → (Nat → ℝ) → Int → Int → (Nat → ℝ) → ℝ → Enc → (Nat → ℝ) × Enc,
        (∀ x w N K p enc,
          f x w N K p (if m.eBands i ≥ m.pitchEnd ∨ pulses i ≤ 0 then 0 else 0.7) enc
            = col.alg_quant x w N K p
                (if m.eBands i ≥ m.pitchEnd ∨ pulses i ≤ 0 then 0 else 0.7) enc) →
        quant_band Real.cos Real.sin Real.sqrt { col with alg_quant := f } m W pulses i se
          = quant_band Real.cos Real.sin Real.sqrt col m W pulses i se)
    ∧ (∀ f : (Nat → ℝ) → Int → Int → (Nat → ℝ) → ℝ → Dec → (Nat → ℝ) × Dec,
        (∀ x N K p dec,
          f x N K p (if m.eBands i ≥ m.pitchEnd ∨ pulses i ≤ 0 then 0 else 0.7) dec
            = col.alg_unquant x N K p
                (if m.eBands i ≥ m.pitchEnd ∨ pulses i ≤ 0 then 0 else 0.7) dec) →
        unquant_band Real.cos Real.sin Real.sqrt { col with alg_unquant := f } m pulses i sd
          = unquant_band Real.cos Real.sin Real.sqrt col m pulses i sd) := by
  have h1 := quant_predict_alpha_out col m W pulses i se
  have h2 := unquant_predict_alpha_out col m pulses i sd
  refine ⟨h1, h2, ?_, ?_, ?_, ?_,
    fun f hf => quant_band_alg_alpha _ _ _ col m W pulses i se f hf,
    fun f hf => unquant_band_alg_alpha _ _ _ col m pulses i sd f hf⟩
  · rw [← h1]
    rfl
  · rw [← h2]
    rfl
  · unfold quant_band
    rw [quant_predict_alpha_in]
  · unfold unquant_band
    rw [unquant_predict_alpha_in]

/-- C16: the `norm` context is append-only in band order.  In `quant_bands` and
`unquant_bands`, the loop body for band `i` writes `norm` only at the indices
`[B*eBands[i], B*eBands[i+1])`, setting `norm[j] = 0.0625*sqrt(B*(eBands[i+1]-eBands[i]))*X[j]`
with `X` the band as the body leaves it, and keeps every other entry; for a mode with ordered
band boundaries, the context handed to band `k` holds at every index `j` of a band `i < k` the
scaled sample of that band, and when `quant_bands` / `unquant_bands` return, `norm[j]` is the
scaled final `X[j]` for every band. -/
theorem norm_context_append_only {Enc Dec : Type} (col : Collab ℝ Enc Dec) (m : CELTMode)
    (hord : m.ordered) (X P W norm : Nat → ℝ) (total_bits : Int) (enc : Enc) (dec : Dec)
    (pulses offsets : Nat → Int) (se : QuantState ℝ Enc) (sd : QuantState ℝ Dec)
    (k i j : Nat) (hk : k ≤ m.nbEBands) (hi : i < k)
    (hj1 : m.nbMdctBlocks * m.nbChannels * m.eBands i ≤ j)
    (hj2 : j < m.nbMdctBlocks * m.nbChannels * m.eBands (i + 1)) :
    (∀ b l, (quant_band Real.cos Real.sin Real.sqrt col m W pulses b se).norm l
      = if m.nbMdctBlocks * m.nbChannels * m.eBands b ≤ l
          ∧ l < m.nbMdctBlocks * m.nbChannels * m.eBands (b + 1)
        then (quant_band Real.cos Real.sin Real.sqrt col m W pulses b se).X l
          * (0.0625 * Real.sqrt ((((m.nbMdctBlocks * m.nbChannels : Nat) : Int)
              * ((m.eBands (b + 1) : Int) - (m.eBands b : Int)) : Int) : ℝ))
        else se.norm l)
    ∧ (∀ b l, (unquant_band Real.cos Real.sin Real.sqrt col m pulses b sd).norm l
      = if m.nbMdctBlocks * m.nbChannels * m.eBands b ≤ l
          ∧ l < m.nbMdctBlocks * m.nbChannels * m.eBands (b + 1)
        then (unquant_band Real.cos Real.sin Real.sqrt col m pulses b sd).X l
          * (0.0625 * Real.sqrt ((((m.nbMdctBlocks * m.nbChannels : Nat) : Int)
              * ((m.eBands (b + 1) : Int) - (m.eBands b : Int)) : Int) : ℝ))
        else sd.norm l)
    ∧ (forLoop 0 k (quant_band Real.cos Real.sin Real.sqrt col m W pulses) se).norm j
      = (forLoop 0 k (quant_band Real.cos Real.sin Real.sqrt col m W pulses) se).X j
          * (0.0625 * Real.sqrt ((((m.nbMdctBlocks * m.nbChannels : Nat) : Int)
              * ((m.eBands (i + 1) : Int) - (m.eBands i : Int)) : Int) : ℝ))
    ∧ (forLoop 0 k (unquant_band Real.cos Real.sin Real.sqrt col m pulses) sd).norm j
      = (forLoop 0 k (unquant_band Real.cos Real.sin Real.sqrt col m pulses) sd).X j
          * (0.0625 * Real.sqrt ((((m.nbMdctBlocks * m.nbChannels : Nat) : Int)
              * ((m.eBands (i + 1) : Int) - (m.eBands i : Int)) : Int) : ℝ))
    ∧ (quant_bands Real.cos Real.sin Real.sqrt col m X P W total_bits enc norm pulses
        offsets).norm j
      = (quant_bands Real.cos Real.sin Real.sqrt col m X P W total_bits enc norm pulses
          offsets).X j
          * (0.0625 * Real.sqrt ((((m.nbMdctBlocks * m.nbChannels : Nat) : Int)
              * ((m.eBands (i + 1) : Int) - (m.eBands i : Int)) : Int) : ℝ))
    ∧ (unquant_bands Real.cos Real.sin Real.sqrt col m X P total_bits dec norm pulses
        offsets).norm j
      = (unquant_bands Real.cos Real.sin Real.sqrt col m X P total_bits dec norm pulses
          offsets).X j
          * (0.0625 * Real.sqrt ((((m.nbMdctBlocks * m.nbChannels : Nat) : Int)
              * ((m.eBands (i + 1) : Int) - (m.eBands i : Int)) : Int) : ℝ)) := by
  have hpad : ¬ (m.nbMdctBlocks * m.nbChannels * m.eBands m.nbEBands ≤ j
      ∧ j < m.nbMdctBlocks * m.nbChannels * m.eBands (m.nbEBands + 1)) := by
    have e2 : m.eBands (i + 1) ≤ m.eBands m.nbEBands :=
      CELTMode.ordered_le hord (by omega) (by omega)
    have e3 := Nat.mul_le_mul_left (m.nbMdctBlocks * m.nbChannels) e2
    omega
  refine ⟨fun b l => quant_band_norm _ _ _ col m W pulses b se l,
    fun b l => unquant_band_norm _ _ _ col m pulses b sd l, ?_, ?_, ?_, ?_⟩
  · exact norm_context m hord
      (fun b => 0.0625 * Real.sqrt ((((m.nbMdctBlocks * m.nbChannels : Nat) : Int)
        * ((m.eBands (b + 1) : Int) - (m.eBands b : Int)) : Int) : ℝ))
      (quant_band Real.cos Real.sin Real.sqrt col m W pulses)
      (fun b st l => quant_band_norm _ _ _ col m W pulses b st l)
      (fun b st l hl => quant_band_X_below _ _ _ col m W pulses b st l hl)
      se k hk i j hi hj1 hj2
  · exact norm_context m hord
      (fun b => 0.0625 * Real.sqrt ((((m.nbMdctBlocks * m.nbChannels : Nat) : Int)
        * ((m.eBands (b + 1) : Int) - (m.eBands b : Int)) : Int) : ℝ))
      (unquant_band Real.cos Real.sin Real.sqrt col m pulses)
      (fun b st l => unquant_band_norm _ _ _ col m pulses b st l)
      (fun b st l hl => unquant_band_X_below _ _ _ col m pulses b st l hl)
      sd k hk i j hi hj1 hj2
  · unfold quant_bands
    dsimp only
    rw [forLoop_zero_apply, if_neg hpad]
    exact norm_context m hord
      (fun b => 0.0625 * Real.sqrt ((((m.nbMdctBlocks * m.nbChannels : Nat) : Int)
        * ((m.eBands (b + 1) : Int) - (m.eBands b : Int)) : Int) : ℝ))
      (quant_band Real.cos Real.sin Real.sqrt col m W _)
      (fun b st l => quant_band_norm _ _ _ col m W _ b st l)
      (fun b st l hl => quant_band_X_below _ _ _ col m W _ b st l hl)
      _ m.nbEBands (le_refl _) i j (by omega) hj1 hj2
  · unfold unquant_bands
    dsimp only
    rw [forLoop_zero_apply, if_neg hpad]
    exact norm_context m hord
      (fun b => 0.0625 * Real.sqrt ((((m.nbMdctBlocks * m.nbChannels : Nat) : Int)
        * ((m.eBands (b + 1) : Int) - (m.eBands b : Int)) : Int) : ℝ))
      (unquant_band Real.cos Real.sin Real.sqrt col m _)
      (fun b st l => unquant_band_norm _ _ _ col m _ b st l)
      (fun b st l hl => unquant_band_X_below _ _ _ col m _ b st l hl)
      _ m.nbEBands (le_refl _) i j (by omega) hj1 hj2

/-! ## The later statements at sample inputs -/

/-- C11: the amended statement at the mono mode with `P = X` the signal of ones and the unit
bank, pitch band 0. -/
theorem compute_pitch_gain_self_uniform_witness :
    monoMode.ordered ∧ monoMode.pitch_inside ∧ (0 : ℝ) < 1
    ∧ (∀ i, i < monoMode.nbEBands → (unitBank i : ℝ) = 1) ∧ 0 < monoMode.nbPBands
    ∧ (1e-4 : ℝ) ≤ 1 * ∑ j in Finset.Ico
        (monoMode.nbMdctBlocks * monoMode.nbChannels * monoMode.pBands 0)
        (monoMode.nbMdctBlocks * monoMode.nbChannels * monoMode.pBands (0 + 1)),
        onesSignal j * onesSignal j
    ∧ |(compute_pitch_gain monoMode onesSignal onesSignal zeroBuf unitBank zeroBuf).1 0
        - (0.9 : ℝ)| ≤ 1e-6 := by
  have hQ : (1e-4 : ℝ) ≤ 1 * ∑ j in Finset.Ico
      (monoMode.nbMdctBlocks * monoMode.nbChannels * monoMode.pBands 0)
      (monoMode.nbMdctBlocks * monoMode.nbChannels * monoMode.pBands (0 + 1)),
      onesSignal j * onesSignal j := by
    show (1e-4 : ℝ) ≤ 1 * ∑ j in Finset.Ico 0 8, onesSignal j * onesSignal j
    simp only [onesSignal, mul_one, Finset.sum_const, Nat.card_Ico]
    norm_num
  exact ⟨monoMode_ordered, monoMode_pitch_inside, by norm_num, fun _ _ => rfl, by decide, hQ,
    (compute_pitch_gain_self_uniform monoMode monoMode_ordered monoMode_pitch_inside onesSignal
      zeroBuf unitBank zeroBuf 1 (by norm_num) (fun _ _ => rfl) 0 (by decide)).2.2 hQ⟩

/-- C12: the amended statement at the mode with two energy bands, `X = [1, 1]`,
`P = [1, -1]` and the unit bank, pitch band 0. -/
theorem compute_pitch_gain_orthogonal_witness :
    twoBandMode.ordered ∧ twoBandMode.pitch_inside
    ∧ (∀ i, i < twoBandMode.nbEBands → (unitBank i : ℝ) = 1) ∧ 0 < twoBandMode.nbPBands
    ∧ ∑ j in Finset.Ico (twoBandMode.nbMdctBlocks * twoBandMode.nbChannels * twoBandMode.pBands 0)
        (twoBandMode.nbMdctBlocks * twoBandMode.nbChannels * twoBandMode.pBands (0 + 1)),
        (onesSignal j : ℝ) * stepSignal j = 0
    ∧ (compute_pitch_gain twoBandMode onesSignal stepSignal zeroBuf unitBank zeroBuf).1 0
        = (0 : ℝ) := by
  have horth : ∑ j in Finset.Ico
      (twoBandMode.nbMdctBlocks * twoBandMode.nbChannels * twoBandMode.pBands 0)
      (twoBandMode.nbMdctBlocks * twoBandMode.nbChannels * twoBandMode.pBands (0 + 1)),
      (onesSignal j : ℝ) * stepSignal j = 0 := by
    show ∑ j in Finset.Ico 0 2, (onesSignal j : ℝ) * stepSignal j = 0
    rw [Finset.sum_Ico_eq_sum_range]
    simp only [Finset.sum_range_succ, Finset.sum_range_zero, onesSignal, stepSignal]
    norm_num
  exact ⟨twoBandMode_ordered, twoBandMode_pitch_inside, fun _ _ => rfl, by decide, horth,
    compute_pitch_gain_orthogonal twoBandMode twoBandMode_ordered twoBandMode_pitch_inside
      onesSignal stepSignal zeroBuf unitBank zeroBuf 1 (fun _ _ => rfl) 0 (by decide) horth⟩

/-- C13: the amended statement with the marking collaborators: band 0 of the mono mode with no
pulse, and band 1 of the two-band mode with `pitchEnd = 1` and one pulse. -/
theorem pulse_allocation_selects_witness :
    ((fun _ => 0 : Nat → Int) 0 ≤ 0
      ∧ quant_band Real.cos Real.sin Real.sqrt (markCodec : Collab ℝ Unit Unit) monoMode zeroBuf
          (fun _ => 0) 0 { X := zeroBuf, P := zeroBuf, norm := zeroBuf, alpha := 0.7, coder := () }
        = store_norm Real.sqrt monoMode 0
          (fold_branch (markCodec : Collab ℝ Unit Unit) monoMode 0
            { X := zeroBuf, P := zeroBuf, norm := zeroBuf, alpha := 0.7, coder := () }))
    ∧ ((fun _ => 1 : Nat → Int) 1 = 1
      ∧ ({ twoBandMode with pitchEnd := 1 } : CELTMode).pitchEnd
          ≤ ({ twoBandMode with pitchEnd := 1 } : CELTMode).eBands 1
      ∧ unquant_band Real.cos Real.sin Real.sqrt (markCodec : Collab ℝ Unit Unit)
          { twoBandMode with pitchEnd := 1 } (fun _ => 1) 1
          { X := zeroBuf, P := zeroBuf, norm := zeroBuf, alpha := 0.7, coder := () }
        = store_norm Real.sqrt { twoBandMode with pitchEnd := 1 } 1
          (intra_branch_dec (markCodec : Collab ℝ Unit Unit) { twoBandMode with pitchEnd := 1 }
            1 0 { X := zeroBuf, P := zeroBuf, norm := zeroBuf, alpha := 0.7, coder := () })) :=
  ⟨⟨le_refl _,
      ((pulse_allocation_selects (markCodec : Collab ℝ Unit Unit) monoMode zeroBuf (fun _ => 0)
        0 { X := zeroBuf, P := zeroBuf, norm := zeroBuf, alpha := 0.7, coder := () }
        { X := zeroBuf, P := zeroBuf, norm := zeroBuf, alpha := 0.7, coder := () }).1
        (le_refl _)).1⟩,
    ⟨rfl, by decide,
      ((pulse_allocation_selects (markCodec : Collab ℝ Unit Unit)
        { twoBandMode with pitchEnd := 1 } zeroBuf (fun _ => 1)
        1 { X := zeroBuf, P := zeroBuf, norm := zeroBuf, alpha := 0.7, coder := () }
        { X := zeroBuf, P := zeroBuf, norm := zeroBuf, alpha := 0.7, coder := () }).2
        rfl (by decide)).2⟩⟩

/-- C14: the amended statement at the stereo mode, the stereo signal and the unit bank,
sample pair 0. -/
theorem stereo_mix_unit_bank_witness :
    stereoMode.ordered ∧ stereoMode.nbChannels = 2 ∧ 0 < stereoMode.nbEBands
    ∧ stereoMode.nbMdctBlocks * stereoMode.eBands 0 ≤ 0
    ∧ 0 < stereoMode.nbMdctBlocks * stereoMode.eBands (0 + 1)
    ∧ (unitBank (0 * 2) : ℝ) = 1 ∧ (unitBank (0 * 2 + 1) : ℝ) = 1
    ∧ stereo_mix Real.sqrt stereoMode stereoSignal unitBank 1 (0 * 2)
        = ((stereoSignal (0 * 2) : ℝ) + stereoSignal (0 * 2 + 1)) / Real.sqrt 2.01
    ∧ stereo_mix Real.sqrt stereoMode stereoSignal unitBank 1 (0 * 2 + 1)
        = ((stereoSignal (0 * 2 + 1) : ℝ) - stereoSignal (0 * 2)) / Real.sqrt 2.01 :=
  ⟨stereoMode_ordered, rfl, by decide, by decide, by decide, rfl, rfl,
    stereo_mix_unit_bank stereoMode stereoMode_ordered rfl stereoSignal unitBank 0 0
      (by decide) (by decide) (by decide) rfl rfl⟩

/-- C15: the statement for band 0 of the mono mode with three pulses and the sample codec:
replacing `alg_quant` by a function that differs from it for `alpha = 0.5` does not change the
loop body. -/
theorem alpha_function_of_band_witness :
    (∀ (x w : Nat → ℝ) (N K : Int) (p : Nat → ℝ) (enc : List ℝ),
      (fun x w N K p alpha enc =>
          if alpha = 0.5 then (zeroBuf, enc)
          else (listCodec : Collab ℝ (List ℝ) (Nat × List ℝ)).alg_quant x w N K p alpha enc)
        x w N K p
        (if monoMode.eBands 0 ≥ monoMode.pitchEnd ∨ (fun _ => 3 : Nat → Int) 0 ≤ 0 then 0
          else 0.7) enc
      = (listCodec : Collab ℝ (List ℝ) (Nat × List ℝ)).alg_quant x w N K p
        (if monoMode.eBands 0 ≥ monoMode.pitchEnd ∨ (fun _ => 3 : Nat → Int) 0 ≤ 0 then 0
          else 0.7) enc)
    ∧ quant_band Real.cos Real.sin Real.sqrt
        { (listCodec : Collab ℝ (List ℝ) (Nat × List ℝ)) with
          alg_quant := fun x w N K p alpha enc =>
            if alpha = 0.5 then (zeroBuf, enc)
            else (listCodec : Collab ℝ (List ℝ) (Nat × List ℝ)).alg_quant x w N K p alpha enc }
        monoMode zeroBuf (fun _ => 3) 0
        { X := quietSignal, P := zeroBuf, norm := zeroBuf, alpha := 0.7, coder := [] }
      = quant_band Real.cos Real.sin Real.sqrt (listCodec : Collab ℝ (List ℝ) (Nat × List ℝ))
        monoMode zeroBuf (fun _ => 3) 0
        { X := quietSignal, P := zeroBuf, norm := zeroBuf, alpha := 0.7, coder := [] } := by
  have hf : ∀ (x w : Nat → ℝ) (N K : Int) (p : Nat → ℝ) (enc : List ℝ),
      (fun x w N K p alpha enc =>
          if alpha = 0.5 then (zeroBuf, enc)
          else (listCodec : Collab ℝ (List ℝ) (Nat × List ℝ)).alg_quant x w N K p alpha enc)
        x w N K p
        (if monoMode.eBands 0 ≥ monoMode.pitchEnd ∨ (fun _ => 3 : Nat → Int) 0 ≤ 0 then 0
          else 0.7) enc
      = (listCodec : Collab ℝ (List ℝ) (Nat × List ℝ)).alg_quant x w N K p
        (if monoMode.eBands 0 ≥ monoMode.pitchEnd ∨ (fun _ => 3 : Nat → Int) 0 ≤ 0 then 0
          else 0.7) enc := by
    intro x w N K p enc
    have hα : (if monoMode.eBands 0 ≥ monoMode.pitchEnd ∨ (fun _ => 3 : Nat → Int) 0 ≤ 0
        then (0 : ℝ) else 0.7) = 0.7 := if_neg (by decide)
    rw [hα]
    beta_reduce
    rw [if_neg (by norm_num)]
  exact ⟨hf,
    (alpha_function_of_band (listCodec : Collab ℝ (List ℝ) (Nat × List ℝ)) monoMode zeroBuf
      (fun _ => 3) 0
      { X := quietSignal, P := zeroBuf, norm := zeroBuf, alpha := 0.7, coder := [] }
      { X := quietSignal, P := zeroBuf, norm := zeroBuf, alpha := 0.7, coder := (0, []) }
      0).2.2.2.2.2.2.1 _ hf⟩

/-- C16: the statement at the mono mode with the sample codec: when `quant_bands` returns,
`norm[0]` is the scaled final `X[0]`. -/
theorem norm_context_append_only_witness :
    monoMode.ordered ∧ 1 ≤ monoMode.nbEBands ∧ 0 < 1
    ∧ monoMode.nbMdctBlocks * monoMode.nbChannels * monoMode.eBands 0 ≤ 0
    ∧ 0 < monoMode.nbMdctBlocks * monoMode.nbChannels * monoMode.eBands (0 + 1)
    ∧ (quant_bands Real.cos Real.sin Real.sqrt (listCodec : Collab ℝ (List ℝ) (Nat × List ℝ))
        monoMode quietSignal zeroBuf zeroBuf 64 [] zeroBuf (fun _ => 0) (fun _ => 0)).norm 0
      = (quant_bands Real.cos Real.sin Real.sqrt (listCodec : Collab ℝ (List ℝ) (Nat × List ℝ))
          monoMode quietSignal zeroBuf zeroBuf 64 [] zeroBuf (fun _ => 0) (fun _ => 0)).X 0
          * (0.0625 * Real.sqrt ((((monoMode.nbMdctBlocks * monoMode.nbChannels : Nat) : Int)
              * ((monoMode.eBands (0 + 1) : Int) - (monoMode.eBands 0 : Int)) : Int) : ℝ)) :=
  ⟨monoMode_ordered, by decide, by decide, by decide, by decide,
    (norm_context_append_only (listCodec : Collab ℝ (List ℝ) (Nat × List ℝ)) monoMode
      monoMode_ordered quietSignal zeroBuf zeroBuf zeroBuf 64 [] (0, []) (fun _ => 0)
      (fun _ => 0)
      { X := quietSignal, P := zeroBuf, norm := zeroBuf, alpha := 0.7, coder := [] }
      { X := quietSignal, P := zeroBuf, norm := zeroBuf, alpha := 0.7, coder := (0, []) }
      1 0 0 (by decide) (by decide) (by decide) (by decide)).2.2.2.2.1⟩

/-- C17: the amended statement at the mono mode, band 0, channel 0: for the all-zero spectrum
the energy is 0, and for the unit impulse it is, over exact reals, strictly below `1/C`. -/
theorem normalised_band_energy_lt_inv_channels_witness :
    monoMode.ordered ∧ 0 < monoMode.nbEBands ∧ 0 < monoMode.nbChannels
    ∧ (∀ j, monoMode.nbMdctBlocks * monoMode.eBands 0 ≤ j →
        j < monoMode.nbMdctBlocks * monoMode.eBands (0 + 1) →
        (zeroBuf (j * monoMode.nbChannels + 0) : ℝ) = 0)
    ∧ ∑ j in Finset.Ico (monoMode.nbMdctBlocks * monoMode.eBands 0)
          (monoMode.nbMdctBlocks * monoMode.eBands (0 + 1)),
          normalise_bands Real.sqrt monoMode zeroBuf zeroBuf
            (compute_band_energies Real.sqrt monoMode zeroBuf zeroBuf)
            (j * monoMode.nbChannels + 0) ^ 2 = (0 : ℝ)
    ∧ ∑ j in Finset.Ico (monoMode.nbMdctBlocks * monoMode.eBands 0)
          (monoMode.nbMdctBlocks * monoMode.eBands (0 + 1)),
          normalise_bands Real.sqrt monoMode impulseSignal zeroBuf
            (compute_band_energies Real.sqrt monoMode impulseSignal zeroBuf)
            (j * monoMode.nbChannels + 0) ^ 2 < 1 / (monoMode.nbChannels : ℝ) :=
  ⟨monoMode_ordered, by decide, by decide, fun _ _ _ => rfl,
    (normalised_band_energy_lt_inv_channels monoMode monoMode_ordered zeroBuf zeroBuf zeroBuf
      0 0 (by decide) (by decide)).2.2 (fun _ _ _ => rfl),
    (normalised_band_energy_lt_inv_channels monoMode monoMode_ordered impulseSignal zeroBuf
      zeroBuf 0 0 (by decide) (by decide)).2.1⟩

/-- C18: the amended statement at the stereo mode, the stereo signal and the unit bank,
sample pair 0. -/
theorem stereo_mix_roundtrip_attenuates_witness :
    stereoMode.ordered ∧ stereoMode.nbChannels = 2 ∧ 0 < stereoMode.nbEBands
    ∧ stereoMode.nbMdctBlocks * stereoMode.eBands 0 ≤ 0
    ∧ 0 < stereoMode.nbMdctBlocks * stereoMode.eBands (0 + 1)
    ∧ stereo_mix Real.sqrt stereoMode (stereo_mix Real.sqrt stereoMode stereoSignal unitBank 1)
        unitBank (-1) (0 * 2)
      = ((unitBank (0 * 2) : ℝ) * unitBank (0 * 2) + unitBank (0 * 2 + 1) * unitBank (0 * 2 + 1))
          / (0.01 + unitBank (0 * 2) * unitBank (0 * 2)
              + unitBank (0 * 2 + 1) * unitBank (0 * 2 + 1))
          * stereoSignal (0 * 2) :=
  ⟨stereoMode_ordered, rfl, by decide, by decide, by decide,
    (stereo_mix_roundtrip_attenuates stereoMode stereoMode_ordered rfl stereoSignal unitBank
      0 0 (by decide) (by decide) (by decide)).1⟩

/-- C20: the statement at the mono mode, pitch band 0, bin 0, for two different initial
contents of the scratch array. -/
theorem compute_pitch_gain_reads_written_witness :
    monoMode.ordered ∧ monoMode.pitch_inside ∧ 0 < monoMode.nbPBands
    ∧ monoMode.nbMdctBlocks * monoMode.nbChannels * monoMode.pBands 0 ≤ 0
    ∧ 0 < monoMode.nbMdctBlocks * monoMode.nbChannels * monoMode.pBands (0 + 1)
    ∧ 0 < monoMode.nbMdctBlocks * monoMode.nbChannels * monoMode.eBands monoMode.nbEBands
    ∧ compute_pitch_gain monoMode (quietSignal : Nat → ℝ) quietSignal zeroBuf unitBank zeroBuf
      = compute_pitch_gain monoMode quietSignal quietSignal zeroBuf unitBank loudBank :=
  ⟨monoMode_ordered, monoMode_pitch_inside, by decide, by decide, by decide,
    (compute_pitch_gain_reads_written monoMode monoMode_ordered monoMode_pitch_inside
      quietSignal quietSignal zeroBuf unitBank zeroBuf loudBank 0 0 (by decide) (by decide)
      (by decide)).1,
    (compute_pitch_gain_reads_written monoMode monoMode_ordered monoMode_pitch_inside
      quietSignal quietSignal zeroBuf unitBank zeroBuf loudBank 0 0 (by decide) (by decide)
      (by decide)).2.2⟩

/-! ## The listed pairing conditions do not fix the folded bands -/

/-- A decode-of-encode pair meets the conditions that the specification lists. -/
theorem DecodeOfEncode.listed {F Enc Dec : Type} [LinearOrderedField F]
    {col : Collab F Enc Dec} {m : CELTMode} {Pre : Enc → Enc → Prop}
    {Sync : Enc → Enc → Dec → Prop} (h : DecodeOfEncode col m Pre Sync) :
    ListedPairing col m Pre Sync where
  pre_refl := h.pre_refl
  pre_trans := h.pre_trans
  intra_ext := h.intra_ext
  alg_ext := h.alg_ext
  tell := h.tell
  alloc := h.alloc
  intra := fun fin x x' W N K Y Y' P B N0 enc dec hs hp hY =>
    ⟨(h.intra fin x x' W N K Y Y' P B N0 enc dec hs hp hY).1,
      (h.intra fin x x' W N K Y Y' P B N0 enc dec hs hp hY).2.1⟩
  alg := h.alg

/-- The sample collaborators that leave `X` alone meet every listed condition. -/
theorem keepCodec_listed {F : Type} [LinearOrderedField F] (m : CELTMode) :
    ListedPairing (keepCodec : Collab F Unit Unit) m (fun _ _ => True) (fun _ _ _ => True) where
  pre_refl := fun _ => trivial
  pre_trans := fun _ _ _ _ _ => trivial
  intra_ext := fun _ _ _ _ _ _ _ _ _ => trivial
  alg_ext := fun _ _ _ _ _ _ _ => trivial
  tell := fun _ _ _ _ => rfl
  alloc := fun _ _ _ _ _ _ _ _ => rfl
  intra := fun _ _ _ _ _ _ _ _ _ _ _ _ _ _ _ _ => ⟨trivial, fun _ _ => rfl⟩
  alg := fun _ _ _ _ _ _ _ _ _ _ _ _ => ⟨trivial, fun _ _ => rfl⟩

/-- C4, counterexample: the collaborators `keepCodec` meet every condition that the
specification lists (the streams and counters agree, `intra_unquant` yields the same `P` as
`intra_prediction`, `alg_unquant` returns what `alg_quant` wrote, the allocation is the same on
both sides), the mode has ordered bands starting at bin 0 and both sides get the same `P`; the
allocator gives the band no pulse, so both sides call `intra_fold`, which leaves `X` as it
finds it: the encoder keeps its `X[0] = 1e-5`, the decoder its own `X[0] = 1`, and the `X` of
`unquant_bands` differs from the `X` of `quant_bands`. -/
theorem unquant_bands_differs_on_fold :
    ListedPairing (keepCodec : Collab ℝ Unit Unit) monoMode (fun _ _ => True)
      (fun _ _ _ => True)
    ∧ monoMode.ordered ∧ monoMode.eBands 0 = 0
    ∧ (quant_bands Real.cos Real.sin Real.sqrt (keepCodec : Collab ℝ Unit Unit) monoMode
        quietSignal zeroBuf zeroBuf 64 () zeroBuf (fun _ => 0) (fun _ => 0)).X 0 = 1e-5
    ∧ (unquant_bands Real.cos Real.sin Real.sqrt (keepCodec : Collab ℝ Unit Unit) monoMode
        unitBank zeroBuf 64 () zeroBuf (fun _ => 0) (fun _ => 0)).X 0 = 1
    ∧ (unquant_bands Real.cos Real.sin Real.sqrt (keepCodec : Collab ℝ Unit Unit) monoMode
        unitBank zeroBuf 64 () zeroBuf (fun _ => 0) (fun _ => 0)).X 0
      ≠ (quant_bands Real.cos Real.sin Real.sqrt (keepCodec : Collab ℝ Unit Unit) monoMode
        quietSignal zeroBuf zeroBuf 64 () zeroBuf (fun _ => 0) (fun _ => 0)).X 0 := by
  have hpad : ¬ (monoMode.nbMdctBlocks * monoMode.nbChannels * monoMode.eBands monoMode.nbEBands
      ≤ 0 ∧ 0 < monoMode.nbMdctBlocks * monoMode.nbChannels
        * monoMode.eBands (monoMode.nbEBands + 1)) := by decide
  have hq0 : ∀ (offsets : Nat → Int) (bits : Int) (pulses : Nat → Int),
      (keepCodec : Collab ℝ Unit Unit).compute_allocation monoMode offsets bits pulses 0
        ≤ 0 := fun _ _ _ => le_refl _
  have he : (quant_bands Real.cos Real.sin Real.sqrt (keepCodec : Collab ℝ Unit Unit) monoMode
      quietSignal zeroBuf zeroBuf 64 () zeroBuf (fun _ => 0) (fun _ => 0)).X 0 = 1e-5 := by
    unfold quant_bands
    dsimp only
    rw [forLoop_zero_apply, if_neg hpad]
    rw [show monoMode.nbEBands = 0 + 1 from rfl, forLoop_succ _ _ _ _ (le_refl _),
      forLoop_of_le _ _ _ _ (le_refl _), quant_band_fold _ _ _ _ _ _ _ _ _ (hq0 _ _ _)]
    show (quietSignal 0 : ℝ) = 1e-5
    simp [quietSignal]
  have hd : (unquant_bands Real.cos Real.sin Real.sqrt (keepCodec : Collab ℝ Unit Unit)
      monoMode unitBank zeroBuf 64 () zeroBuf (fun _ => 0) (fun _ => 0)).X 0 = 1 := by
    unfold unquant_bands
    dsimp only
    rw [forLoop_zero_apply, if_neg hpad]
    rw [show monoMode.nbEBands = 0 + 1 from rfl, forLoop_succ _ _ _ _ (le_refl _),
      forLoop_of_le _ _ _ _ (le_refl _), unquant_band_fold _ _ _ _ _ _ _ _ (hq0 _ _ _)]
    rfl
  refine ⟨keepCodec_listed monoMode, monoMode_ordered, rfl, he, hd, ?_⟩
  rw [he, hd]
  norm_num

/-! ## Rounding to nearest -/

theorem scaled_finite (p : Nat) (lo hi : Int) :
    {x : ℝ | ∃ m e : Int, |m| < 2 ^ p ∧ lo ≤ e ∧ e ≤ hi ∧ x = (m : ℝ) * (2 : ℝ) ^ e}.Finite := by
  have h : ((Finset.Icc (-(2 ^ p : Int)) (2 ^ p) ×ˢ Finset.Icc lo hi).image
      (fun q : Int × Int => (q.1 : ℝ) * (2 : ℝ) ^ q.2) : Set ℝ).Finite := Finset.finite_toSet _
  apply h.subset
  rintro x ⟨m, e, hm, h1, h2, rfl⟩
  rw [Finset.mem_coe, Finset.mem_image]
  refine ⟨(m, e), ?_, rfl⟩
  rw [Finset.mem_product, Finset.mem_Icc, Finset.mem_Icc]
  rw [abs_lt] at hm
  exact ⟨⟨by linarith [hm.1], by linarith [hm.2]⟩, h1, h2⟩

theorem binary32_finite : binary32.Finite := scaled_finite 24 (-149) 104

theorem binary64_finite : binary64.Finite := scaled_finite 53 (-1074) 971

theorem pow_two_mem_binary32 (n : Nat) (hn : n ≤ 104) : (2 : ℝ) ^ n ∈ binary32 :=
  ⟨1, n, by norm_num, by omega, by omega, by rw [Int.cast_one, one_mul, zpow_natCast]⟩

theorem pow_two_mem_binary64 (n : Nat) (hn : n ≤ 971) : (2 : ℝ) ^ n ∈ binary64 :=
  ⟨1, n, by norm_num, by omega, by omega, by rw [Int.cast_one, one_mul, zpow_natCast]⟩

theorem zero_mem_binary32 : (0 : ℝ) ∈ binary32 :=
  ⟨0, 0, by norm_num, by norm_num, by norm_num, by simp⟩

theorem zero_mem_binary64 : (0 : ℝ) ∈ binary64 :=
  ⟨0, 0, by norm_num, by norm_num, by norm_num, by simp⟩

theorem one_mem_binary32 : (1 : ℝ) ∈ binary32 := by
  simpa using pow_two_mem_binary32 0 (by omega)

theorem one_mem_binary64 : (1 : ℝ) ∈ binary64 := by
  simpa using pow_two_mem_binary64 0 (by omega)

/-- A finite format has a round-to-nearest function. -/
theorem exists_isNearest (S : Set ℝ) (hfin : S.Finite) (hne : S.Nonempty) :
    ∃ r, IsNearest S r := by
  have h : ∀ x : ℝ, ∃ a, a ∈ S ∧ ∀ y ∈ S, |a - x| ≤ |y - x| := fun x => by
    obtain ⟨a, ha, hmin⟩ := Set.exists_min_image S (fun y => |y - x|) hfin hne
    exact ⟨a, ha, hmin⟩
  choose r hr using h
  exact ⟨r, hr⟩

/-- Round-to-nearest functions exist for `float` and for `double`. -/
theorem exists_float_roundings :
    ∃ rf rd : ℝ → ℝ, IsNearest binary32 rf ∧ IsNearest binary64 rd := by
  obtain ⟨rf, hf⟩ := exists_isNearest binary32 binary32_finite ⟨0, zero_mem_binary32⟩
  obtain ⟨rd, hd⟩ := exists_isNearest binary64 binary64_finite ⟨0, zero_mem_binary64⟩
  exact ⟨rf, rd, hf, hd⟩

/-- A number of the format is not changed by rounding. -/
theorem IsNearest.of_mem {S : Set ℝ} {r : ℝ → ℝ} (h : IsNearest S r) {x : ℝ} (hx : x ∈ S) :
    r x = x := by
  have h1 := (h x).2 x hx
  rw [sub_self, abs_zero] at h1
  have h2 := abs_nonneg (r x - x)
  have h3 : |r x - x| = 0 := le_antisymm h1 h2
  rw [abs_eq_zero] at h3
  linarith

/-- Rounding moves a number at most twice as far from a number of the format as it was. -/
theorem IsNearest.near {S : Set ℝ} {r : ℝ → ℝ} (h : IsNearest S r) {y : ℝ} (hy : y ∈ S)
    (x : ℝ) : |r x - y| ≤ 2 * |x - y| := by
  have h1 := (h x).2 y hy
  have h2 : |r x - y| ≤ |r x - x| + |x - y| := by
    have := abs_add (r x - x) (x - y)
    rwa [sub_add_sub_cancel] at this
  rw [abs_sub_comm y x] at h1
  linarith

/-- No `float` other than 1 lies within `2^-24` of 1. -/
theorem binary32_gap_one {y : ℝ} (hy : y ∈ binary32) (h : |y - 1| < 1 / 16777216) : y = 1 := by
  obtain ⟨m, e, hm, -, -, rfl⟩ := hy
  rw [abs_lt] at h hm
  by_cases he : -23 ≤ e
  · obtain ⟨n, hn⟩ : ∃ n : Nat, e = (n : Int) - 23 := ⟨(e + 23).toNat, by omega⟩
    subst hn
    have h2 : (2 : ℝ) ^ ((n : Int) - 23) = 2 ^ n / 8388608 := by
      rw [zpow_sub₀ (two_ne_zero), zpow_natCast]
      norm_num
    rw [h2] at h ⊢
    have hk : ((m * 2 ^ n : Int) : ℝ) = (m : ℝ) * 2 ^ n := by push_cast; ring
    have h3 : (m * 2 ^ n : Int) = 8388608 := by
      have h4 : ((8388608 - 1 : Int) : ℝ) < ((m * 2 ^ n : Int) : ℝ) := by
        rw [hk]; push_cast; linarith [h.1]
      have h5 : ((m * 2 ^ n : Int) : ℝ) < ((8388608 + 1 : Int) : ℝ) := by
        rw [hk]; push_cast; linarith [h.2]
      have h6 := Int.cast_lt.mp h4
      have h7 := Int.cast_lt.mp h5
      omega
    have h8 : (m : ℝ) * 2 ^ n = 8388608 := by
      rw [← hk, h3]; norm_num
    rw [← mul_div_assoc, h8]
    norm_num
  · exfalso
    have he2 : e ≤ -24 := by omega
    have h2 : (2 : ℝ) ^ e ≤ 1 / 16777216 := by
      have := zpow_le_zpow_right₀ (one_le_two : (1 : ℝ) ≤ 2) he2
      have e24 : (2 : ℝ) ^ (-24 : Int) = 1 / 16777216 := by
        rw [zpow_neg]; norm_num
      rwa [e24] at this
    have h3 : (0 : ℝ) < 2 ^ e := zpow_pos (by norm_num) e
    have hm2 : (m : ℝ) ≤ 16777215 := by
      have : m ≤ 16777215 := by have := hm.2; norm_num at this; omega
      exact_mod_cast this
    have h4 : (m : ℝ) * 2 ^ e ≤ 16777215 * 2 ^ e := mul_le_mul_of_nonneg_right hm2 h3.le
    linarith [h.1]

/-- A real within `2^-25` of 1 rounds to the `float` 1. -/
theorem round_float_one {rf : ℝ → ℝ} (hf : IsNearest binary32 rf) {x : ℝ}
    (hx : |x - 1| < 1 / 33554432) : rf x = 1 := by
  apply binary32_gap_one (hf x).1
  have := hf.near one_mem_binary32 x
  linarith

/-! ## The float build refines the exact model -/

/-- With no rounding the float build of `compute_band_energies` is the exact model. -/
theorem compute_band_energies_float_exact {F : Type} [LinearOrderedField F] (sqrt : F → F)
    (m : CELTMode) (X bank : Nat → F) :
    compute_band_energies_float id id sqrt m X bank = compute_band_energies sqrt m X bank := by
  unfold compute_band_energies_float compute_band_energies
  simp only [id, mul_assoc]

/-- With no rounding the float build of `normalise_bands` is the exact model. -/
theorem normalise_bands_float_exact {F : Type} [LinearOrderedField F] (sqrt : F → F)
    (m : CELTMode) (freq X bank : Nat → F) :
    normalise_bands_float id id sqrt m freq X bank = normalise_bands sqrt m freq X bank := by
  unfold normalise_bands_float normalise_bands
  simp only [id]

/-- With no rounding the float build of `stereo_mix` is the exact model. -/
theorem stereo_mix_float_exact {F : Type} [LinearOrderedField F] (sqrt : F → F)
    (m : CELTMode) (X bank : Nat → F) (dir : Int) :
    stereo_mix_float id id sqrt m X bank dir = stereo_mix sqrt m X bank dir := by
  unfold stereo_mix_float stereo_mix
  simp only [id]

/-! ## The float build on a unit impulse -/

/-- What the float build of `compute_band_energies` stores for band `i` and channel `c`. -/
theorem compute_band_energies_float_apply {F : Type} [LinearOrderedField F]
    (rf rd sqrt : F → F) (m : CELTMode) (X bank : Nat → F) (i c : Nat) (hi : i < m.nbEBands)
    (hc : c < m.nbChannels) :
    compute_band_energies_float rf rd sqrt m X bank (i * m.nbChannels + c)
      = rf (rd (ENER_SCALING * rd (sqrt
          (forLoop (m.nbMdctBlocks * m.eBands i) (m.nbMdctBlocks * m.eBands (i + 1))
            (fun j sum => rf (sum
              + rf (rf (rf (SIG_SCALING_1 * SIG_SCALING_1) * X (j * m.nbChannels + c))
                  * X (j * m.nbChannels + c))))
            (rf (rd 1e-10)))))) := by
  unfold compute_band_energies_float
  dsimp only
  apply forLoop_hit 0 m.nbChannels _ bank _ c _ (Nat.zero_le _) hc
  · intro s
    apply forLoop_hit 0 m.nbEBands _ s _ i _ (Nat.zero_le _) hi
    · intro s2
      rw [Function.update_same]
    · intro i2 s2 h1 _
      apply Function.update_noteq
      intro h
      have := (interleave_inj hc hc h).1
      omega
  · intro c2 s h1 h2
    apply forLoop_frame
    intro i2 s2 _ _
    apply Function.update_noteq
    intro h
    have := (interleave_inj hc h2 h).2
    omega

/-- What the float build of `normalise_bands` stores at a sample of band `i`. -/
theorem normalise_bands_float_apply {F : Type} [LinearOrderedField F] (rf rd sqrt : F → F)
    (m : CELTMode) (hord : m.ordered) (freq X bank : Nat → F) (i j c : Nat)
    (hi : i < m.nbEBands) (hc : c < m.nbChannels) (hj1 : m.nbMdctBlocks * m.eBands i ≤ j)
    (hj2 : j < m.nbMdctBlocks * m.eBands (i + 1)) :
    normalise_bands_float rf rd sqrt m freq X bank (j * m.nbChannels + c)
      = rf (rf (rf (NORM_SCALING * SIG_SCALING_1) * freq (j * m.nbChannels + c))
          * rf (rd (1 / rd (rd 1e-10
              + rd (rf (ENER_SCALING_1 * bank (i * m.nbChannels + c))
                  * rd (sqrt (m.nbChannels : F))))))) := by
  unfold normalise_bands_float
  dsimp only
  rw [forLoop_zero_apply, if_neg (by
    have := band_index_lt_padding m hord i j c hi hc hj2
    omega)]
  exact band_loops_hit m hord
    (fun c i j => rf (rf (rf (NORM_SCALING * SIG_SCALING_1) * freq (j * m.nbChannels + c))
      * rf (rd (1 / rd (rd 1e-10
          + rd (rf (ENER_SCALING_1 * bank (i * m.nbChannels + c))
              * rd (sqrt (m.nbChannels : F))))))))
    X i j c hi hc hj1 hj2

/-- The float accumulator of `compute_band_energies` over the eight bins of a unit impulse
ends at exactly 1: the initial `1e-10` is absorbed when the 1 is added. -/
theorem impulse_sum_float {rf rd : ℝ → ℝ} (hf : IsNearest binary32 rf)
    (hd : IsNearest binary64 rd) :
    forLoop 0 8
      (fun j sum => rf (sum
        + rf (rf (rf (SIG_SCALING_1 * SIG_SCALING_1) * impulseSignal (j * 1 + 0))
            * impulseSignal (j * 1 + 0))))
      (rf (rd 1e-10)) = 1 := by
  have h1 : rf 1 = 1 := hf.of_mem one_mem_binary32
  have h0 : rf 0 = 0 := hf.of_mem zero_mem_binary32
  have hs0 : |rf (rd 1e-10)| ≤ 4e-10 := by
    have a := hd.near zero_mem_binary64 1e-10
    have b := hf.near zero_mem_binary32 (rd 1e-10)
    simp only [sub_zero] at a b
    rw [abs_of_pos (by norm_num : (0 : ℝ) < 1e-10)] at a
    norm_num at a b ⊢
    linarith
  have key := forLoop_induct
    (fun (k : Nat) (s : ℝ) => (k = 0 ∧ s = rf (rd 1e-10)) ∨ (0 < k ∧ s = 1)) 0 8
    (fun j sum => rf (sum
        + rf (rf (rf (SIG_SCALING_1 * SIG_SCALING_1) * impulseSignal (j * 1 + 0))
            * impulseSignal (j * 1 + 0))))
    (rf (rd 1e-10)) (by omega) (Or.inl ⟨rfl, rfl⟩)
    (by
      intro j s _ _ hq
      right
      refine ⟨by omega, ?_⟩
      rcases hq with ⟨hj, hs⟩ | ⟨hj, hs⟩
      · subst hj hs
        have e : (impulseSignal (0 * 1 + 0) : ℝ) = 1 := by simp [impulseSignal]
        beta_reduce
        rw [e]
        simp only [SIG_SCALING_1, mul_one, h1]
        apply round_float_one hf
        rw [add_sub_cancel_right]
        have : (4e-10 : ℝ) < 1 / 33554432 := by norm_num
        linarith
      · subst hs
        have e : (impulseSignal (j * 1 + 0) : ℝ) = 0 := by
          simp only [impulseSignal]
          rw [if_neg (by omega)]
        beta_reduce
        rw [e]
        simp only [mul_zero, h0, add_zero, h1])
  rcases key with ⟨h, _⟩ | ⟨_, h⟩
  · omega
  · exact h

/-- The float gain of `normalise_bands` for a mono band whose bank entry is the float 1: the
double `1/(1e-10 + 1)` rounds to the float 1. -/
theorem unit_gain_float {rf rd : ℝ → ℝ} (hf : IsNearest binary32 rf)
    (hd : IsNearest binary64 rd) :
    rf (rd (1 / rd (rd 1e-10 + rd (rf (ENER_SCALING_1 * 1) * rd (Real.sqrt ((1 : ℕ) : ℝ))))))
      = 1 := by
  have h1 : rf 1 = 1 := hf.of_mem one_mem_binary32
  have d1 : rd 1 = 1 := hd.of_mem one_mem_binary64
  simp only [ENER_SCALING_1, mul_one, h1, Nat.cast_one, Real.sqrt_one, d1]
  have a := hd.near zero_mem_binary64 1e-10
  rw [sub_zero, sub_zero, abs_of_pos (by norm_num : (0 : ℝ) < 1e-10)] at a
  have b := hd.near one_mem_binary64 (rd 1e-10 + 1)
  rw [add_sub_cancel_right] at b
  set t := rd (rd 1e-10 + 1) with ht
  have ht1 : |t - 1| ≤ 4e-10 := by norm_num at a ⊢; linarith
  rw [abs_le] at ht1
  have htpos : 0 < t := by norm_num at ht1; linarith [ht1.1]
  have hu : |1 / t - 1| ≤ 1e-9 := by
    have e : 1 / t - 1 = (1 - t) / t := by field_simp
    rw [e, abs_div, abs_of_pos htpos, div_le_iff₀ htpos, abs_le]
    norm_num at ht1 ⊢
    constructor <;> nlinarith [ht1.1, ht1.2]
  have c := hd.near one_mem_binary64 (1 / t)
  apply round_float_one hf
  have : (4e-9 : ℝ) < 1 / 33554432 := by norm_num
  norm_num at hu c ⊢
  linarith

/-- The float build of `compute_band_energies` gives the unit impulse the bank entry 1. -/
theorem impulse_bank_float {rf rd : ℝ → ℝ} (hf : IsNearest binary32 rf)
    (hd : IsNearest binary64 rd) (bank : Nat → ℝ) :
    compute_band_energies_float rf rd Real.sqrt monoMode impulseSignal bank 0 = 1 := by
  have h : compute_band_energies_float rf rd Real.sqrt monoMode impulseSignal bank 0
      = rf (rd (ENER_SCALING * rd (Real.sqrt
          (forLoop 0 8
            (fun j sum => rf (sum
              + rf (rf (rf (SIG_SCALING_1 * SIG_SCALING_1) * impulseSignal (j * 1 + 0))
                  * impulseSignal (j * 1 + 0))))
            (rf (rd 1e-10)))))) :=
    compute_band_energies_float_apply rf rd Real.sqrt monoMode impulseSignal bank 0 0
      (by decide) (by decide)
  rw [h, impulse_sum_float hf hd, Real.sqrt_one, hd.of_mem one_mem_binary64]
  simp only [ENER_SCALING, mul_one]
  rw [hd.of_mem one_mem_binary64, hf.of_mem one_mem_binary32]

/-- With the bank entry 1 the float build of `normalise_bands` returns the unit impulse as it
is: the gain is the float 1. -/
theorem impulse_normalised_float {rf rd : ℝ → ℝ} (hf : IsNearest binary32 rf)
    (hd : IsNearest binary64 rd) (X bank : Nat → ℝ) (hb : bank 0 = 1) (j : Nat) (hj : j < 8) :
    normalise_bands_float rf rd Real.sqrt monoMode impulseSignal X bank (j * 1 + 0)
      = impulseSignal (j * 1 + 0) := by
  have h : normalise_bands_float rf rd Real.sqrt monoMode impulseSignal X bank (j * 1 + 0)
      = rf (rf (rf (NORM_SCALING * SIG_SCALING_1) * impulseSignal (j * 1 + 0))
          * rf (rd (1 / rd (rd 1e-10
              + rd (rf (ENER_SCALING_1 * bank 0) * rd (Real.sqrt ((1 : ℕ) : ℝ))))))) :=
    normalise_bands_float_apply rf rd Real.sqrt monoMode monoMode_ordered impulseSignal X bank
      0 j 0 (by decide) (by decide) (Nat.zero_le _) hj
  have h1 : rf 1 = 1 := hf.of_mem one_mem_binary32
  have h0 : rf 0 = 0 := hf.of_mem zero_mem_binary32
  rw [h, hb, unit_gain_float hf hd]
  have e : (impulseSignal (j * 1 + 0) : ℝ) = 1 ∨ (impulseSignal (j * 1 + 0) : ℝ) = 0 := by
    simp only [impulseSignal]
    split_ifs
    · exact Or.inl rfl
    · exact Or.inr rfl
  rcases e with e | e
  · rw [e]
    simp only [NORM_SCALING, SIG_SCALING_1, mul_one, h1]
  · rw [e]
    simp only [NORM_SCALING, SIG_SCALING_1, mul_one, mul_zero, zero_mul, h1, h0]

/-- C17, counterexample in the float build: for the mono mode with the single band `[0, 8)`
and the unit impulse `[1, 0, …, 0]`, under any roundings to nearest `float` and `double` (such
roundings exist), the accumulator absorbs the `1e-10`, the bank entry is the float 1, the gain
`1/(1e-10 + 1)` rounds to the float 1, and the energy of the normalised band is exactly
`1 = 1/C`, not strictly less. -/
theorem normalised_band_energy_float_not_lt :
    (∃ rf rd : ℝ → ℝ, IsNearest binary32 rf ∧ IsNearest binary64 rd)
    ∧ ∀ rf rd : ℝ → ℝ, IsNearest binary32 rf → IsNearest binary64 rd →
      ∑ j in Finset.Ico (monoMode.nbMdctBlocks * monoMode.eBands 0)
          (monoMode.nbMdctBlocks * monoMode.eBands (0 + 1)),
        normalise_bands_float rf rd Real.sqrt monoMode impulseSignal zeroBuf
          (compute_band_energies_float rf rd Real.sqrt monoMode impulseSignal zeroBuf)
          (j * monoMode.nbChannels + 0) ^ 2 = 1
      ∧ ¬ (∑ j in Finset.Ico (monoMode.nbMdctBlocks * monoMode.eBands 0)
          (monoMode.nbMdctBlocks * monoMode.eBands (0 + 1)),
        normalise_bands_float rf rd Real.sqrt monoMode impulseSignal zeroBuf
          (compute_band_energies_float rf rd Real.sqrt monoMode impulseSignal zeroBuf)
          (j * monoMode.nbChannels + 0) ^ 2 < 1 / (monoMode.nbChannels : ℝ)) := by
  refine ⟨exists_float_roundings, fun rf rd hf hd => ?_⟩
  have hE : ∑ j in Finset.Ico 0 8,
      normalise_bands_float rf rd Real.sqrt monoMode impulseSignal zeroBuf
        (compute_band_energies_float rf rd Real.sqrt monoMode impulseSignal zeroBuf)
        (j * 1 + 0) ^ 2 = 1 := by
    have hc : ∀ j ∈ Finset.Ico 0 8,
        normalise_bands_float rf rd Real.sqrt monoMode impulseSignal zeroBuf
          (compute_band_energies_float rf rd Real.sqrt monoMode impulseSignal zeroBuf)
          (j * 1 + 0) ^ 2 = (impulseSignal (j * 1 + 0) : ℝ) ^ 2 := by
      intro j hj
      rw [impulse_normalised_float hf hd zeroBuf _ (impulse_bank_float hf hd zeroBuf) j
        (Finset.mem_Ico.mp hj).2]
    rw [Finset.sum_congr rfl hc, Finset.sum_Ico_eq_sum_range]
    simp only [Finset.sum_range_succ, Finset.sum_range_zero, impulseSignal]
    norm_num
  refine ⟨hE, ?_⟩
  show ¬ (∑ j in Finset.Ico 0 8,
      normalise_bands_float rf rd Real.sqrt monoMode impulseSignal zeroBuf
        (compute_band_energies_float rf rd Real.sqrt monoMode impulseSignal zeroBuf)
        (j * 1 + 0) ^ 2 < 1 / ((1 : ℕ) : ℝ))
  rw [hE]
  norm_num

/-! ## The float build of the stereo round trip -/

/-- A loop that replaces each pair `(X[2j], X[2j+1])`, `lo ≤ j < hi`, by
`(f l r, g l r)` computed from the pair `(l, r)` it finds stores exactly that and leaves every
other cell alone. -/
theorem pair_loop_apply {F : Type} (f g : F → F → F) (lo hi : Nat) (X : Nat → F) :
    (∀ j, lo ≤ j → j < hi →
        forLoop lo hi (fun j X =>
          Function.update (Function.update X (j * 2) (f (X (j * 2)) (X (j * 2 + 1))))
            (j * 2 + 1) (g (X (j * 2)) (X (j * 2 + 1)))) X (j * 2)
          = f (X (j * 2)) (X (j * 2 + 1))
        ∧ forLoop lo hi (fun j X =>
          Function.update (Function.update X (j * 2) (f (X (j * 2)) (X (j * 2 + 1))))
            (j * 2 + 1) (g (X (j * 2)) (X (j * 2 + 1)))) X (j * 2 + 1)
          = g (X (j * 2)) (X (j * 2 + 1)))
    ∧ (∀ k, k < lo * 2 ∨ hi * 2 ≤ k →
        forLoop lo hi (fun j X =>
          Function.update (Function.update X (j * 2) (f (X (j * 2)) (X (j * 2 + 1))))
            (j * 2 + 1) (g (X (j * 2)) (X (j * 2 + 1)))) X k = X k) := by
  rcases Nat.lt_or_ge hi lo with hlt | hge
  · rw [forLoop_of_le _ _ _ _ (Nat.le_of_lt hlt)]
    exact ⟨fun j h1 h2 => absurd h2 (by omega), fun k _ => rfl⟩
  · refine forLoop_induct
      (fun n s => (∀ j, lo ≤ j → j < n →
          s (j * 2) = f (X (j * 2)) (X (j * 2 + 1))
          ∧ s (j * 2 + 1) = g (X (j * 2)) (X (j * 2 + 1)))
        ∧ (∀ k, k < lo * 2 ∨ n * 2 ≤ k → s k = X k))
      lo hi _ X hge ⟨fun j h1 h2 => absurd h2 (by omega), fun k _ => rfl⟩ ?_
    intro n s hn1 hn2 ⟨hq1, hq2⟩
    have e0 : s (n * 2) = X (n * 2) := hq2 _ (Or.inr (by omega))
    have e1 : s (n * 2 + 1) = X (n * 2 + 1) := hq2 _ (Or.inr (by omega))
    refine ⟨fun j h1 h2 => ?_, fun k hk => ?_⟩
    · rcases Nat.lt_or_ge j n with h | h
      · have := hq1 j h1 h
        rw [Function.update_noteq (by omega), Function.update_noteq (by omega),
          Function.update_noteq (by omega), Function.update_noteq (by omega)]
        exact this
      · have : j = n := by omega
        subst this
        rw [Function.update_noteq (by omega), Function.update_same, Function.update_same,
          e0, e1]
        exact ⟨rfl, rfl⟩
    · rw [Function.update_noteq (by omega), Function.update_noteq (by omega)]
      exact hq2 k (by omega)

/-- The band loop around such a pair loop, for ordered band boundaries: each pair of band `i`
is replaced once, by the functions of band `i`. -/
theorem pair_bands_apply {F : Type} (f g : Nat → F → F → F) (B nb : Nat) (e : Nat → Nat)
    (hord : ∀ i, i ≤ nb → e i ≤ e (i + 1)) (X : Nat → F) (i j : Nat) (hi : i < nb)
    (hj1 : B * e i ≤ j) (hj2 : j < B * e (i + 1)) :
    forLoop 0 nb (fun i X => forLoop (B * e i) (B * e (i + 1)) (fun j X =>
        Function.update (Function.update X (j * 2) (f i (X (j * 2)) (X (j * 2 + 1))))
          (j * 2 + 1) (g i (X (j * 2)) (X (j * 2 + 1)))) X) X (j * 2)
      = f i (X (j * 2)) (X (j * 2 + 1))
    ∧ forLoop 0 nb (fun i X => forLoop (B * e i) (B * e (i + 1)) (fun j X =>
        Function.update (Function.update X (j * 2) (f i (X (j * 2)) (X (j * 2 + 1))))
          (j * 2 + 1) (g i (X (j * 2)) (X (j * 2 + 1)))) X) X (j * 2 + 1)
      = g i (X (j * 2)) (X (j * 2 + 1)) := by
  have key := forLoop_induct
    (fun n s => n ≤ nb →
      (∀ i' j', i' < n → B * e i' ≤ j' → j' < B * e (i' + 1) →
        s (j' * 2) = f i' (X (j' * 2)) (X (j' * 2 + 1))
        ∧ s (j' * 2 + 1) = g i' (X (j' * 2)) (X (j' * 2 + 1)))
      ∧ (∀ k, B * e n * 2 ≤ k → s k = X k))
    0 nb (fun i X => forLoop (B * e i) (B * e (i + 1)) (fun j X =>
        Function.update (Function.update X (j * 2) (f i (X (j * 2)) (X (j * 2 + 1))))
          (j * 2 + 1) (g i (X (j * 2)) (X (j * 2 + 1)))) X) X (Nat.zero_le _)
    (fun _ => ⟨fun i' j' h => absurd h (by omega), fun k _ => rfl⟩)
    (by
      intro n s _ hn2 hq _
      obtain ⟨hq1, hq2⟩ := hq (by omega)
      obtain ⟨hm1, hm2⟩ := pair_loop_apply (f n) (g n) (B * e n) (B * e (n + 1)) s
      have hle : B * e n ≤ B * e (n + 1) := Nat.mul_le_mul_left B (hord n (by omega))
      beta_reduce
      refine ⟨fun i' j' h1 h2 h3 => ?_, fun k hk => ?_⟩
      · rcases Nat.lt_or_ge i' n with h | h
        · have hle2 : B * e (i' + 1) ≤ B * e n := by
            apply Nat.mul_le_mul_left
            have hmono : ∀ d, i' + 1 + d ≤ nb → e (i' + 1) ≤ e (i' + 1 + d) := by
              intro d
              induction d with
              | zero => intro _; exact le_refl _
              | succ d ih => intro hd; exact le_trans (ih (by omega)) (hord _ (by omega))
            have := hmono (n - (i' + 1)) (by omega)
            rwa [show i' + 1 + (n - (i' + 1)) = n by omega] at this
          rw [hm2 _ (Or.inl (by omega)), hm2 _ (Or.inl (by omega))]
          exact hq1 i' j' h h2 h3
        · have : i' = n := by omega
          subst this
          rw [(hm1 j' h2 h3).1, (hm1 j' h2 h3).2, hq2 _ (by omega), hq2 _ (by omega)]
          exact ⟨rfl, rfl⟩
      · rw [hm2 k (Or.inr hk)]
        exact hq2 k (by omega))
  exact (key (le_refl _)).1 i j hi hj1 hj2

/-- What the float build of `stereo_mix` stores in the two channels of a sample of band `i`,
for a two-channel mode with ordered band boundaries. -/
theorem stereo_mix_float_apply {F : Type} [LinearOrderedField F] (rf rd sqrt : F → F)
    (m : CELTMode) (hord : m.ordered) (hC : m.nbChannels = 2) (X bank : Nat → F) (dir : Int)
    (i j : Nat) (hi : i < m.nbEBands)
    (hj1 : m.nbMdctBlocks * m.eBands i ≤ j) (hj2 : j < m.nbMdctBlocks * m.eBands (i + 1)) :
    stereo_mix_float rf rd sqrt m X bank dir (j * 2)
      = rf (rf (rf (rd (bank (i * 2)
              / rd (sqrt (rd (rd (rd 0.01 + rf (bank (i * 2) * bank (i * 2)))
                  + rf (bank (i * 2 + 1) * bank (i * 2 + 1))))))) * X (j * 2))
          + rf (rf (rd (rf ((dir : F) * bank (i * 2 + 1))
              / rd (sqrt (rd (rd (rd 0.01 + rf (bank (i * 2) * bank (i * 2)))
                  + rf (bank (i * 2 + 1) * bank (i * 2 + 1))))))) * X (j * 2 + 1)))
    ∧ stereo_mix_float rf rd sqrt m X bank dir (j * 2 + 1)
      = rf (rf (rf (rd (bank (i * 2)
              / rd (sqrt (rd (rd (rd 0.01 + rf (bank (i * 2) * bank (i * 2)))
                  + rf (bank (i * 2 + 1) * bank (i * 2 + 1))))))) * X (j * 2 + 1))
          - rf (rf (rd (rf ((dir : F) * bank (i * 2 + 1))
              / rd (sqrt (rd (rd (rd 0.01 + rf (bank (i * 2) * bank (i * 2)))
                  + rf (bank (i * 2 + 1) * bank (i * 2 + 1))))))) * X (j * 2))) := by
  have hp0 := band_index_lt_padding m hord i j 0 hi (by omega) hj2
  have hp1 := band_index_lt_padding m hord i j 1 hi (by omega) hj2
  obtain ⟨B, C, nb, e, pe, npb, pb⟩ := m
  simp only at hC hp0 hp1 hj1 hj2 hi
  subst hC
  have hord2 : ∀ i, i ≤ nb → e i ≤ e (i + 1) := hord
  unfold stereo_mix_float
  simp only []
  rw [forLoop_zero_apply, forLoop_zero_apply, if_neg (by omega), if_neg (by omega)]
  exact pair_bands_apply
    (fun i l r => rf (rf (rf (rd (bank (i * 2)
              / rd (sqrt (rd (rd (rd 0.01 + rf (bank (i * 2) * bank (i * 2)))
                  + rf (bank (i * 2 + 1) * bank (i * 2 + 1))))))) * l)
          + rf (rf (rd (rf ((dir : F) * bank (i * 2 + 1))
              / rd (sqrt (rd (rd (rd 0.01 + rf (bank (i * 2) * bank (i * 2)))
                  + rf (bank (i * 2 + 1) * bank (i * 2 + 1))))))) * r)))
    (fun i l r => rf (rf (rf (rd (bank (i * 2)
              / rd (sqrt (rd (rd (rd 0.01 + rf (bank (i * 2) * bank (i * 2)))
                  + rf (bank (i * 2 + 1) * bank (i * 2 + 1))))))) * r)
          - rf (rf (rd (rf ((dir : F) * bank (i * 2 + 1))
              / rd (sqrt (rd (rd (rd 0.01 + rf (bank (i * 2) * bank (i * 2)))
                  + rf (bank (i * 2 + 1) * bank (i * 2 + 1))))))) * l)))
    B nb e hord2 X i j hi hj1 hj2

/-- The float coefficient `a1` of `stereo_mix` for `left = 32768`, `right = 0`: the double
`32768/sqrt(.01 + 2^30)` rounds to the float 1. -/
theorem left_coefficient_float {rf rd : ℝ → ℝ} (hf : IsNearest binary32 rf)
    (hd : IsNearest binary64 rd) :
    rf (rd (32768 / rd (Real.sqrt (rd (rd (rd 0.01 + rf (32768 * 32768)) + rf (0 * 0))))))
      = 1 := by
  have e30 : (32768 : ℝ) * 32768 = 2 ^ 30 := by norm_num
  have e15 : (32768 : ℝ) = 2 ^ 15 := by norm_num
  have m30 : (1073741824 : ℝ) ∈ binary64 := by
    have := pow_two_mem_binary64 30 (by omega)
    norm_num at this
    exact this
  have m15 : (32768 : ℝ) ∈ binary64 := by
    have := pow_two_mem_binary64 15 (by omega)
    norm_num at this
    exact this
  have f30 : rf (32768 * 32768) = 1073741824 := by
    rw [e30, hf.of_mem (pow_two_mem_binary32 30 (by omega))]
    norm_num
  rw [f30, mul_zero, hf.of_mem zero_mem_binary32, add_zero]
  have a := hd.near zero_mem_binary64 0.01
  simp only [sub_zero] at a
  rw [abs_of_pos (by norm_num : (0 : ℝ) < 0.01)] at a
  have b := hd.near m30 (rd 0.01 + 1073741824)
  rw [add_sub_cancel_right] at b
  set s1 := rd (rd 0.01 + 1073741824) with hs1
  have c := hd.near m30 s1
  set s2 := rd s1 with hs2
  have hs2b : |s2 - 1073741824| ≤ 0.08 := by norm_num at a b c ⊢; linarith
  rw [abs_le] at hs2b
  have hr : |Real.sqrt s2 - 32768| ≤ 1e-5 := by
    rw [abs_le]
    constructor
    · have : (32768 - 1e-5 : ℝ) ≤ Real.sqrt s2 := by
        apply Real.le_sqrt_of_sq_le
        norm_num at hs2b ⊢
        linarith [hs2b.1]
      linarith
    · have : Real.sqrt s2 ≤ 32768 + 1e-5 := by
        rw [Real.sqrt_le_left (by norm_num)]
        norm_num at hs2b ⊢
        linarith [hs2b.2]
      linarith
  have d := hd.near m15 (Real.sqrt s2)
  set q := rd (Real.sqrt s2) with hq
  have hqb : |q - 32768| ≤ 2e-5 := by norm_num at hr d ⊢; linarith
  rw [abs_le] at hqb
  have hqpos : 0 < q := by norm_num at hqb; linarith [hqb.1]
  have hu : |32768 / q - 1| ≤ 1e-9 := by
    have e : 32768 / q - 1 = (32768 - q) / q := by field_simp
    rw [e, abs_div, abs_of_pos hqpos, div_le_iff₀ hqpos, abs_le]
    norm_num at hqb ⊢
    constructor <;> nlinarith [hqb.1, hqb.2]
  have g := hd.near one_mem_binary64 (32768 / q)
  apply round_float_one hf
  have : (4e-9 : ℝ) < 1 / 33554432 := by norm_num
  norm_num at hu g ⊢
  linarith

/-- The float build of `stereo_mix` with the bank `left = 32768`, `right = 0` returns a pair of
floats of band 0 as it is, for either direction: `a1` is the float 1 and `a2` is 0. -/
theorem left_bank_mix_float {rf rd : ℝ → ℝ} (hf : IsNearest binary32 rf)
    (hd : IsNearest binary64 rd) (X : Nat → ℝ) (dir : Int) (j : Nat) (hj : j < 4)
    (hl : X (j * 2) ∈ binary32) (hr : X (j * 2 + 1) ∈ binary32) :
    stereo_mix_float rf rd Real.sqrt stereoMode X leftBank dir (j * 2) = X (j * 2)
    ∧ stereo_mix_float rf rd Real.sqrt stereoMode X leftBank dir (j * 2 + 1)
        = X (j * 2 + 1) := by
  obtain ⟨h1, h2⟩ := stereo_mix_float_apply rf rd Real.sqrt stereoMode stereoMode_ordered rfl
    X leftBank dir 0 j (by decide) (Nat.zero_le _) hj
  have e0 : (leftBank (0 * 2) : ℝ) = 32768 := by simp [leftBank]
  have e1 : (leftBank (0 * 2 + 1) : ℝ) = 0 := by simp [leftBank]
  have r0 : rf 0 = 0 := hf.of_mem zero_mem_binary32
  have d0 : rd 0 = 0 := hd.of_mem zero_mem_binary64
  rw [e0, e1] at h1 h2
  rw [left_coefficient_float hf hd] at h1 h2
  rw [mul_zero, r0, zero_div, d0, r0] at h1 h2
  rw [one_mul, zero_mul, r0, hf.of_mem hl, add_zero, hf.of_mem hl] at h1
  rw [one_mul, zero_mul, r0, hf.of_mem hr, sub_zero, hf.of_mem hr] at h2
  exact ⟨h1, h2⟩

/-- Every sample of the stereo signal is a float. -/
theorem stereoSignal_float (k : Nat) : (stereoSignal k : ℝ) ∈ binary32 := by
  unfold stereoSignal
  split_ifs
  · exact one_mem_binary32
  · exact zero_mem_binary32

/-- C18, counterexample in the float build: for the stereo mode with the single band `[0, 4)`,
the bank `left = 32768`, `right = 0` and the signal `L = [1,0,0,0]`, `R = [0,1,0,0]`, under any
roundings to nearest `float` and `double` (such roundings exist), the coefficient
`a1 = 32768/sqrt(.01 + 2^30)` rounds to the float 1 and `a2` is 0, so `stereo_mix(+1)` followed
by `stereo_mix(-1)` returns every sample of the band unchanged: the round trip is the exact
identity, and `X[0] = 1` has not been multiplied by `T/(0.01 + T) < 1`. -/
theorem stereo_mix_float_roundtrip_identity :
    (∃ rf rd : ℝ → ℝ, IsNearest binary32 rf ∧ IsNearest binary64 rd)
    ∧ ∀ rf rd : ℝ → ℝ, IsNearest binary32 rf → IsNearest binary64 rd →
      (∀ j, j < 4 →
        stereo_mix_float rf rd Real.sqrt stereoMode
            (stereo_mix_float rf rd Real.sqrt stereoMode stereoSignal leftBank 1) leftBank (-1)
            (j * 2) = stereoSignal (j * 2)
        ∧ stereo_mix_float rf rd Real.sqrt stereoMode
            (stereo_mix_float rf rd Real.sqrt stereoMode stereoSignal leftBank 1) leftBank (-1)
            (j * 2 + 1) = stereoSignal (j * 2 + 1))
      ∧ stereo_mix_float rf rd Real.sqrt stereoMode
            (stereo_mix_float rf rd Real.sqrt stereoMode stereoSignal leftBank 1) leftBank (-1)
            (0 * 2)
          ≠ (leftBank (0 * 2) * leftBank (0 * 2) + leftBank (0 * 2 + 1) * leftBank (0 * 2 + 1))
              / (0.01 + leftBank (0 * 2) * leftBank (0 * 2)
                  + leftBank (0 * 2 + 1) * leftBank (0 * 2 + 1))
              * stereoSignal (0 * 2) := by
  refine ⟨exists_float_roundings, fun rf rd hf hd => ?_⟩
  have hrt : ∀ j, j < 4 →
      stereo_mix_float rf rd Real.sqrt stereoMode
          (stereo_mix_float rf rd Real.sqrt stereoMode stereoSignal leftBank 1) leftBank (-1)
          (j * 2) = stereoSignal (j * 2)
      ∧ stereo_mix_float rf rd Real.sqrt stereoMode
          (stereo_mix_float rf rd Real.sqrt stereoMode stereoSignal leftBank 1) leftBank (-1)
          (j * 2 + 1) = stereoSignal (j * 2 + 1) := by
    intro j hj
    obtain ⟨a1, a2⟩ := left_bank_mix_float hf hd stereoSignal 1 j hj (stereoSignal_float _)
      (stereoSignal_float _)
    obtain ⟨b1, b2⟩ := left_bank_mix_float hf hd
      (stereo_mix_float rf rd Real.sqrt stereoMode stereoSignal leftBank 1) (-1) j hj
      (by rw [a1]; exact stereoSignal_float _) (by rw [a2]; exact stereoSignal_float _)
    exact ⟨b1.trans a1, b2.trans a2⟩
  refine ⟨hrt, ?_⟩
  rw [(hrt 0 (by omega)).1]
  have e0 : (leftBank (0 * 2) : ℝ) = 32768 := by simp [leftBank]
  have e1 : (leftBank (0 * 2 + 1) : ℝ) = 0 := by simp [leftBank]
  have e2 : (stereoSignal (0 * 2) : ℝ) = 1 := by simp [stereoSignal]
  rw [e0, e1, e2]
  norm_num

end Celt
